import Mathlib

/-!
Verification of the CryptaPath/crush CRHS equation-system engine.

This file gives a shallow embedding of the core data structures and
operations of the `crush` crate (GF(2) bit-matrix algebra, BDD levels and
nodes, the `swap` / `add` / `absorb` rewrites, the `LinBank` of linear
equations and the `System` orchestration layer), translated from the Rust
sources, together with theorems settling the frozen claims about them.

Modelling conventions:
* `Vob` bit-vectors are `List Bool` (index 0 = least significant bit,
  matching the little-endian reading of `Vob`).
* `AHashMap`s are association lists in insertion order (`List (Nat × α)`);
  `insert` replaces an existing binding in place, otherwise appends.
* Rust panics are modelled by the `POut` outcome type: `POut.panic msg`
  is an unwound panic carrying the panic message, `POut.ok` a normal
  return.  Rust `Result` values are modelled by `Except String` inside
  `POut`.
* `&mut self` methods become state-passing functions returning the new
  state.
-/

namespace Crush

/-- Outcome of running a piece of Rust code that may panic. -/
inductive POut (α : Type) where
  | ok : α → POut α
  | panic : String → POut α
deriving Repr, DecidableEq

namespace POut

def bind : POut α → (α → POut β) → POut β
  | .ok a, f => f a
  | .panic m, _ => .panic m

def map (f : α → β) : POut α → POut β
  | .ok a => .ok (f a)
  | .panic m => .panic m

instance : Monad POut where
  pure := .ok
  bind := bind
  map := map

end POut

/-! ## Association lists (model of `AHashMap` in insertion order) -/

/-- Lookup in an association list (`HashMap::get`). -/
def alookup (k : Nat) : List (Nat × α) → Option α
  | [] => none
  | (k', v) :: rest => if k' = k then some v else alookup k rest

/-- Insert into an association list (`HashMap::insert`): replace an
existing binding in place, otherwise append at the end. -/
def ainsert (k : Nat) (v : α) : List (Nat × α) → List (Nat × α)
  | [] => [(k, v)]
  | (k', v') :: rest =>
      if k' = k then (k', v) :: rest else (k', v') :: ainsert k v rest

/-- Remove a key from an association list (`HashMap::remove`). -/
def aremove (k : Nat) : List (Nat × α) → List (Nat × α)
  | [] => []
  | (k', v') :: rest =>
      if k' = k then rest else (k', v') :: aremove k rest

/-! ## Bit rows (model of `Vob`) -/

/-- A row of bits; index 0 is bit 0. -/
abbrev Row := List Bool

/-- XOR of two equal-length rows (`Vob::xor`). -/
def xorRow (a b : Row) : Row := List.zipWith xor a b

/-- `get_max_set_bit` / `get_lhs_max_set_bit`: index of the highest set
bit, `none` for an all-zero (or empty) row. -/
def maxSetBit : Row → Option Nat
  | [] => none
  | b :: rest =>
      match maxSetBit rest with
      | some i => some (i + 1)
      | none => if b then some 0 else none

/-- Bit test, defaulting to `false` out of range (`Vob` indexing is only
exercised in range throughout this development). -/
def bit (r : Row) (i : Nat) : Bool := r.getD i false

/-- The all-zero row of a given width. -/
def zeroRow (w : Nat) : Row := List.replicate w false

/-! ## The `soc` data model: `Node`, `Level`, `Bdd`, `LinEq` -/

/-- `Node`: two optional outgoing edges (`soc/node.rs`). -/
structure Node where
  e0 : Option Nat
  e1 : Option Nat
deriving Repr, DecidableEq

/-- `Node::flip_edges`. -/
def Node.flip_edges (n : Node) : Node := ⟨n.e1, n.e0⟩

/-- `Level`: a linear form over the system variables plus an id-keyed node
map (`soc/level.rs`); the map is kept in insertion order. -/
structure Level where
  nodes : List (Nat × Node)
  lhs : Row
deriving Repr, DecidableEq

/-- `LinEq`: one linear equation `lhs · x = rhs` (`soc/bdd.rs`). -/
structure LinEq where
  lhs : Row
  rhs : Bool
deriving Repr, DecidableEq

/-- `LinEq::get_lhs_max_set_bit`. -/
def LinEq.get_lhs_max_set_bit (e : LinEq) : Option Nat := maxSetBit e.lhs

/-- `LinEq::add_lin_eq` (XOR of both sides). -/
def LinEq.add_lin_eq (e other : LinEq) : LinEq :=
  ⟨xorRow e.lhs other.lhs, xor e.rhs other.rhs⟩

/-- `Bdd`: an ordered sequence of levels plus the id of the BDD and the
counter used to mint node ids (`soc/bdd.rs`). -/
structure Bdd where
  levels : List Level
  id : Nat
  next_id : Nat
deriving Repr, DecidableEq

/-- `Bdd::get_sink_level_index` (`levels.len() - 1`). -/
def Bdd.get_sink_level_index (b : Bdd) : Nat := b.levels.length - 1

/-- `Bdd::get_levels_size`. -/
def Bdd.get_levels_size (b : Bdd) : Nat := b.levels.length

/-- `Bdd::get_nvar_size` (`levels[0].get_lhs().len()`); panics when the
BDD has no levels. -/
def Bdd.get_nvar_size (b : Bdd) : POut Nat :=
  match b.levels with
  | [] => .panic "index out of bounds"
  | l :: _ => .ok l.lhs.length

/-- `Bdd::get_lhs`: the forms of all levels but the sink. -/
def Bdd.get_lhs (b : Bdd) : List Row :=
  (b.levels.take (b.levels.length - 1)).map Level.lhs

/-- `Bdd::get_size`: total node count. -/
def Bdd.get_size (b : Bdd) : Nat :=
  b.levels.foldl (fun acc l => acc + l.nodes.length) 0

/-- Fetch a level by index, defaulting to an empty level; all uses in the
theorems below are guarded by in-range hypotheses mirroring the Rust
bounds checks. -/
def Bdd.levelAt (b : Bdd) (i : Nat) : Level := b.levels.getD i ⟨[], []⟩

/-- Functionally update a level. -/
def Bdd.setLevel (b : Bdd) (i : Nat) (l : Level) : Bdd :=
  { b with levels := b.levels.set i l }

/-- Loop body of `Level::check_outgoing_edges`. -/
def checkOutgoingGo : List (Nat × Node) → Bool → Bool → Bool × Bool
  | [], z, o => (z, o)
  | (_, n) :: rest, z, o =>
      let z' := if !z && n.e0.isSome then true else z
      let o' := if !o && n.e1.isSome then true else o
      if z' = o' then (z', o') else checkOutgoingGo rest z' o'

/-- `Level::check_outgoing_edges`, including the short-circuit that stops
as soon as the two flags coincide (which, on a level whose first node has
no edges, reports `(false, false)` even if later nodes have edges). -/
def Level.check_outgoing_edges (l : Level) : Bool × Bool :=
  checkOutgoingGo l.nodes false false

/-- `Level::flip_edges`. -/
def Level.flip_edges (l : Level) : Level :=
  { l with nodes := l.nodes.map (fun p => (p.1, p.2.flip_edges)) }

/-- `Level::is_var_set` (panics when `var` is outside the form). -/
def Level.is_var_set (l : Level) (var : Nat) : POut Bool :=
  if var < l.lhs.length then .ok (bit l.lhs var) else .panic "attempt to access a var outside of lhs"

/-- `Level::add_lhs` (XOR the given row into the form). -/
def Level.add_lhs (l : Level) (added : Row) : Level :=
  { l with lhs := xorRow l.lhs added }

/-- `Level::remove_nodes_from_set`. -/
def Level.remove_nodes_from_set (l : Level) (s : List Nat) : Level :=
  { l with nodes := l.nodes.filter (fun p => !s.contains p.1) }

/-- `Level::remove_nodes_from_map`: drop all nodes whose id is a key of
the map. -/
def Level.remove_nodes_from_map (l : Level) (m : List (Nat × Nat)) : Level :=
  { l with nodes := l.nodes.filter (fun p => (alookup p.1 m).isNone) }

/-- `Level::remove_node`. -/
def Level.remove_node (l : Level) (id : Nat) : Level :=
  { l with nodes := aremove id l.nodes }

/-! ## `Bdd::swap` and `Bdd::add` -/

/-- Lookup in the `known_functions` map keyed by edge pairs. -/
def plookup (c : Option Nat × Option Nat) :
    List ((Option Nat × Option Nat) × Nat) → Option Nat
  | [] => none
  | (c', v) :: rest => if c' = c then some v else plookup c rest

/-- Insert into the `known_functions` map (fresh keys append). -/
def pinsert (c : Option Nat × Option Nat) (v : Nat) :
    List ((Option Nat × Option Nat) × Nat) → List ((Option Nat × Option Nat) × Nat)
  | [] => [(c, v)]
  | (c', v') :: rest =>
      if c' = c then (c', v) :: rest else (c', v') :: pinsert c v rest

/-- State threaded through the per-node loops of `swap` and `add`: the
rewired nodes of the upper level so far, the `known_functions` map, the
`nodes` map being built for the lower level, and the id counter. -/
structure SwapState where
  parents : List (Nat × Node)
  known : List ((Option Nat × Option Nat) × Nat)
  nodes : List (Nat × Node)
  next_id : Nat
deriving Repr, DecidableEq

/-- The grandchild edges reached through one edge of a node at the upper
level (`e0_edges` / `e1_edges` in `Bdd::swap`), together with the node
after the dangling-edge disconnect the code performs on a missing child.
`sel = false` inspects `e0`, `sel = true` inspects `e1`. -/
def grandEdges (belowNodes : List (Nat × Node)) (n : Node) (sel : Bool) :
    Node × (Option Nat × Option Nat) :=
  match (if sel then n.e1 else n.e0) with
  | some c =>
      match alookup c belowNodes with
      | some ch => (n, (ch.e0, ch.e1))
      | none =>
          (if sel then { n with e1 := none } else { n with e0 := none }, (none, none))
  | none => (n, (none, none))

/-- One step of the `swap` grouping: given the column of grandchildren
that must become the new `sel`-child of the parent, connect the parent to
an existing node representing that function or mint a fresh one. -/
def swapGroup (bddId : Nat) (st : SwapState) (n : Node) (col : Option Nat × Option Nat)
    (sel : Bool) : SwapState × Node :=
  if col.1.isSome || col.2.isSome then
    match plookup col st.known with
    | some ex =>
        (st, if sel then { n with e1 := some ex } else { n with e0 := some ex })
    | none =>
        let nid := st.next_id + 1
        let gid := nid * 10000 + bddId
        ({ st with
            next_id := nid
            nodes := ainsert gid ⟨col.1, col.2⟩ st.nodes
            known := pinsert col gid st.known },
          if sel then { n with e1 := some gid } else { n with e0 := some gid })
  else
    (st, if sel then { n with e1 := none } else { n with e0 := none })

/-- Per-parent body of the `swap` loop. -/
def swapStep (belowNodes : List (Nat × Node)) (bddId : Nat) (st : SwapState)
    (p : Nat × Node) : SwapState :=
  let (n₁, e0e) := grandEdges belowNodes p.2 false
  let (n₂, e1e) := grandEdges belowNodes n₁ true
  let (st₁, n₃) := swapGroup bddId st n₂ (e0e.1, e1e.1) false
  let (st₂, n₄) := swapGroup bddId st₁ n₃ (e0e.2, e1e.2) true
  { st₂ with parents := st₂.parents ++ [(p.1, n₄)] }

/-- `Bdd::swap(i, i+1)`: exchange the forms of levels `i` and `i+1`,
rebuilding level `i+1` from the grouped grandchildren (the `assert!` that
the two levels are adjacent is folded into taking the single index `i`). -/
def Bdd.swap (b : Bdd) (i : Nat) : Bdd :=
  let above := b.levelAt i
  let below := b.levelAt (i + 1)
  let st := above.nodes.foldl (swapStep below.nodes b.id) ⟨[], [], [], b.next_id⟩
  let b₁ := { b with next_id := st.next_id }
  let b₂ := b₁.setLevel i ⟨st.parents, below.lhs⟩
  b₂.setLevel (i + 1) ⟨st.nodes, above.lhs⟩

/-- Per-parent body of the `add` loop (`Bdd::add` after the swaps). -/
def addStep (belowNodes : List (Nat × Node)) (bddId : Nat) (st : SwapState)
    (p : Nat × Node) : SwapState :=
  let (pid, n₀) := p
  let (st₁, n₁) :=
    match n₀.e0 with
    | some e0 =>
        match alookup e0 belowNodes with
        | some ch =>
            let edges := (ch.e0, ch.e1)
            match plookup edges st.known with
            | some ex => (st, { n₀ with e0 := some ex })
            | none =>
                ({ st with
                    nodes := ainsert e0 ⟨edges.1, edges.2⟩ st.nodes
                    known := pinsert edges e0 st.known }, n₀)
        | none => (st, { n₀ with e0 := none })
    | none => (st, n₀)
  let (st₂, n₂) :=
    match n₁.e1 with
    | some e1 =>
        match alookup e1 belowNodes with
        | some ch =>
            let edges := (ch.e1, ch.e0)
            match plookup edges st₁.known with
            | some ex => (st₁, { n₁ with e1 := some ex })
            | none =>
                let nid := st₁.next_id + 1
                let gid := nid * 10000 + bddId
                ({ st₁ with
                    next_id := nid
                    nodes := ainsert gid ⟨edges.1, edges.2⟩ st₁.nodes
                    known := pinsert edges gid st₁.known },
                  { n₁ with e1 := some gid })
        | none => (st₁, { n₁ with e1 := none })
    | none => (st₁, n₁)
  { st₂ with parents := st₂.parents ++ [(pid, n₂)] }

/-- The adjacent core of `Bdd::add`, acting between levels `above` and
`above + 1`: the `e1` subtrees have their edges flipped, and finally the
form of level `above` is XORed into the form of level `above + 1`. -/
def Bdd.addCore (b : Bdd) (above : Nat) : Bdd :=
  let abv := b.levelAt above
  let blw := b.levelAt (above + 1)
  let st := abv.nodes.foldl (addStep blw.nodes b.id) ⟨[], [], [], b.next_id⟩
  let b₁ := { b with next_id := st.next_id }
  let b₂ := b₁.setLevel above ⟨st.parents, abv.lhs⟩
  b₂.setLevel (above + 1) ⟨st.nodes, xorRow blw.lhs abv.lhs⟩

/-- The swap-down loop of `Bdd::add`, counted by the remaining gap
`below - above - 1`. -/
def Bdd.addGo (b : Bdd) (above : Nat) : Nat → Bdd
  | 0 => b.addCore above
  | g + 1 => Bdd.addGo (b.swap above) (above + 1) g

/-- `Bdd::add(i, j)` with `i < j`: swap level `i` down until it is
directly above level `j`, then run the adjacent add core. -/
def Bdd.add (b : Bdd) (above below : Nat) : Bdd :=
  b.addGo above (below - above - 1)

/-! ## Structural reductions and `Bdd::absorb` -/

/-- Redirect one node's edges through a replacement map
(`point_all_parents_to_new_level_map`, per node). -/
def redirectNode (m : List (Nat × Nat)) (n : Node) : Node :=
  { e0 :=
      match n.e0 with
      | some e => match alookup e m with
        | some nw => some nw
        | none => some e
      | none => none
    e1 :=
      match n.e1 with
      | some e => match alookup e m with
        | some nw => some nw
        | none => some e
      | none => none }

/-- `Bdd::point_all_parents_to_new_level_map`: on levels
`level_start..level_max`, point existing edges through the map. -/
def Bdd.pointParents (b : Bdd) (m : List (Nat × Nat)) (level_start level_max : Nat) : Bdd :=
  { b with
      levels := b.levels.mapIdx (fun idx l =>
        if level_start ≤ idx ∧ idx < level_max then
          { l with nodes := l.nodes.map (fun p => (p.1, redirectNode m p.2)) }
        else l) }

/-- Drop an edge whose target is absent from the level below
(the validity fix-up inside `remove_all_dead_ends_start`). -/
def cleanEdge (below : List (Nat × Node)) (e : Option Nat) : Option Nat :=
  match e with
  | some c => if (alookup c below).isSome then some c else none
  | none => none

/-- The upward dead-end sweep `remove_all_dead_ends_start`, walking level
`i` down to `0` and stopping early on a level that loses no node. -/
def Bdd.deadEndsGo : Bdd → Nat → Bdd
  | b, i =>
      let below := (b.levelAt (i + 1)).nodes
      let lvl := b.levelAt i
      let fixed := lvl.nodes.map (fun p => (p.1, Node.mk (cleanEdge below p.2.e0) (cleanEdge below p.2.e1)))
      let keep := fixed.filter (fun p => p.2.e0.isSome || p.2.e1.isSome)
      let removedAny := decide (keep.length < fixed.length)
      let b' := b.setLevel i ⟨keep, lvl.lhs⟩
      if removedAny then
        match i with
        | 0 => b'
        | i' + 1 => Bdd.deadEndsGo b' i'
      else b'

/-- `Bdd::remove_all_dead_ends_start`. -/
def Bdd.removeAllDeadEndsStart (b : Bdd) (start : Nat) : Bdd :=
  b.deadEndsGo start

/-- Insert into a hash-set modelled as a duplicate-free list. -/
def setInsert (x : Nat) (s : List Nat) : List Nat :=
  if s.contains x then s else s ++ [x]

/-- `Level::remove_orphans`: keep the nodes whose id is consumed from
`parents`, feeding their outgoing edges back into the set; report whether
any node was removed. -/
def levelRemoveOrphans (nodes : List (Nat × Node)) (parents : List Nat) :
    List (Nat × Node) × List Nat × Bool :=
  let res := nodes.foldl
    (fun (acc : List (Nat × Node) × List Nat) p =>
      if acc.2.contains p.1 then
        let s₁ := acc.2.erase p.1
        let s₂ := match p.2.e0 with
          | some e => setInsert e s₁
          | none => s₁
        let s₃ := match p.2.e1 with
          | some e => setInsert e s₂
          | none => s₂
        (acc.1 ++ [p], s₃)
      else (acc.1, acc.2)) ([], parents)
  (res.1, res.2, decide (res.1.length < nodes.length))

/-- The downward loop of `remove_orphans_start`, with the remaining number
of levels to visit as the (exact) recursion counter. -/
def Bdd.orphansGo : Bdd → Nat → List Nat → Nat → Bdd
  | b, _, _, 0 => b
  | b, i, parents, fuel + 1 =>
      let lvl := b.levelAt i
      let (keep, parents', removed) := levelRemoveOrphans lvl.nodes parents
      let b' := b.setLevel i ⟨keep, lvl.lhs⟩
      if removed then Bdd.orphansGo b' (i + 1) parents' fuel else b'

/-- `Bdd::remove_orphans_start` (callers always pass `start ≠ 0`, matching
the `assert!`): seed the parent set from level `start - 1` and sweep
downwards, stopping at the level above the sink or as soon as a level
loses nothing. -/
def Bdd.removeOrphansStart (b : Bdd) (start : Nat) : Bdd :=
  let parents := (b.levelAt (start - 1)).nodes.foldl
    (fun s p =>
      let s₁ := match p.2.e0 with
        | some e => setInsert e s
        | none => s
      match p.2.e1 with
      | some e => setInsert e s₁
      | none => s₁) []
  b.orphansGo start parents (b.levels.length - 1 - start)

/-- One level of `merge_equals_node_start`: returns the duplicate-to-
canonical map and whether any duplicate was found. -/
def mergeLevelMap (nodes : List (Nat × Node)) :
    List (Nat × Nat) × Bool :=
  let res := nodes.foldl
    (fun (acc : List ((Option Nat × Option Nat) × Nat) × List (Nat × Nat) × Bool) p =>
      match plookup (p.2.e0, p.2.e1) acc.1 with
      | some ex => (acc.1, ainsert p.1 ex acc.2.1, true)
      | none => (pinsert (p.2.e0, p.2.e1) p.1 acc.1, acc.2.1, acc.2.2))
    ([], [], false)
  (res.2.1, res.2.2)

/-- `Bdd::merge_equals_node_start`: merge duplicate-function nodes walking
upwards from `level_index`, stopping below level 2 or when a level had no
duplicates. -/
def Bdd.mergeGo : Bdd → Nat → Bdd
  | b, 0 => b
  | b, 1 => b
  | b, i + 2 =>
      let lvl := b.levelAt (i + 2)
      let (map, changed) := mergeLevelMap lvl.nodes
      let b' := b.pointParents map (i + 1) (i + 2)
      let b'' := b'.setLevel (i + 2)
        ⟨(b'.levelAt (i + 2)).nodes.filter (fun p => (alookup p.1 map).isNone), lvl.lhs⟩
      if changed then Bdd.mergeGo b'' (i + 1) else b''

/-- `Bdd::absorb_source`: drop the opposing edge of the single top node,
delete the source level, panic when the new top level is empty, then sweep
orphans from the new level 1. -/
def Bdd.absorb_source (b : Bdd) (edge : Bool) : POut Bdd :=
  match (b.levelAt 0).nodes.getLast? with
  | none => .panic "called Option::unwrap on a None value"
  | some (_, node) =>
      let b₁ :=
        if node.e0 ≠ node.e1 then
          if !edge then
            match node.e1 with
            | some e1 => b.setLevel 1 ((b.levelAt 1).remove_node e1)
            | none => b
          else
            match node.e0 with
            | some e0 => b.setLevel 1 ((b.levelAt 1).remove_node e0)
            | none => b
        else b
      let b₂ := { b₁ with levels := b₁.levels.eraseIdx 0 }
      match b₂.levels with
      | [] => .panic "index out of bounds"
      | l :: _ =>
          if l.nodes.length = 0 then .panic "System has no solutions"
          else .ok (b₂.removeOrphansStart 1)

/-- `Bdd::absorb(level_index, edge)`: short-circuit each parent to the
`edge`-child of the absorbed node, panic (`System has no solutions`) when
no node of the level has an `edge`-child, delete the level, then restore
the invariants with the dead-end / orphan / merge sweeps. -/
def Bdd.absorb (b : Bdd) (level_index : Nat) (edge : Bool) : POut Bdd :=
  if level_index = 0 then b.absorb_source edge
  else
    let lvl := b.levelAt level_index
    let new_level : List (Nat × Nat) :=
      lvl.nodes.foldl
        (fun acc p =>
          match (if edge then p.2.e1 else p.2.e0) with
          | some e => ainsert p.1 e acc
          | none => acc) []
    if new_level.isEmpty then .panic "System has no solutions"
    else
      let b₁ := b.pointParents new_level (level_index - 1) level_index
      let b₂ := { b₁ with levels := b₁.levels.eraseIdx level_index }
      let b₃ := b₂.removeAllDeadEndsStart (level_index - 1)
      let b₄ := b₃.removeOrphansStart level_index
      .ok (b₄.mergeGo (level_index - 1))

/-! ## GF(2) matrix algebra (`algebra/mod.rs`)

A `Matrix` is its list of rows. -/

/-- The rows of a matrix. -/
abbrev Rows := List Row

/-- Index of the first (lowest) set bit (`iter_set_bits(..).next()`). -/
def minSetBit : Row → Option Nat
  | [] => none
  | b :: rest =>
      if b then some 0 else (minSetBit rest).map (· + 1)

/-- Swap two rows (`Vec::swap`). -/
def rowsSwap (rows : Rows) (i j : Nat) : Rows :=
  let ri := rows.getD i []
  let rj := rows.getD j []
  (rows.set i rj).set j ri

/-- Swap two bits of the right-hand-side vector. -/
def bitsSwap (r : Row) (i j : Nat) : Row :=
  let vi := bit r i
  let vj := bit r j
  (r.set i vj).set j vi

/-- The pivot scan shared by the elimination loops: starting from row `i`,
walk `j = i-1, …, 0` and keep the row with the strictly largest highest
set bit (ties keep the earlier-found, i.e. higher, index). Returns
`(max_row, highest_set_bit)`. -/
def scanPivot (rows : Rows) (i : Nat) : Nat × Option Nat :=
  (List.range i).reverse.foldl
    (fun best j =>
      match maxSetBit (rows.getD j []) with
      | some m =>
          match best.2 with
          | none => (j, some m)
          | some h => if m > h then (j, some m) else best
      | none => best)
    (i, maxSetBit (rows.getD i []))

/-- `matrix::identity`. -/
def identityRows (n : Nat) : Rows :=
  (List.range n).map (fun i => (zeroRow n).set i true)

/-- The elimination inside one step of `extract_linear_dependencies`:
every row `j < i` of `mat` whose highest set bit equals `h` gets row `i`
XORed into it, with the same operation mirrored on `id`. -/
def elimPair (mat id : Rows) (i h : Nat) : Rows × Rows :=
  (mat.mapIdx (fun j r =>
      if j < i ∧ maxSetBit r = some h then xorRow r (mat.getD i []) else r),
    id.mapIdx (fun j r =>
      if j < i ∧ maxSetBit (mat.getD j []) = some h then xorRow r (id.getD i []) else r))

/-- One iteration of the bottom-up Gaussian loop on the augmented pair
`[mat | id]`; `none` models the `break` taken when no row in `0..=i` has
a set bit. -/
def gaussStep (mat id : Rows) (i : Nat) : Option (Rows × Rows) :=
  let sp := scanPivot mat i
  match sp.2 with
  | none => none
  | some h =>
      let p := if sp.1 < i then (rowsSwap mat i sp.1, rowsSwap id i sp.1) else (mat, id)
      some (elimPair p.1 p.2 i h)

/-- The bottom-up Gaussian loop of `extract_linear_dependencies`
(processing `i = n-1, …, 0`), returning the final `mat`, `id` and
`loop_id`. -/
def phase1Go : Rows → Rows → Nat → Nat → Rows × Rows × Nat
  | mat, id, i, loopId =>
      match gaussStep mat id i with
      | none => (mat, id, loopId)
      | some p =>
          match i with
          | 0 => (p.1, p.2, 0)
          | i' + 1 => phase1Go p.1 p.2 i' (i' + 1)

/-- Single-matrix variant of `elimPair` (second Gaussian pass of
`extract_linear_dependencies`, on `id` alone). -/
def elimSingle (rows : Rows) (i h : Nat) : Rows :=
  rows.mapIdx (fun j r =>
    if j < i ∧ maxSetBit r = some h then xorRow r (rows.getD i []) else r)

/-- Single-matrix variant of `gaussStep`. -/
def gaussStepSingle (rows : Rows) (i : Nat) : Option Rows :=
  let sp := scanPivot rows i
  match sp.2 with
  | none => none
  | some h =>
      let r₁ := if sp.1 < i then rowsSwap rows i sp.1 else rows
      some (elimSingle r₁ i h)

/-- The second Gaussian pass of `extract_linear_dependencies`. -/
def phase2Go : Rows → Nat → Rows
  | rows, i =>
      match gaussStepSingle rows i with
      | none => rows
      | some rows' =>
          match i with
          | 0 => rows'
          | i' + 1 => phase2Go rows' i'

/-- One outer iteration of the final forward normalisation of
`extract_linear_dependencies`: clear the pivot of row `i` from all rows
below it. The `unwrap` panics when row `i` is all-zero and at least one
row follows it. -/
def phase3Step (rows : Rows) (i : Nat) : POut Rows :=
  if rows.length ≤ i + 1 then .ok rows
  else
    match maxSetBit (rows.getD i []) with
    | none => .panic "called Option::unwrap on a None value"
    | some h =>
        .ok (rows.mapIdx (fun j r =>
          if i < j ∧ bit r h then xorRow r (rows.getD i []) else r))

/-- `algebra::extract_linear_dependencies`: augment with the identity,
Gaussian-eliminate bottom-up, keep the identity rows whose matrix rows
became zero (`drain(loop_id..)` keeps `0..loop_id`), then reduce the
result with a second Gaussian pass and a forward normalisation. -/
def extract_linear_dependencies (mat : Rows) : POut Rows :=
  let n := mat.length
  let p := if n = 0 then (mat, identityRows n, 0)
           else phase1Go mat (identityRows n) (n - 1) 0
  let kept := p.2.1.take p.2.2
  let rows₂ := if kept.length = 0 then kept else phase2Go kept (kept.length - 1)
  (List.range rows₂.length).foldlM phase3Step rows₂

/-- The elimination inside one step of `solve_linear_system`'s bottom-up
pass, acting on the rows and the right-hand-side bits together. -/
def elimSolve (lhs : Rows) (rhs : Row) (i h : Nat) : Rows × Row :=
  (lhs.mapIdx (fun j r =>
      if j < i ∧ maxSetBit r = some h then xorRow r (lhs.getD i []) else r),
    rhs.mapIdx (fun j v =>
      if j < i ∧ maxSetBit (lhs.getD j []) = some h then xor (bit rhs i) v else v))

/-- The bottom-up Gaussian loop of `solve_linear_system`. -/
def solvePhaseAGo : Rows → Row → Nat → Rows × Row
  | lhs, rhs, i =>
      let sp := scanPivot lhs i
      match sp.2 with
      | none => (lhs, rhs)
      | some h =>
          let p := if sp.1 < i then (rowsSwap lhs i sp.1, bitsSwap rhs i sp.1) else (lhs, rhs)
          let q := elimSolve p.1 p.2 i h
          match i with
          | 0 => q
          | i' + 1 => solvePhaseAGo q.1 q.2 i'

/-- One outer iteration of `solve_linear_system`'s forward pass; panics
like `phase3Step` on an all-zero row followed by further rows. -/
def solvePhaseBStep (st : Rows × Row) (i : Nat) : POut (Rows × Row) :=
  if st.1.length ≤ i + 1 then .ok st
  else
    match maxSetBit (st.1.getD i []) with
    | none => .panic "called Option::unwrap on a None value"
    | some h =>
        .ok (st.1.mapIdx (fun j r =>
              if i < j ∧ bit r h then xorRow r (st.1.getD i []) else r),
          st.2.mapIdx (fun j v =>
              if i < j ∧ bit (st.1.getD j []) h then xor (bit st.2 i) v else v))

/-- Read off the solutions: a variable is determined when some row has its
first set bit equal to its highest set bit at that variable. -/
def solveExtract (lhs : Rows) (rhs : Row) : List (Option Bool) :=
  let cols := (lhs.headD []).length
  (lhs.enum.foldl
    (fun sols p =>
      match minSetBit p.2 with
      | some b => if maxSetBit p.2 = some b then sols.set b (some (bit rhs p.1)) else sols
      | none => sols)
    (List.replicate cols (none : Option Bool)))

/-- `algebra::solve_linear_system`. -/
def solve_linear_system (lhs : Rows) (rhs : Row) : POut (List (Option Bool)) :=
  let n := lhs.length
  let p := if n = 0 then (lhs, rhs) else solvePhaseAGo lhs rhs (n - 1)
  ((List.range n).foldlM solvePhaseBStep p).bind fun q =>
    .ok (solveExtract q.1 q.2)

/-- `Matrix::from_rows` (the `matrix!` macro): panics when the rows do not
all share one width. -/
def fromRows (rows : Rows) : POut Rows :=
  match rows with
  | [] => .ok []
  | r :: rest =>
      if rest.all (fun v => v.length = r.length) then .ok (r :: rest)
      else .panic "Trying to create a matrix with rows of different size"

/-! ## Path counting and path enumeration -/

/-- The contribution of one edge to a node's weight in `count_paths`: the
child's tabulated weight, with weight `0` (the sink) counted as one path,
and a missing or untabulated child counting `0`. -/
def adjWeight (prev : List (Nat × Nat)) (e : Option Nat) : Nat :=
  match e with
  | none => 0
  | some id =>
      match alookup id prev with
      | none => 0
      | some w => if w = 0 then 1 else w

/-- Tabulate one level of `count_paths`; the weights live in `u128`, so
the sum of the two edge contributions panics on overflow. -/
def countLevel (prev : List (Nat × Nat)) (nodes : List (Nat × Node)) :
    POut (List (Nat × Nat)) :=
  nodes.foldlM
    (fun acc p =>
      let w := adjWeight prev p.2.e0 + adjWeight prev p.2.e1
      if 2 ^ 128 ≤ w then POut.panic "the bdd has over 2^128 paths"
      else POut.ok (ainsert p.1 w acc))
    []

/-- `Bdd::count_paths`: `0` for fewer than two levels, otherwise the
bottom-up weight tabulation, returning the weight of the remaining (top)
node. -/
def Bdd.count_paths (b : Bdd) : POut Nat :=
  if b.levels.length < 2 then .ok 0
  else
    (b.levels.reverse.foldlM (fun prev lvl => countLevel prev lvl.nodes) []).bind
      fun final =>
        match final.head? with
        | none => .panic "called Option::unwrap on a None value"
        | some p => .ok p.2

/-- A path through a BDD: the per-level equations it collects. -/
abbrev Path := List LinEq

/-- An entry of the backtracking stack of `get_all_valid_path`. -/
abbrev StackEntry := Path × Nat × (Option Nat × Option Nat)

/-- The inner descent loop of `get_all_valid_path`: walk from the current
node down to the sink, pushing one `LinEq` per level and recording
double-edged nodes on the stack; `visited` means the node was popped from
the stack so its `e1` branch is taken. The fuel is an upper bound on the
number of levels left to walk. -/
def descend (b : Bdd) : Nat → Path → Nat → (Option Nat × Option Nat) → Bool →
    List StackEntry → POut (Path × List StackEntry)
  | 0, _, _, _, _, _ => .panic "loop fuel exhausted"
  | fuel + 1, path, li, node, visited, stack =>
      if node.1 = none ∧ node.2 = none then .ok (path, stack)
      else if visited then
        let path' := path ++ [LinEq.mk (b.levelAt li).lhs true]
        match node.2 with
        | none => .panic "called Option::unwrap on a None value"
        | some nxt =>
            let node' :=
              match alookup nxt (b.levelAt (li + 1)).nodes with
              | some n => (n.e0, n.e1)
              | none => node
            descend b fuel path' (li + 1) node' false stack
      else
        let stack' :=
          if node.1.isSome ∧ node.2.isSome then stack ++ [(path, li, node)] else stack
        match node.1 with
        | some e0 =>
            let path' := path ++ [LinEq.mk (b.levelAt li).lhs false]
            let node' :=
              match alookup e0 (b.levelAt (li + 1)).nodes with
              | some n => (n.e0, n.e1)
              | none => node
            descend b fuel path' (li + 1) node' false stack'
        | none =>
            match node.2 with
            | some e1 =>
                let path' := path ++ [LinEq.mk (b.levelAt li).lhs true]
                let node' :=
                  match alookup e1 (b.levelAt (li + 1)).nodes with
                  | some n => (n.e0, n.e1)
                  | none => node
                descend b fuel path' (li + 1) node' false stack'
            | none => .ok (path, stack')

/-- The outer loop of `get_all_valid_path`: restart from the deepest
stacked double-edge node (or the source), collect the finished path, and
return as soon as more than 20 paths have been collected. Each iteration
adds exactly one path, so 25 rounds of fuel are never exhausted. -/
def pathsOuter (b : Bdd) : Nat → List Path → List StackEntry → POut (List Path)
  | 0, _, _ => .panic "loop fuel exhausted"
  | fuel + 1, paths, stack =>
      if stack.isEmpty ∧ ¬paths.isEmpty then .ok paths
      else
        let start : POut (Path × Nat × (Option Nat × Option Nat) × Bool × List StackEntry) :=
          match stack.getLast? with
          | some last => .ok (last.1, last.2.1, last.2.2, true, stack.dropLast)
          | none =>
              match (b.levelAt 0).nodes.head? with
              | some p => .ok ([], 0, (p.2.e0, p.2.e1), false, stack)
              | none => .panic "Cannot happen"
        start.bind fun st =>
          (descend b (b.levels.length + 1) st.1 st.2.1 st.2.2.1 st.2.2.2.1 st.2.2.2.2).bind
            fun res =>
              let paths' := paths ++ [res.1]
              if paths'.length > 20 then .ok paths'
              else pathsOuter b fuel paths' res.2

/-- `Bdd::get_all_valid_path`. -/
def Bdd.get_all_valid_path (b : Bdd) : POut (List Path) :=
  if b.get_sink_level_index = 0 then .ok [[]]
  else pathsOuter b 25 [] []

/-! ## Variable substitution and the linear-equation scan -/

/-- The first (rewriting) phase of `Bdd::replace_var_in_bdd` on one level:
XOR the equation into the form when `var` occurs in it, flip the edges
when `rhs` is 1, and record the level when its form became zero. -/
def replaceVarStep (var : Nat) (eq : LinEq) (acc : Bdd × List Nat) (i : Nat) :
    POut (Bdd × List Nat) :=
  let lvl := acc.1.levelAt i
  (lvl.is_var_set var).bind fun isSet =>
    if isSet then
      let lvl₁ := lvl.add_lhs eq.lhs
      let lvl₂ := if eq.rhs then lvl₁.flip_edges else lvl₁
      let b₁ := acc.1.setLevel i lvl₂
      if lvl₂.lhs.any (fun x => x) then .ok (b₁, acc.2)
      else .ok (b₁, acc.2 ++ [i])
    else .ok (acc.1, acc.2)

/-- `Bdd::replace_var_in_bdd`: rewrite every level containing `var`, then
absorb the levels whose form became zero, from the bottom up. -/
def Bdd.replace_var_in_bdd (b : Bdd) (var : Nat) (eq : LinEq) : POut Bdd :=
  ((List.range b.levels.length).foldlM (replaceVarStep var eq) (b, [])).bind
    fun res => res.2.reverse.foldlM (fun b' i => b'.absorb i false) res.1

/-- The scan inside `Bdd::scan_absorb_lin_eq`: find the first non-sink
level that is all-zero (absorb silently), has no `e0` edges (record
`form = 1`), or has no `e1` edges (record `form = 0`). -/
def scanFindGo (b : Bdd) : List Nat → Option (Nat × Option LinEq × Bool)
  | [] => none
  | i :: rest =>
      let lvl := b.levelAt i
      if lvl.lhs.any (fun x => x) = false then some (i, none, false)
      else
        let ck := lvl.check_outgoing_edges
        if !ck.1 then some (i, some ⟨lvl.lhs, true⟩, true)
        else if !ck.2 then some (i, some ⟨lvl.lhs, false⟩, false)
        else scanFindGo b rest

/-- The restart loop of `scan_absorb_lin_eq`; every absorption removes one
level, so the initial fuel `levels.length + 1` is never exhausted. -/
def Bdd.scanGo : Bdd → List LinEq → Nat → POut (List LinEq × Bdd)
  | _, _, 0 => .panic "loop fuel exhausted"
  | b, acc, fuel + 1 =>
      match scanFindGo b (List.range (b.levels.length - 1)) with
      | none => .ok (acc, b)
      | some (i, eqOpt, edge) =>
          (b.absorb i edge).bind fun b' =>
            Bdd.scanGo b' (acc ++ eqOpt.toList) fuel

/-- `Bdd::scan_absorb_lin_eq`. -/
def Bdd.scan_absorb_lin_eq (b : Bdd) : POut (List LinEq × Bdd) :=
  b.scanGo [] (b.levels.length + 1)

/-! ## `LinBank` and `System` (`soc/system.rs`) -/

/-- `LinBank`: the ordered bank of discovered linear equations. -/
structure LinBank where
  lin_eqs : List LinEq
deriving Repr, DecidableEq

/-- The reduction loop of `LinBank::push_lin_eq`: XOR into the incoming
equation every stored equation whose highest set bit is set in it (in
bank order). The unwraps panic on a zero-lhs stored equation or when that
bit lies outside the incoming lhs. -/
def pushReduce : List LinEq → LinEq → POut LinEq
  | [], e => .ok e
  | s :: rest, e =>
      match maxSetBit s.lhs with
      | none => .panic "called Option::unwrap on a None value"
      | some p =>
          if p < e.lhs.length then
            pushReduce rest (if bit e.lhs p then e.add_lin_eq s else e)
          else .panic "called Option::unwrap on a None value"

/-- `LinBank::push_lin_eq`: reduce, then either append the reduced
equation (returning it) or reject a dependent (all-zero) one. -/
def LinBank.push_lin_eq (bank : LinBank) (e : LinEq) : POut (Option LinEq × LinBank) :=
  (pushReduce bank.lin_eqs e).bind fun e' =>
    match maxSetBit e'.lhs with
    | some _ => .ok (some e', ⟨bank.lin_eqs ++ [e']⟩)
    | none => .ok (none, bank)

/-- `LinBank::get_lhs`. -/
def LinBank.get_lhs (bank : LinBank) : Rows := bank.lin_eqs.map LinEq.lhs

/-- `LinBank::get_rhs`. -/
def LinBank.get_rhs (bank : LinBank) : Row := bank.lin_eqs.map LinEq.rhs

/-- `System`: the id-keyed BDD collection (insertion-ordered), the
variable count and the bank. -/
structure System where
  bdds : List (Nat × Bdd)
  nvar : Nat
  lin_bank : LinBank
deriving Repr, DecidableEq

/-- `System::new`. -/
def System.new : System := ⟨[], 0, ⟨[]⟩⟩

/-- `System::get_bdd` (`Ok`/`Err` collapsed to `Option`). -/
def System.get_bdd (s : System) (bdd_id : Nat) : Option Bdd := alookup bdd_id s.bdds

/-- `System::push_bdd`: reject a different `nvar` or a duplicate id; an
`Except.error` leaves the system unchanged. -/
def System.push_bdd (s : System) (b : Bdd) : POut (Except String System) :=
  b.get_nvar_size.bind fun nv =>
    if nv ≠ s.nvar then .ok (.error "Bdd have different nvar size from system")
    else if (alookup b.id s.bdds).isSome then
      .ok (.error "A Bdd with the same id is already in the system")
    else .ok (.ok { s with bdds := ainsert b.id b s.bdds })

/-- The push loop of `System::from_elem`. -/
def pushAllBdds : System → List Bdd → POut (Except String System)
  | s, [] => .ok (.ok s)
  | s, b :: rest =>
      (s.push_bdd b).bind fun r =>
        match r with
        | .error e => .ok (.error e)
        | .ok s' => pushAllBdds s' rest

/-- `System::from_elem`: an empty list fails, otherwise the `nvar` of the
first BDD seeds the system and every BDD is pushed in turn. -/
def System.from_elem (bdds : List Bdd) : POut (Except String System) :=
  match bdds with
  | [] => .ok (.error "Empty vec")
  | b₀ :: _ =>
      b₀.get_nvar_size.bind fun nv =>
        pushAllBdds { System.new with nvar := nv } bdds

/-- `System::push_lin_eq_to_lin_bank`: push to the bank and, when the
reduced equation is independent, substitute its pivot variable out of
every BDD. -/
def System.push_lin_eq_to_lin_bank (s : System) (e : LinEq) :
    POut (Option LinEq × System) :=
  (s.lin_bank.push_lin_eq e).bind fun r =>
    match r.1 with
    | some eq =>
        match maxSetBit eq.lhs with
        | none => .panic "called Option::unwrap on a None value"
        | some var =>
            (s.bdds.foldlM
              (fun (acc : List (Nat × Bdd)) (p : Nat × Bdd) =>
                (p.2.replace_var_in_bdd var eq).map fun b' => acc ++ [(p.1, b')])
              []).bind fun bdds' =>
              .ok (some eq, { s with bdds := bdds', lin_bank := r.2 })
    | none => .ok (none, { s with lin_bank := r.2 })

/-- The lhs `Vob` built at the top of `System::fix` (`set` panics on a
variable outside `0..nvar`). -/
def buildFixLhs (nvar : Nat) (vars : List Nat) : POut Row :=
  vars.foldlM
    (fun r v => if v < r.length then POut.ok (r.set v true) else POut.panic "index out of bounds")
    (zeroRow nvar)

/-- `System::fix`: push `lhs ⋅ x = rhs` through the bank; a dependent
equation is reported as an error. -/
def System.fix (s : System) (lhs : List Nat) (rhs : Bool) :
    POut (Except String Unit × System) :=
  (buildFixLhs s.nvar lhs).bind fun row =>
    (s.push_lin_eq_to_lin_bank ⟨row, rhs⟩).bind fun r =>
      match r.1 with
      | some _ => .ok (.ok (), r.2)
      | none =>
          .ok (.error "linear equation non linearly independant from current LinBank", r.2)

/-- `System::absorb`: validate the id and the level bound, then run
`Bdd::absorb` (whose infeasibility panic propagates). -/
def System.absorb (s : System) (bdd_id level_index : Nat) (edge : Bool) :
    POut (Except String Unit × System) :=
  match alookup bdd_id s.bdds with
  | none => .ok (.error "id not present in system", s)
  | some b =>
      if level_index ≥ b.get_sink_level_index then
        .ok (.error "Out of range of levels", s)
      else
        (b.absorb level_index edge).bind fun b' =>
          .ok (.ok (), { s with bdds := ainsert bdd_id b' s.bdds })

/-- `Bdd::merge_sink_source`: forward the old source's edges onto the old
sink, adopt the source's form, and delete the old source level. -/
def Bdd.merge_sink_source (b : Bdd) (sink_idx : Nat) : Bdd :=
  match (b.levelAt (sink_idx + 1)).nodes.head? with
  | none => { b with levels := b.levels.eraseIdx (sink_idx + 1) }
  | some src =>
      let b₁ :=
        match (b.levelAt sink_idx).nodes with
        | [] => b
        | (sid, sn) :: rest =>
            let sn₁ := match src.2.e0 with
              | some e => { sn with e0 := some e }
              | none => sn
            let sn₂ := match src.2.e1 with
              | some e => { sn₁ with e1 := some e }
              | none => sn₁
            b.setLevel sink_idx ⟨(sid, sn₂) :: rest, (b.levelAt sink_idx).lhs⟩
      let b₂ := b₁.setLevel sink_idx
        ⟨(b₁.levelAt sink_idx).nodes, (b₁.levelAt (sink_idx + 1)).lhs⟩
      { b₂ with levels := b₂.levels.eraseIdx (sink_idx + 1) }

/-- `System::join_bdds`: append the second BDD's levels to the first,
merge sink with source, and drop the second id. -/
def System.join_bdds (s : System) (bdd_1_id bdd_2_id : Nat) :
    POut (Except String Nat × System) :=
  if bdd_1_id = bdd_2_id then .ok (.error "bdd_1_id is equal to bdd_2_id", s)
  else
    match alookup bdd_1_id s.bdds, alookup bdd_2_id s.bdds with
    | none, _ => .ok (.error "id not present in system", s)
    | _, none => .ok (.error "id not present in system", s)
    | some b₁, some b₂ =>
        let sink_idx := b₁.get_sink_level_index
        let joined := Bdd.merge_sink_source
          { b₁ with levels := b₁.levels ++ b₂.levels } sink_idx
        .ok (.ok bdd_1_id, { s with bdds := aremove bdd_2_id (ainsert bdd_1_id joined s.bdds) })

/-- The join-everything loop at the top of `System::get_solutions`
(`join_bdds(..).unwrap()`: a join error panics). -/
def joinAll (s : System) (k₀ : Nat) : List Nat → POut System
  | [] => .ok s
  | k :: rest =>
      (s.join_bdds k₀ k).bind fun r =>
        match r.1 with
        | .error _ => .panic "called Result::unwrap on an Err value"
        | .ok _ => joinAll r.2 k₀ rest

/-- Solve one enumerated path of `get_solutions`: clone the bank, push
every equation of the path, then solve the resulting linear system. -/
def solvePath (bank : LinBank) (path : Path) : POut (List (Option Bool)) :=
  (path.foldlM (fun (bk : LinBank) eq => (bk.push_lin_eq eq).map Prod.snd) bank).bind
    fun bk =>
      (fromRows bk.get_lhs).bind fun m => solve_linear_system m bk.get_rhs

/-- `System::get_solutions`: with no BDDs, solve the bank directly; with
one or more, join them all, enumerate the accepting paths and solve the
bank extended by each path. -/
def System.get_solutions (s : System) : POut (List (List (Option Bool)) × System) :=
  match s.bdds.map Prod.fst with
  | [] =>
      (fromRows s.lin_bank.get_lhs).bind fun m =>
        (solve_linear_system m s.lin_bank.get_rhs).bind fun sol => .ok ([sol], s)
  | k₀ :: rest =>
      (joinAll s k₀ rest).bind fun s' =>
        match alookup k₀ s'.bdds with
        | none => .panic "called Result::unwrap on an Err value"
        | some b =>
            b.get_all_valid_path.bind fun paths =>
              (paths.foldlM
                (fun (acc : List (List (Option Bool))) (p : Path) =>
                  (solvePath s'.lin_bank p).map (fun v => acc ++ [v]))
                []).bind
                fun sols => .ok (sols, s')

/-! ## Specification-side definitions -/

/-- The downward chain conditions of §3 on a suffix of levels: the last
level's nodes have both edges absent, and every node of a non-last level
has at least one present edge, each present edge resolving in the next
level. -/
def ChainOk : List Level → Prop
  | [] => True
  | [l] => ∀ p ∈ l.nodes, p.2 = Node.mk none none
  | l :: l' :: rest =>
      (∀ p ∈ l.nodes, (p.2.e0.isSome || p.2.e1.isSome) = true ∧
        (∀ e ∈ p.2.e0.toList, (alookup e l'.nodes).isSome = true) ∧
        (∀ e ∈ p.2.e1.toList, (alookup e l'.nodes).isSome = true)) ∧
      ChainOk (l' :: rest)

instance chainOkDecidable : (ls : List Level) → Decidable (ChainOk ls)
  | [] => isTrue trivial
  | [l] => by unfold ChainOk; infer_instance
  | _ :: l' :: rest => by
      unfold ChainOk
      exact @instDecidableAnd _ _ _ (chainOkDecidable (l' :: rest))

/-- The §3 data-model invariants of a `Bdd`: a single-node source; a
single-node sink with both edges absent and the zero form; uniform form
width; globally unique node ids; and the downward chain conditions. -/
def Bdd.WF (b : Bdd) : Prop :=
  b.levels ≠ [] ∧
  (b.levelAt 0).nodes.length = 1 ∧
  (b.levelAt (b.levels.length - 1)).nodes.length = 1 ∧
  (b.levelAt (b.levels.length - 1)).lhs = zeroRow (b.levelAt 0).lhs.length ∧
  (∀ l ∈ b.levels, l.lhs.length = (b.levelAt 0).lhs.length) ∧
  (b.levels.map (fun l => l.nodes.map Prod.fst)).flatten.Nodup ∧
  ChainOk b.levels

instance (b : Bdd) : Decidable b.WF := by
  unfold Bdd.WF
  exact inferInstance

/-- A level-respecting renaming `f` of node identities from `b` onto
`b'`: every node of `b` reappears under `f` with its edges mapped, and
`f` is injective on each level's ids. -/
def Renaming (f : Nat → Nat) (b b' : Bdd) : Prop :=
  List.Forall₂ (fun l l' =>
      (∀ p ∈ l.nodes, ((f p.1, Node.mk (p.2.e0.map f) (p.2.e1.map f)) ∈ l'.nodes)) ∧
      (∀ p ∈ l.nodes, ∀ q ∈ l.nodes, f p.1 = f q.1 → p.1 = q.1))
    b.levels b'.levels

/-- Structural equivalence of two BDDs: equality up to a renaming of node
identities — same level count, same forms, same per-level node counts,
and a level-respecting edge-preserving renaming. -/
def StructEquiv (b b' : Bdd) : Prop :=
  b.levels.length = b'.levels.length ∧
  List.Forall₂ (fun l l' => l.lhs = l'.lhs ∧ l.nodes.length = l'.nodes.length)
    b.levels b'.levels ∧
  ∃ f, Renaming f b b'

/-- The number of distinct paths from the node with identity `c` at the
head level of `ls` down to the sink (the last level of `ls`). -/
def pathsToSink : List Level → Nat → Nat
  | [], _ => 0
  | l :: rest, c =>
      match alookup c l.nodes with
      | none => 0
      | some nd =>
          if rest = [] then 1
          else
            (match nd.e0 with
             | some c0 => pathsToSink rest c0
             | none => 0) +
            (match nd.e1 with
             | some c1 => pathsToSink rest c1
             | none => 0)

/-- The number of sink-reaching paths leaving a node whose strictly lower
levels are `rest`. -/
def nodePaths (rest : List Level) (n : Node) : Nat :=
  (match n.e0 with
   | some c => pathsToSink rest c
   | none => 0) +
  (match n.e1 with
   | some c => pathsToSink rest c
   | none => 0)

/-- The number of distinct source-to-sink paths of a BDD (0 without a
source, and the source's outgoing path count otherwise). -/
def Bdd.specPathCount (b : Bdd) : Nat :=
  match b.levels with
  | [] => 0
  | l :: rest =>
      match l.nodes.head? with
      | some p => nodePaths rest p.2
      | none => 0

/-- The weight the `count_paths` tabulation assigns to a node whose
strictly lower levels are the given suffix: the sum over present edges of
the child's weight, with a zero child weight (the sink) counted as one
path and an unresolved edge as zero. -/
def specWeight : List Level → Node → Nat
  | [], _ => 0
  | l :: rest, n =>
      (match n.e0 with
       | some c =>
           match alookup c l.nodes with
           | none => 0
           | some nd => if specWeight rest nd = 0 then 1 else specWeight rest nd
       | none => 0) +
      (match n.e1 with
       | some c =>
           match alookup c l.nodes with
           | none => 0
           | some nd => if specWeight rest nd = 0 then 1 else specWeight rest nd
       | none => 0)

/-- The weight table `count_paths` has built after processing the levels
of a suffix bottom-up: the head level's nodes paired with their weights. -/
def levelWeights : List Level → List (Nat × Nat)
  | [] => []
  | l :: rest => l.nodes.map (fun p => (p.1, specWeight rest p.2))

/-- The bottom-up weight fold of `count_paths` over a list of levels. -/
def countFold (ls : List Level) : POut (List (Nat × Nat)) :=
  ls.reverse.foldlM (fun prev lvl => countLevel prev lvl.nodes) []

/-- GF(2) linear combination of rows of width `w`, selected by the
coefficient bits `c`. -/
def combineRows (w : Nat) (c : List Bool) (rows : Rows) : Row :=
  (c.zip rows).foldl (fun acc p => if p.1 then xorRow acc p.2 else acc) (zeroRow w)

/-- `D` is a basis of the left null-space of the `M` (whose rows have
width `w`): every row of `D` annihilates `M`, the rows of `D` are
linearly independent, and every annihilating vector is a combination of
rows of `D`. -/
def IsLeftNullBasis (w : Nat) (D M : Rows) : Prop :=
  (∀ r ∈ D, r.length = M.length ∧ combineRows w r M = zeroRow w) ∧
  (∀ c : List Bool, c.length = D.length → combineRows M.length c D = zeroRow M.length →
    ∀ x ∈ c, x = false) ∧
  (∀ v : Row, v.length = M.length → combineRows w v M = zeroRow w →
    ∃ c, c.length = D.length ∧ combineRows M.length c D = v)

/-- XOR-parity of a list of booleans. -/
def parity (l : List Bool) : Bool := l.foldl xor false

/-- Batch row operation shared by the elimination loops: XOR the pivot row
`p` into every row whose selector bit is set. -/
def addSel (t : List Bool) (rows : Rows) (p : Row) : Rows :=
  List.zipWith (fun b r => if b then xorRow r p else r) t rows

/-- The simultaneous-row-operation invariant of the augmented pair
`[mat | id]`: every row of `mat` is the combination of the original
matrix selected by the matching row of `id`. -/
def CompRel (w : Nat) (M₀ mat idr : Rows) : Prop :=
  List.Forall₂ (fun mr dr => mr = combineRows w dr M₀) mat idr

/-- The rows are linearly independent over GF(2). -/
def IndepRows (n : Nat) (D : Rows) : Prop :=
  ∀ c : List Bool, c.length = D.length → combineRows n c D = zeroRow n →
    ∀ x ∈ c, x = false

/-- The rows span the whole space of width-`n` rows. -/
def SpanFull (n : Nat) (D : Rows) : Prop :=
  ∀ v : Row, v.length = n → ∃ c, c.length = D.length ∧ combineRows n c D = v

/-- From position `L` upward, every row has a highest set bit that strictly
dominates the highest set bit of every earlier row. -/
def DominPivots (rows : Rows) (L : Nat) : Prop :=
  ∀ k, L ≤ k → k < rows.length → ∃ hk, maxSetBit (rows.getD k []) = some hk ∧
    ∀ j, j < k → ∀ m, maxSetBit (rows.getD j []) = some m → m < hk

/-- One comparison step of the pivot scan. -/
def pivotStep (rows : Rows) (best : Nat × Option Nat) (j : Nat) : Nat × Option Nat :=
  match maxSetBit (rows.getD j []) with
  | some m =>
      match best.2 with
      | none => (j, some m)
      | some h => if m > h then (j, some m) else best
  | none => best

/-- The selector of one elimination sweep: which rows `j < i` have highest
set bit `h`. -/
def tsel (rows : Rows) (i h : Nat) : List Bool :=
  (List.range rows.length).map
    (fun j => decide (j < i ∧ maxSetBit (rows.getD j []) = some h))

/-- The invariant carried through the bottom-up Gaussian loop on `[mat | id]`. -/
def GaussInv (w : Nat) (M₀ mat idr : Rows) : Prop :=
  mat.length = M₀.length ∧ idr.length = M₀.length ∧
  (∀ r ∈ mat, r.length = w) ∧ (∀ r ∈ idr, r.length = M₀.length) ∧
  CompRel w M₀ mat idr ∧ IndepRows M₀.length idr ∧ SpanFull M₀.length idr

/-- The reduced-row-echelon invariant the specification claims for the
bank: no stored equation is zero, and no stored equation's pivot bit is
set in any *other* stored equation (symmetric in the pair). -/
def BankReducedSym (bank : LinBank) : Prop :=
  (∀ e ∈ bank.lin_eqs, maxSetBit e.lhs ≠ none) ∧
  (∀ i ∈ List.range bank.lin_eqs.length, ∀ j ∈ List.range bank.lin_eqs.length, i ≠ j →
    ∀ p ∈ (maxSetBit (bank.lin_eqs.getD i ⟨[], false⟩).lhs).toList,
      bit (bank.lin_eqs.getD j ⟨[], false⟩).lhs p = false)

instance (bank : LinBank) : Decidable (BankReducedSym bank) := by
  unfold BankReducedSym
  exact inferInstance

/-- The invariant the code actually maintains: no stored equation is
zero, and no *later* stored equation has an earlier equation's pivot bit
set (an earlier equation may still contain a later pivot). -/
def BankReducedOneDir (bank : LinBank) : Prop :=
  (∀ e ∈ bank.lin_eqs, (maxSetBit e.lhs).isSome = true) ∧
  bank.lin_eqs.Pairwise
    (fun a b => ∀ p ∈ (maxSetBit a.lhs).toList, bit b.lhs p = false)

instance (bank : LinBank) : Decidable (BankReducedOneDir bank) := by
  unfold BankReducedOneDir
  have h2 : Decidable (bank.lin_eqs.Pairwise
      (fun a b => ∀ p ∈ (maxSetBit a.lhs).toList, bit b.lhs p = false)) :=
    List.instDecidablePairwise _
  exact instDecidableAnd

/-- All bank equations have lhs width `w`. -/
def BankWidth (w : Nat) (bank : LinBank) : Prop :=
  ∀ e ∈ bank.lin_eqs, e.lhs.length = w

instance (w : Nat) (bank : LinBank) : Decidable (BankWidth w bank) := by
  unfold BankWidth
  exact inferInstance

/-- The `nvar` of a BDD with at least one level (the width of the source
form). -/
def nvarOf (b : Bdd) : Nat := (b.levels.headD ⟨[], []⟩).lhs.length

/-! ## The swap fold in closed form -/

/-- The rebuilt lower-level entry recorded for one `known_functions` key:
the minted id keyed to a node carrying the column as its edges. -/
def knownNode (cv : (Option Nat × Option Nat) × Nat) : Nat × Node :=
  (cv.2, ⟨cv.1.1, cv.1.2⟩)

/-- The two grandchild columns a parent groups by in `Bdd::swap`
(`(e0_edges.0, e1_edges.0)` and `(e0_edges.1, e1_edges.1)`). -/
def colPair (bn : List (Nat × Node)) (n : Node) :
    (Option Nat × Option Nat) × (Option Nat × Option Nat) :=
  (((grandEdges bn n false).2.1, (grandEdges bn (grandEdges bn n false).1 true).2.1),
   ((grandEdges bn n false).2.2, (grandEdges bn (grandEdges bn n false).1 true).2.2))

/-- Setting one edge of a node, selected as in `swapGroup`. -/
def setEdge (sel : Bool) (n : Node) (e : Option Nat) : Node :=
  if sel then ⟨n.e0, e⟩ else ⟨e, n.e1⟩

/-- One `known_functions` insertion of the swap grouping: a nonzero column
absent from the map is appended under a freshly minted id; a zero or
already-known column leaves the map unchanged. -/
def insCol (bddId : Nat) (st : List ((Option Nat × Option Nat) × Nat) × Nat)
    (c : Option Nat × Option Nat) : List ((Option Nat × Option Nat) × Nat) × Nat :=
  if c.1.isSome || c.2.isSome then
    match plookup c st.1 with
    | some _ => st
    | none => (st.1 ++ [(c, (st.2 + 1) * 10000 + bddId)], st.2 + 1)
  else st

/-- The `known_functions` map (with the id counter) the swap fold builds
over a list of parents, from initial map `st.1` and counter `st.2`. -/
def buildKnown (bn : List (Nat × Node)) (bddId : Nat)
    (st : List ((Option Nat × Option Nat) × Nat) × Nat) (A : List (Nat × Node)) :
    List ((Option Nat × Option Nat) × Nat) × Nat :=
  A.foldl (fun acc p =>
    insCol bddId (insCol bddId acc (colPair bn p.2).1) (colPair bn p.2).2) st

/-- The rewired parent node of the swap: each edge points to the
`known_functions` entry of its column, and a zero column disconnects. -/
def rewire (known : List ((Option Nat × Option Nat) × Nat)) (bn : List (Nat × Node))
    (n : Node) : Node :=
  ⟨if (colPair bn n).1.1.isSome || (colPair bn n).1.2.isSome then
      plookup (colPair bn n).1 known
    else none,
   if (colPair bn n).2.1.isSome || (colPair bn n).2.2.isSome then
      plookup (colPair bn n).2 known
    else none⟩

/-- The grandchild pair seen through an optional edge: the edges of the
child node it resolves to, or `(none, none)`. -/
def fnThrough (bn : List (Nat × Node)) (e : Option Nat) : Option Nat × Option Nat :=
  match e with
  | some c =>
      match alookup c bn with
      | some ch => (ch.e0, ch.e1)
      | none => (none, none)
  | none => (none, none)

/-- The node-identity renaming taking a double-swapped BDD back onto the
original: an id of the rebuilt lower level is sent to the (unique)
original lower-level node carrying the same edges, and any other id is
fixed. -/
def swapRename (origNodes newNodes : List (Nat × Node)) (idn : Nat) : Nat :=
  match alookup idn newNodes with
  | some nd =>
      match origNodes.find? (fun q => decide (q.2 = nd)) with
      | some q => q.1
      | none => idn
  | none => idn

/-- The `known_functions` map and counter of the first swap at level `i`. -/
def swapK1 (b : Bdd) (i : Nat) : List ((Option Nat × Option Nat) × Nat) × Nat :=
  buildKnown (b.levelAt (i+1)).nodes b.id ([], b.next_id) (b.levelAt i).nodes

/-- The rewired upper level produced by the first swap. -/
def swapP1 (b : Bdd) (i : Nat) : List (Nat × Node) :=
  (b.levelAt i).nodes.map (fun p =>
    (p.1, rewire (swapK1 b i).1 (b.levelAt (i+1)).nodes p.2))

/-- The rebuilt lower level produced by the first swap. -/
def swapN1 (b : Bdd) (i : Nat) : List (Nat × Node) :=
  (swapK1 b i).1.map knownNode

/-- The `known_functions` map and counter of the second swap at level `i`. -/
def swapK2 (b : Bdd) (i : Nat) : List ((Option Nat × Option Nat) × Nat) × Nat :=
  buildKnown (swapN1 b i) b.id ([], (swapK1 b i).2) (swapP1 b i)

/-- The upper level after swapping twice. -/
def swapP2 (b : Bdd) (i : Nat) : List (Nat × Node) :=
  (swapP1 b i).map (fun p => (p.1, rewire (swapK2 b i).1 (swapN1 b i) p.2))

/-- The lower level after swapping twice. -/
def swapN2 (b : Bdd) (i : Nat) : List (Nat × Node) :=
  (swapK2 b i).1.map knownNode

/-- The minted-id enumeration invariant of a swap-fold map/counter pair
starting from counter `n0`: the recorded ids are, in order,
`(n0 + 1) * 10000 + bddId, (n0 + 2) * 10000 + bddId, ...`, and the
counter has advanced by the number of entries. -/
def KnownEnum (bddId n0 : Nat)
    (st : List ((Option Nat × Option Nat) × Nat) × Nat) : Prop :=
  st.1.map Prod.snd =
      (List.range st.1.length).map (fun j => (n0 + j + 1) * 10000 + bddId) ∧
  st.2 = n0 + st.1.length

/-! ## Concrete instances used by counterexamples and witnesses -/

/-- The four-level BDD of the repository's own `soc` unit tests
(`bdd!(5;0;[("1+2",[(1;2,3)]);("3+2",[(2;4,5);(3;4,0)]);("0+4",[(4;0,6);(5;6,0)]);("",[(6;0,0)])])`). -/
def repoBdd : Bdd :=
  { levels :=
      [ ⟨[(10000, ⟨some 20000, some 30000⟩)], [false, true, true, false, false]⟩,
        ⟨[(20000, ⟨some 40000, some 50000⟩), (30000, ⟨some 40000, none⟩)],
          [false, false, true, true, false]⟩,
        ⟨[(40000, ⟨none, some 60000⟩), (50000, ⟨some 60000, none⟩)],
          [true, false, false, false, true]⟩,
        ⟨[(60000, ⟨none, none⟩)], [false, false, false, false, false]⟩ ],
    id := 0,
    next_id := 6 }

/-- A well-formed three-level BDD whose middle level has no `e1` edges, so
absorbing it along `e1` empties the child set. -/
def infeasBdd : Bdd :=
  { levels :=
      [ ⟨[(1, ⟨some 2, none⟩)], [true, false]⟩,
        ⟨[(2, ⟨some 3, none⟩)], [false, true]⟩,
        ⟨[(3, ⟨none, none⟩)], [false, false]⟩ ],
    id := 0,
    next_id := 3 }

/-- A system holding only `infeasBdd`. -/
def infeasSystem : System := ⟨[(0, infeasBdd)], 2, ⟨[]⟩⟩

/-- A well-formed BDD whose level 2 carries two distinct nodes with the
same edge pair — the duplicate that double-`swap` merges. -/
def dupSwapBdd : Bdd :=
  { levels :=
      [ ⟨[(1, ⟨some 2, some 3⟩)], [true]⟩,
        ⟨[(2, ⟨some 4, some 5⟩), (3, ⟨some 4, none⟩)], [true]⟩,
        ⟨[(4, ⟨some 6, none⟩), (5, ⟨some 6, none⟩)], [true]⟩,
        ⟨[(6, ⟨none, none⟩)], [false]⟩ ],
    id := 0,
    next_id := 6 }

/-- A chain BDD: `k` one-node levels whose single node carries both edges
to the next level's node, then the sink; it has `2 ^ k` accepting paths. -/
def chainBdd (k : Nat) : Bdd :=
  { levels :=
      (List.range k).map (fun i => ⟨[(i + 1, ⟨some (i + 2), some (i + 2)⟩)], [true]⟩) ++
        [⟨[(k + 1, ⟨none, none⟩)], [false]⟩],
    id := 0,
    next_id := k + 2 }

/-- The empty-BDD system with two bank equations, used to witness
`get_solutions` on a bank-only system. -/
def bankOnlySystem : System :=
  ⟨[], 3, ⟨[⟨[true, false, true], true⟩, ⟨[false, true, false], false⟩]⟩⟩

/-- A one-variable system whose bank already contains `x0 = 0`; fixing
`x0 = 1` reduces to the zero lhs. -/
def depFixSystem : System := ⟨[], 1, ⟨[⟨[true], false⟩]⟩⟩

/-! ## Lemmas and theorems -/

namespace POut

@[simp] theorem bind_ok (a : α) (f : α → POut β) : bind (.ok a) f = f a := rfl

@[simp] theorem bind_panic (m : String) (f : α → POut β) :
    bind (.panic m) f = .panic m := rfl

@[simp] theorem map_ok (f : α → β) (a : α) : map f (.ok a) = .ok (f a) := rfl

@[simp] theorem monadBind_eq (x : POut α) (f : α → POut β) :
    (x >>= f) = bind x f := rfl

@[simp] theorem monadPure_eq (a : α) : (pure a : POut α) = .ok a := rfl

end POut

@[simp] theorem alookup_nil (k : Nat) : alookup k ([] : List (Nat × α)) = none := rfl

@[simp] theorem alookup_cons (k k' : Nat) (v : α) (rest : List (Nat × α)) :
    alookup k ((k', v) :: rest) = if k' = k then some v else alookup k rest := rfl

theorem alookup_append (k : Nat) (l₁ l₂ : List (Nat × α)) :
    alookup k (l₁ ++ l₂) =
      match alookup k l₁ with
      | some v => some v
      | none => alookup k l₂ := by
  induction l₁ with
  | nil => simp
  | cons p rest ih =>
      obtain ⟨k', v⟩ := p
      by_cases h : k' = k <;> simp [alookup, h, ih]

@[simp] theorem xorRow_nil_left (b : Row) : xorRow [] b = [] := rfl

@[simp] theorem xorRow_cons (a b : Bool) (as bs : Row) :
    xorRow (a :: as) (b :: bs) = (xor a b) :: xorRow as bs := rfl

theorem xorRow_length (a b : Row) : (xorRow a b).length = min a.length b.length := by
  simp [xorRow]

theorem xorRow_self_cancel (a b : Row) (h : a.length = b.length) :
    xorRow (xorRow a b) b = a := by
  induction a generalizing b with
  | nil => cases b with
    | nil => rfl
    | cons x xs => simp at h
  | cons x xs ih =>
      cases b with
      | nil => simp at h
      | cons y ys =>
          simp only [xorRow_cons]
          rw [show xor (xor x y) y = x by cases x <;> cases y <;> rfl]
          rw [ih ys (by simpa using h)]

theorem bit_xorRow (a b : Row) (i : Nat) (h : a.length = b.length) :
    bit (xorRow a b) i = xor (bit a i) (bit b i) := by
  induction a generalizing b i with
  | nil =>
      cases b with
      | nil => simp [bit, xorRow]
      | cons y ys => simp at h
  | cons x xs ih =>
      cases b with
      | nil => simp at h
      | cons y ys =>
          cases i with
          | zero => simp [bit]
          | succ n => simpa [bit, xorRow] using ih ys n (by simpa using h)

theorem bit_lt_length (r : Row) (i : Nat) (h : bit r i = true) : i < r.length := by
  by_contra hlt
  push_neg at hlt
  rw [bit, List.getD_eq_default _ _ hlt] at h
  cases h

theorem maxSetBit_spec_set (r : Row) (i : Nat) (h : maxSetBit r = some i) :
    bit r i = true := by
  induction r generalizing i with
  | nil => simp [maxSetBit] at h
  | cons b rest ih =>
      simp only [maxSetBit] at h
      cases hr : maxSetBit rest with
      | some j =>
          rw [hr] at h
          cases h
          simpa [bit] using ih j hr
      | none =>
          rw [hr] at h
          by_cases hb : b
          · simp [hb] at h; subst h; simp [bit, hb]
          · simp [hb] at h

/-- Any set bit lies at or below the maximal set bit. -/
theorem maxSetBit_ge_of_set (r : Row) (j : Nat) (h : bit r j = true) :
    ∃ i, maxSetBit r = some i ∧ j ≤ i := by
  induction r generalizing j with
  | nil => simp [bit] at h
  | cons b rest ih =>
      cases j with
      | zero =>
          have hb : b = true := by simpa [bit] using h
          subst hb
          cases hr : maxSetBit rest with
          | some m => exact ⟨m + 1, by simp [maxSetBit, hr], by omega⟩
          | none => exact ⟨0, by simp [maxSetBit, hr], Nat.le_refl 0⟩
      | succ n =>
          have hb : bit rest n = true := by simpa [bit] using h
          obtain ⟨i, hi, hle⟩ := ih n hb
          exact ⟨i + 1, by simp [maxSetBit, hi], by omega⟩

theorem maxSetBit_lt_length (r : Row) (i : Nat) (h : maxSetBit r = some i) :
    i < r.length :=
  bit_lt_length r i (maxSetBit_spec_set r i h)

theorem maxSetBit_spec_above (r : Row) (i j : Nat) (h : maxSetBit r = some i)
    (hj : i < j) : bit r j = false := by
  by_contra hb
  have hb' : bit r j = true := by
    cases hv : bit r j
    · exact absurd hv hb
    · rfl
  obtain ⟨i', hi', hle⟩ := maxSetBit_ge_of_set r j hb'
  rw [h] at hi'
  cases hi'
  omega

/-- A row is all-`false` iff it has no maximal set bit. -/
theorem maxSetBit_eq_none_iff (r : Row) :
    maxSetBit r = none ↔ ∀ i, bit r i = false := by
  constructor
  · intro h i
    cases hv : bit r i
    · rfl
    · obtain ⟨m, hm, _⟩ := maxSetBit_ge_of_set r i hv
      rw [h] at hm
      cases hm
  · intro h
    cases hm : maxSetBit r with
    | none => rfl
    | some i =>
        have := maxSetBit_spec_set r i hm
        rw [h i] at this
        cases this

/-! ## Supporting lemmas -/

theorem alookup_ainsert (k k' : Nat) (v : α) (l : List (Nat × α)) :
    alookup k (ainsert k' v l) = if k' = k then some v else alookup k l := by
  induction l with
  | nil => simp [ainsert, alookup]
  | cons p rest ih =>
      obtain ⟨a, b⟩ := p
      by_cases hak : a = k'
      · subst hak
        simp only [ainsert, if_pos rfl, alookup_cons]
        by_cases h2 : a = k <;> simp [h2]
      · simp only [ainsert, if_neg hak, alookup_cons]
        by_cases h2 : a = k
        · subst h2
          have hk : ¬ (k' = a) := fun he => hak he.symm
          simp [if_neg hk]
        · simp [h2, ih]

theorem getD_set_eq (l : List α) (i : Nat) (x d : α) (h : i < l.length) :
    (l.set i x).getD i d = x := by
  induction l generalizing i with
  | nil => simp at h
  | cons a rest ih =>
      cases i with
      | zero => rfl
      | succ n => simpa [List.set, List.getD] using ih n (by simpa using h)

theorem getD_set_ne (l : List α) (i j : Nat) (x d : α) (h : i ≠ j) :
    (l.set i x).getD j d = l.getD j d := by
  induction l generalizing i j with
  | nil => simp [List.set]
  | cons a rest ih =>
      cases i with
      | zero =>
          cases j with
          | zero => exact absurd rfl h
          | succ m => rfl
      | succ n =>
          cases j with
          | zero => rfl
          | succ m => simpa [List.set, List.getD] using ih n m (by omega)

theorem map_set_comm (l : List α) (f : α → β) (i : Nat) (x : α) :
    (l.set i x).map f = (l.map f).set i (f x) := by
  induction l generalizing i with
  | nil => rfl
  | cons a rest ih =>
      cases i with
      | zero => rfl
      | succ n => simp [List.set, ih n]

theorem set_getD_self (l : List α) (i : Nat) (d : α) (h : i < l.length) :
    l.set i (l.getD i d) = l := by
  induction l generalizing i with
  | nil => rfl
  | cons a rest ih =>
      cases i with
      | zero => rfl
      | succ n =>
          have : (a :: rest).getD (n + 1) d = rest.getD n d := rfl
          rw [this]
          show a :: rest.set n (rest.getD n d) = a :: rest
          rw [ih n (by simpa using h)]

theorem set_set_same (l : List α) (i : Nat) (x y : α) :
    (l.set i x).set i y = l.set i y := by
  induction l generalizing i with
  | nil => rfl
  | cons a rest ih =>
      cases i with
      | zero => rfl
      | succ n => simp [List.set, ih n]

@[simp] theorem levelAt_setLevel_eq (b : Bdd) (i : Nat) (l : Level)
    (h : i < b.levels.length) : (b.setLevel i l).levelAt i = l :=
  getD_set_eq b.levels i l _ h

@[simp] theorem levelAt_setLevel_ne (b : Bdd) (i j : Nat) (l : Level)
    (h : i ≠ j) : (b.setLevel i l).levelAt j = b.levelAt j :=
  getD_set_ne b.levels i j l _ h

@[simp] theorem setLevel_length (b : Bdd) (i : Nat) (l : Level) :
    (b.setLevel i l).levels.length = b.levels.length := by
  simp [Bdd.setLevel]

theorem getD_map (l : List α) (f : α → β) (i : Nat) (d : α) :
    (l.map f).getD i (f d) = f (l.getD i d) := by
  induction l generalizing i with
  | nil => rfl
  | cons a rest ih =>
      cases i with
      | zero => rfl
      | succ n => simp [List.getD, ih n]

theorem add_lin_eq_length (e s : LinEq) (h : s.lhs.length = e.lhs.length) :
    (e.add_lin_eq s).lhs.length = e.lhs.length := by
  simp [LinEq.add_lin_eq, xorRow_length, h]

theorem buildFixLhs_length (nvar : Nat) (vars : List Nat) (row : Row)
    (h : buildFixLhs nvar vars = .ok row) : row.length = nvar := by
  unfold buildFixLhs at h
  have aux : ∀ (l : List Nat) (r : Row),
      l.foldlM (fun r v =>
        if v < r.length then POut.ok (r.set v true) else POut.panic "index out of bounds") r
        = POut.ok row → row.length = r.length := by
    intro l
    induction l with
    | nil =>
        intro r hr
        simp only [List.foldlM] at hr
        cases hr
        rfl
    | cons v rest ih =>
        intro r hr
        simp only [List.foldlM] at hr
        by_cases hv : v < r.length
        · rw [if_pos hv] at hr
          have := ih (r.set v true) (by simpa using hr)
          simpa using this
        · rw [if_neg hv] at hr
          cases hr
  simpa [zeroRow] using aux vars (zeroRow nvar) h

/-- The `absorb` child-set fold yields nothing when no node of the level
carries the selected edge. -/
theorem absorbFold_nil (l : List (Nat × Node)) (edge : Bool) (acc : List (Nat × Nat))
    (h : ∀ p ∈ l, (if edge then p.2.e1 else p.2.e0) = none) :
    l.foldl
      (fun acc p =>
        match (if edge then p.2.e1 else p.2.e0) with
        | some e => ainsert p.1 e acc
        | none => acc) acc = acc := by
  induction l generalizing acc with
  | nil => rfl
  | cons p rest ih =>
      have hp := h p (by simp)
      simp only [List.foldl_cons, hp]
      exact ih acc (fun q hq => h q (by simp [hq]))

/-! ### The `pushReduce` invariant lemmas (claim C3) -/

theorem mem_maxSetBit_toList (r : Row) (p : Nat) :
    p ∈ (maxSetBit r).toList ↔ maxSetBit r = some p := by
  cases maxSetBit r <;> simp [eq_comm]

theorem pushReduce_preserves_clear (w : Nat) (l : List LinEq) (e e' : LinEq) (p : Nat)
    (hrun : pushReduce l e = .ok e')
    (h0 : bit e.lhs p = false)
    (hl : ∀ s ∈ l, bit s.lhs p = false)
    (hwl : ∀ s ∈ l, s.lhs.length = w)
    (hew : e.lhs.length = w) :
    bit e'.lhs p = false := by
  induction l generalizing e with
  | nil =>
      simp only [pushReduce] at hrun
      cases hrun
      exact h0
  | cons s rest ih =>
      cases hq : maxSetBit s.lhs with
      | none =>
          simp only [pushReduce, hq] at hrun
          cases hrun
      | some q =>
          simp only [pushReduce, hq] at hrun
          by_cases hlt : q < e.lhs.length
          · rw [if_pos hlt] at hrun
            refine ih _ hrun ?_ (fun x hx => hl x (by simp [hx]))
              (fun x hx => hwl x (by simp [hx])) ?_
            · by_cases hb : bit e.lhs q
              · simp only [hb, if_pos]
                rw [LinEq.add_lin_eq]
                show bit (xorRow e.lhs s.lhs) p = false
                rw [bit_xorRow _ _ _ (by rw [hew, hwl s (by simp)])]
                rw [h0, hl s (by simp)]
                rfl
              · simp only [hb]
                simpa using h0
            · by_cases hb : bit e.lhs q
              · simp only [hb, if_pos]
                rw [add_lin_eq_length e s (by rw [hew, hwl s (by simp)])]
                exact hew
              · simpa [hb] using hew
          · rw [if_neg hlt] at hrun
            cases hrun

theorem pushReduce_spec (w : Nat) (l : List LinEq) (e : LinEq)
    (hw : ∀ s ∈ l, s.lhs.length = w) (he : e.lhs.length = w)
    (hnz : ∀ s ∈ l, (maxSetBit s.lhs).isSome = true)
    (hpair : l.Pairwise
      (fun a b => ∀ p ∈ (maxSetBit a.lhs).toList, bit b.lhs p = false)) :
    ∃ e', pushReduce l e = .ok e' ∧ e'.lhs.length = w ∧
      (∀ s ∈ l, ∀ p, maxSetBit s.lhs = some p → bit e'.lhs p = false) := by
  induction l generalizing e with
  | nil => exact ⟨e, rfl, he, by simp⟩
  | cons s rest ih =>
      obtain ⟨p₀, hp₀⟩ : ∃ p₀, maxSetBit s.lhs = some p₀ := by
        have := hnz s (by simp)
        cases hm : maxSetBit s.lhs
        · rw [hm] at this; cases this
        · exact ⟨_, rfl⟩
      have hp₀w : p₀ < w := by
        have := maxSetBit_lt_length s.lhs p₀ hp₀
        rwa [hw s (by simp)] at this
      have hlt : p₀ < e.lhs.length := by rwa [he]
      set e₁ := if bit e.lhs p₀ then e.add_lin_eq s else e with he₁
      have he₁w : e₁.lhs.length = w := by
        rw [he₁]
        by_cases hb : bit e.lhs p₀
        · simp only [hb, if_pos]
          rw [add_lin_eq_length e s (by rw [he, hw s (by simp)])]
          exact he
        · simpa [hb] using he
      have hbit₁ : bit e₁.lhs p₀ = false := by
        rw [he₁]
        by_cases hb : bit e.lhs p₀
        · simp only [hb, if_pos]
          rw [LinEq.add_lin_eq]
          show bit (xorRow e.lhs s.lhs) p₀ = false
          rw [bit_xorRow _ _ _ (by rw [he, hw s (by simp)])]
          rw [hb, maxSetBit_spec_set s.lhs p₀ hp₀]
          rfl
        · simp [hb]
      have hrun : pushReduce (s :: rest) e = pushReduce rest e₁ := by
        simp only [pushReduce, hp₀, if_pos hlt]
      obtain ⟨e', hrun', hlen', hcl'⟩ := ih e₁ (fun x hx => hw x (by simp [hx])) he₁w
        (fun x hx => hnz x (by simp [hx])) (List.Pairwise.sublist (by simp) hpair)
      refine ⟨e', by rw [hrun, hrun'], hlen', ?_⟩
      intro x hx p hp
      rcases List.mem_cons.mp hx with hx | hx
      · subst hx
        rw [hp₀] at hp
        have hpp : p = p₀ := by
          injection hp with h
          exact h.symm
        subst hpp
        exact pushReduce_preserves_clear w rest e₁ e' p hrun' hbit₁
          (fun y hy => (List.pairwise_cons.mp hpair).1 y hy p
            ((mem_maxSetBit_toList _ p).mpr hp₀))
          (fun y hy => hw y (by simp [hy])) he₁w
      · exact hcl' x hx p hp

theorem push_lin_eq_preserves (w : Nat) (bank : LinBank) (e : LinEq)
    (hw : BankWidth w bank) (he : e.lhs.length = w) (hinv : BankReducedOneDir bank) :
    ∃ r bank', bank.push_lin_eq e = .ok (r, bank') ∧
      BankReducedOneDir bank' ∧ BankWidth w bank' ∧ (r = none → bank' = bank) := by
  obtain ⟨e', hrun, hlen, hcl⟩ := pushReduce_spec w bank.lin_eqs e hw he hinv.1 hinv.2
  unfold LinBank.push_lin_eq
  rw [hrun]
  cases hm : maxSetBit e'.lhs with
  | none =>
      exact ⟨none, bank, by simp [hm], hinv, hw, fun _ => rfl⟩
  | some p =>
      refine ⟨some e', ⟨bank.lin_eqs ++ [e']⟩, by simp [hm], ⟨?_, ?_⟩, ?_, by simp⟩
      · intro x hx
        rcases List.mem_append.mp hx with hx | hx
        · exact hinv.1 x hx
        · simp only [List.mem_singleton] at hx
          subst hx
          simp [hm]
      · rw [List.pairwise_append]
        refine ⟨hinv.2, by simp, ?_⟩
        intro a ha b hb
        simp only [List.mem_singleton] at hb
        subst hb
        intro p' hp'
        exact hcl a ha p' ((mem_maxSetBit_toList a.lhs p').mp hp')
      · intro x hx
        rcases List.mem_append.mp hx with hx | hx
        · exact hw x hx
        · simp only [List.mem_singleton] at hx
          subst hx
          exact hlen

/-! ### Form bookkeeping of the adjacent `add` core (claim C5) -/

theorem addCore_levels_shape (b : Bdd) (i : Nat) :
    (b.addCore i).levels =
      ((b.levels.set i ⟨(((b.levelAt i).nodes.foldl
          (addStep (b.levelAt (i + 1)).nodes b.id) ⟨[], [], [], b.next_id⟩)).parents,
          (b.levelAt i).lhs⟩).set (i + 1)
        ⟨(((b.levelAt i).nodes.foldl
          (addStep (b.levelAt (i + 1)).nodes b.id) ⟨[], [], [], b.next_id⟩)).nodes,
          xorRow (b.levelAt (i + 1)).lhs (b.levelAt i).lhs⟩) := rfl

theorem addCore_forms (b : Bdd) (i : Nat) (h : i < b.levels.length) :
    (b.addCore i).levels.map Level.lhs =
      (b.levels.map Level.lhs).set (i + 1)
        (xorRow (b.levelAt (i + 1)).lhs (b.levelAt i).lhs) := by
  rw [addCore_levels_shape, map_set_comm, map_set_comm]
  show ((b.levels.map Level.lhs).set i (b.levelAt i).lhs).set (i + 1) _ = _
  have hmap : (b.levels.map Level.lhs).getD i [] = (b.levelAt i).lhs := by
    have := getD_map b.levels Level.lhs i ⟨[], []⟩
    simpa [Bdd.levelAt] using this
  rw [← hmap, set_getD_self _ _ _ (by simpa using h)]

theorem addCore_length (b : Bdd) (i : Nat) :
    (b.addCore i).levels.length = b.levels.length := by
  rw [addCore_levels_shape]
  simp

theorem addCore_levelAt_above (b : Bdd) (i : Nat) (h : i + 1 < b.levels.length) :
    ((b.addCore i).levelAt i).lhs = (b.levelAt i).lhs := by
  unfold Bdd.levelAt
  rw [addCore_levels_shape]
  rw [getD_set_ne _ _ _ _ _ (by omega), getD_set_eq _ _ _ _ (by omega)]
  rfl

theorem addCore_levelAt_below (b : Bdd) (i : Nat) (h : i + 1 < b.levels.length) :
    ((b.addCore i).levelAt (i + 1)).lhs =
      xorRow (b.levelAt (i + 1)).lhs (b.levelAt i).lhs := by
  conv_lhs => rw [Bdd.levelAt, addCore_levels_shape]
  rw [getD_set_eq _ _ _ _ (by simpa using h)]

theorem add_adjacent_eq_addCore (b : Bdd) (i : Nat) : b.add i (i + 1) = b.addCore i := by
  unfold Bdd.add
  rw [show i + 1 - i - 1 = 0 from by omega]
  rfl

theorem alookup_mem (k : Nat) (l : List (Nat × α)) (v : α)
    (h : alookup k l = some v) : (k, v) ∈ l := by
  induction l with
  | nil => cases h
  | cons p rest ih =>
      obtain ⟨a, b⟩ := p
      by_cases ha : a = k
      · subst ha
        rw [alookup_cons, if_pos rfl] at h
        cases h
        exact List.mem_cons_self _ _
      · rw [alookup_cons, if_neg ha] at h
        exact List.mem_cons_of_mem _ (ih h)

theorem alookup_map_values (k : Nat) (l : List (Nat × α)) (f : α → β) :
    alookup k (l.map (fun p => (p.1, f p.2))) = (alookup k l).map f := by
  induction l with
  | nil => rfl
  | cons p rest ih =>
      by_cases h : p.1 = k <;> simp [alookup, h, ih]

theorem ainsert_fresh (k : Nat) (v : α) (l : List (Nat × α))
    (h : ∀ q ∈ l, q.1 ≠ k) : ainsert k v l = l ++ [(k, v)] := by
  induction l with
  | nil => rfl
  | cons q rest ih =>
      have hq : q.1 ≠ k := h q (by simp)
      obtain ⟨a, b⟩ := q
      simp only [ainsert, if_neg hq]
      rw [ih (fun x hx => h x (by simp [hx]))]
      rfl

theorem chainOk_tail (l : Level) (rest : List Level) (h : ChainOk (l :: rest)) :
    ChainOk rest := by
  cases rest with
  | nil => trivial
  | cons l' rest' => exact h.2

theorem chainOk_drop (ls : List Level) (k : Nat) (h : ChainOk ls) :
    ChainOk (ls.drop k) := by
  induction k generalizing ls with
  | zero => exact h
  | succ n ih =>
      cases ls with
      | nil => trivial
      | cons l rest => exact ih rest (chainOk_tail l rest h)

/-! ### The swap fold lemmas (claim C4) -/

@[simp] theorem plookup_nil (c : Option Nat × Option Nat) :
    plookup c ([] : List ((Option Nat × Option Nat) × Nat)) = none := rfl

@[simp] theorem plookup_cons (c c' : Option Nat × Option Nat) (v : Nat)
    (rest : List ((Option Nat × Option Nat) × Nat)) :
    plookup c ((c', v) :: rest) = if c' = c then some v else plookup c rest := rfl

theorem plookup_append (c : Option Nat × Option Nat)
    (l₁ l₂ : List ((Option Nat × Option Nat) × Nat)) :
    plookup c (l₁ ++ l₂) =
      match plookup c l₁ with
      | some v => some v
      | none => plookup c l₂ := by
  induction l₁ with
  | nil => simp
  | cons p rest ih =>
      obtain ⟨c', v⟩ := p
      by_cases h : c' = c <;> simp [h, ih]

theorem plookup_mem (c : Option Nat × Option Nat) (v : Nat)
    (l : List ((Option Nat × Option Nat) × Nat)) (h : plookup c l = some v) :
    (c, v) ∈ l := by
  induction l with
  | nil => cases h
  | cons p rest ih =>
      obtain ⟨c', v'⟩ := p
      by_cases hc : c' = c
      · subst hc
        rw [plookup_cons, if_pos rfl] at h
        cases h
        exact List.mem_cons_self _ _
      · rw [plookup_cons, if_neg hc] at h
        exact List.mem_cons_of_mem _ (ih h)

theorem plookup_eq_none_iff (c : Option Nat × Option Nat)
    (l : List ((Option Nat × Option Nat) × Nat)) :
    plookup c l = none ↔ c ∉ l.map Prod.fst := by
  induction l with
  | nil => simp
  | cons p rest ih =>
      obtain ⟨c', v'⟩ := p
      rw [plookup_cons, List.map_cons]
      by_cases hc : c' = c
      · subst hc
        simp
      · rw [if_neg hc, ih]
        simp only [List.mem_cons]
        constructor
        · intro h hm
          rcases hm with he | hm
          · exact hc he.symm
          · exact h hm
        · intro h hm
          exact h (Or.inr hm)

theorem pinsert_fresh (c : Option Nat × Option Nat) (v : Nat)
    (l : List ((Option Nat × Option Nat) × Nat)) (h : plookup c l = none) :
    pinsert c v l = l ++ [(c, v)] := by
  induction l with
  | nil => rfl
  | cons p rest ih =>
      obtain ⟨c', v'⟩ := p
      rw [plookup_cons] at h
      by_cases hc : c' = c
      · rw [if_pos hc] at h; cases h
      · rw [if_neg hc] at h
        simp only [pinsert, if_neg hc]
        rw [ih h]
        simp

theorem alookup_eq_none_of_forall (k : Nat) (l : List (Nat × α))
    (h : ∀ q ∈ l, q.1 ≠ k) : alookup k l = none := by
  induction l with
  | nil => rfl
  | cons q rest ih =>
      obtain ⟨a, b⟩ := q
      rw [alookup_cons, if_neg (h (a, b) (by simp))]
      exact ih (fun x hx => h x (by simp [hx]))

theorem alookup_nodup_mem (k : Nat) (v : α) (l : List (Nat × α))
    (hnd : (l.map Prod.fst).Nodup) (hm : (k, v) ∈ l) : alookup k l = some v := by
  induction l with
  | nil => cases hm
  | cons q rest ih =>
      obtain ⟨a, b⟩ := q
      rw [List.map_cons, List.nodup_cons] at hnd
      rcases List.mem_cons.mp hm with he | hm'
      · cases he
        rw [alookup_cons, if_pos rfl]
      · have hak : a ≠ k := fun he => by
          subst he
          exact hnd.1 (List.mem_map.mpr ⟨(a, v), hm', rfl⟩)
        rw [alookup_cons, if_neg hak]
        exact ih hnd.2 hm'

theorem plookup_insCol_of_some (bddId : Nat)
    (st : List ((Option Nat × Option Nat) × Nat) × Nat)
    (c c' : Option Nat × Option Nat) (v : Nat) (h : plookup c st.1 = some v) :
    plookup c (insCol bddId st c').1 = some v := by
  unfold insCol
  by_cases hz : (c'.1.isSome || c'.2.isSome) = true
  · rw [if_pos hz]
    cases hp : plookup c' st.1 with
    | some w => exact h
    | none =>
        dsimp only
        rw [plookup_append, h]
  · rw [if_neg hz]; exact h

theorem plookup_insCol_self (bddId : Nat)
    (st : List ((Option Nat × Option Nat) × Nat) × Nat)
    (c : Option Nat × Option Nat) (hz : (c.1.isSome || c.2.isSome) = true) :
    (plookup c (insCol bddId st c).1).isSome = true := by
  unfold insCol
  rw [if_pos hz]
  cases hp : plookup c st.1 with
  | some w => dsimp only; rw [hp]; rfl
  | none =>
      dsimp only
      rw [plookup_append, hp]
      simp

theorem insCol_mem (bddId : Nat) (st : List ((Option Nat × Option Nat) × Nat) × Nat)
    (c : Option Nat × Option Nat) (cv : (Option Nat × Option Nat) × Nat)
    (h : cv ∈ (insCol bddId st c).1) : cv ∈ st.1 ∨ cv.1 = c := by
  unfold insCol at h
  by_cases hz : (c.1.isSome || c.2.isSome) = true
  · rw [if_pos hz] at h
    cases hp : plookup c st.1 with
    | some w => rw [hp] at h; exact .inl h
    | none =>
        rw [hp] at h
        dsimp only at h
        rcases List.mem_append.mp h with h1 | h2
        · exact .inl h1
        · right
          cases List.mem_singleton.mp h2
          rfl
  · rw [if_neg hz] at h; exact .inl h

theorem insCol_enum (bddId n0 : Nat)
    (st : List ((Option Nat × Option Nat) × Nat) × Nat)
    (c : Option Nat × Option Nat) (h : KnownEnum bddId n0 st) :
    KnownEnum bddId n0 (insCol bddId st c) := by
  obtain ⟨h1, h2⟩ := h
  unfold insCol KnownEnum
  by_cases hz : (c.1.isSome || c.2.isSome) = true
  · rw [if_pos hz]
    cases hp : plookup c st.1 with
    | some w => exact ⟨h1, h2⟩
    | none =>
        dsimp only
        constructor
        · rw [List.map_append, h1, List.length_append]
          simp only [List.length_singleton, List.range_succ, List.map_append,
            List.map_cons, List.map_nil]
          rw [h2]
        · rw [List.length_append]
          simp only [List.length_singleton]
          omega
  · rw [if_neg hz]; exact ⟨h1, h2⟩

theorem insCol_keys_nodup (bddId : Nat)
    (st : List ((Option Nat × Option Nat) × Nat) × Nat)
    (c : Option Nat × Option Nat) (h : (st.1.map Prod.fst).Nodup) :
    ((insCol bddId st c).1.map Prod.fst).Nodup := by
  unfold insCol
  by_cases hz : (c.1.isSome || c.2.isSome) = true
  · rw [if_pos hz]
    cases hp : plookup c st.1 with
    | some w => exact h
    | none =>
        dsimp only
        rw [List.map_append]
        simp only [List.nodup_append, List.map_cons, List.map_nil]
        exact ⟨h, List.nodup_singleton c, by
          intro a ha hb
          rcases List.mem_singleton.mp hb with rfl
          exact (plookup_eq_none_iff _ st.1).mp hp ha⟩
  · rw [if_neg hz]; exact h

theorem insCol_keys_nonzero (bddId : Nat)
    (st : List ((Option Nat × Option Nat) × Nat) × Nat)
    (c : Option Nat × Option Nat)
    (h : ∀ cv ∈ st.1, (cv.1.1.isSome || cv.1.2.isSome) = true) :
    ∀ cv ∈ (insCol bddId st c).1, (cv.1.1.isSome || cv.1.2.isSome) = true := by
  intro cv hcv
  unfold insCol at hcv
  by_cases hz : (c.1.isSome || c.2.isSome) = true
  · rw [if_pos hz] at hcv
    cases hp : plookup c st.1 with
    | some w => rw [hp] at hcv; exact h cv hcv
    | none =>
        rw [hp] at hcv
        dsimp only at hcv
        rcases List.mem_append.mp hcv with h1 | h2
        · exact h cv h1
        · cases List.mem_singleton.mp h2
          exact hz
  · rw [if_neg hz] at hcv; exact h cv hcv

theorem buildKnown_nil (bn : List (Nat × Node)) (bddId : Nat)
    (st : List ((Option Nat × Option Nat) × Nat) × Nat) :
    buildKnown bn bddId st [] = st := rfl

theorem buildKnown_cons (bn : List (Nat × Node)) (bddId : Nat)
    (st : List ((Option Nat × Option Nat) × Nat) × Nat) (p : Nat × Node)
    (A : List (Nat × Node)) :
    buildKnown bn bddId st (p :: A) =
      buildKnown bn bddId
        (insCol bddId (insCol bddId st (colPair bn p.2).1) (colPair bn p.2).2) A := rfl

theorem plookup_buildKnown_of_some (bn : List (Nat × Node)) (bddId : Nat)
    (A : List (Nat × Node)) (st : List ((Option Nat × Option Nat) × Nat) × Nat)
    (c : Option Nat × Option Nat) (v : Nat) (h : plookup c st.1 = some v) :
    plookup c (buildKnown bn bddId st A).1 = some v := by
  induction A generalizing st with
  | nil => exact h
  | cons p A ih =>
      rw [buildKnown_cons]
      exact ih _ (plookup_insCol_of_some _ _ _ _ _ (plookup_insCol_of_some _ _ _ _ _ h))

theorem buildKnown_enum (bn : List (Nat × Node)) (bddId n0 : Nat)
    (A : List (Nat × Node)) (st : List ((Option Nat × Option Nat) × Nat) × Nat)
    (h : KnownEnum bddId n0 st) : KnownEnum bddId n0 (buildKnown bn bddId st A) := by
  induction A generalizing st with
  | nil => exact h
  | cons p A ih =>
      rw [buildKnown_cons]
      exact ih _ (insCol_enum _ _ _ _ (insCol_enum _ _ _ _ h))

theorem buildKnown_keys_nodup (bn : List (Nat × Node)) (bddId : Nat)
    (A : List (Nat × Node)) (st : List ((Option Nat × Option Nat) × Nat) × Nat)
    (h : (st.1.map Prod.fst).Nodup) :
    ((buildKnown bn bddId st A).1.map Prod.fst).Nodup := by
  induction A generalizing st with
  | nil => exact h
  | cons p A ih =>
      rw [buildKnown_cons]
      exact ih _ (insCol_keys_nodup _ _ _ (insCol_keys_nodup _ _ _ h))

theorem buildKnown_keys_nonzero (bn : List (Nat × Node)) (bddId : Nat)
    (A : List (Nat × Node)) (st : List ((Option Nat × Option Nat) × Nat) × Nat)
    (h : ∀ cv ∈ st.1, (cv.1.1.isSome || cv.1.2.isSome) = true) :
    ∀ cv ∈ (buildKnown bn bddId st A).1, (cv.1.1.isSome || cv.1.2.isSome) = true := by
  induction A generalizing st with
  | nil => exact h
  | cons p A ih =>
      rw [buildKnown_cons]
      exact ih _ (insCol_keys_nonzero _ _ _ (insCol_keys_nonzero _ _ _ h))

theorem buildKnown_mem (bn : List (Nat × Node)) (bddId : Nat)
    (A : List (Nat × Node)) (st : List ((Option Nat × Option Nat) × Nat) × Nat)
    (cv : (Option Nat × Option Nat) × Nat) (h : cv ∈ (buildKnown bn bddId st A).1) :
    cv ∈ st.1 ∨ ∃ p ∈ A, cv.1 = (colPair bn p.2).1 ∨ cv.1 = (colPair bn p.2).2 := by
  induction A generalizing st with
  | nil => exact .inl h
  | cons p A ih =>
      rw [buildKnown_cons] at h
      rcases ih _ h with hin | ⟨q, hq, hc⟩
      · rcases insCol_mem _ _ _ _ hin with hin2 | hc1
        · rcases insCol_mem _ _ _ _ hin2 with hin3 | hc0
          · exact .inl hin3
          · exact .inr ⟨p, List.mem_cons_self _ _, .inl hc0⟩
        · exact .inr ⟨p, List.mem_cons_self _ _, .inr hc1⟩
      · exact .inr ⟨q, List.mem_cons_of_mem _ hq, hc⟩

theorem buildKnown_col_present (bn : List (Nat × Node)) (bddId : Nat)
    (A : List (Nat × Node)) (st : List ((Option Nat × Option Nat) × Nat) × Nat)
    (p : Nat × Node) (hp : p ∈ A) (c : Option Nat × Option Nat)
    (hc : c = (colPair bn p.2).1 ∨ c = (colPair bn p.2).2)
    (hz : (c.1.isSome || c.2.isSome) = true) :
    (plookup c (buildKnown bn bddId st A).1).isSome = true := by
  induction A generalizing st with
  | nil => cases hp
  | cons q A ih =>
      rw [buildKnown_cons]
      rcases List.mem_cons.mp hp with he | hp'
      · subst he
        have hpres : (plookup c (insCol bddId (insCol bddId st (colPair bn p.2).1)
            (colPair bn p.2).2).1).isSome = true := by
          rcases hc with hc0 | hc1
          · subst hc0
            obtain ⟨v, hv⟩ := Option.isSome_iff_exists.mp
              (plookup_insCol_self bddId st _ hz)
            rw [plookup_insCol_of_some _ _ _ _ _ hv]
            rfl
          · subst hc1
            exact plookup_insCol_self bddId _ _ hz
        obtain ⟨v, hv⟩ := Option.isSome_iff_exists.mp hpres
        rw [plookup_buildKnown_of_some _ _ _ _ _ _ hv]
        rfl
      · exact ih _ hp'

theorem insCol_fresh (bddId : Nat)
    (st : List ((Option Nat × Option Nat) × Nat) × Nat)
    (c : Option Nat × Option Nat)
    (h : ∀ cv ∈ st.1, cv.2 < (st.2 + 1) * 10000 + bddId) :
    ∀ cv ∈ (insCol bddId st c).1,
      cv.2 < ((insCol bddId st c).2 + 1) * 10000 + bddId := by
  intro cv hcv
  unfold insCol at hcv ⊢
  by_cases hz : (c.1.isSome || c.2.isSome) = true
  · rw [if_pos hz] at hcv ⊢
    cases hpl : plookup c st.1 with
    | some w =>
        rw [hpl] at hcv
        dsimp only at hcv ⊢
        exact h cv hcv
    | none =>
        rw [hpl] at hcv
        dsimp only at hcv ⊢
        rcases List.mem_append.mp hcv with h1 | h2
        · have := h cv h1
          omega
        · cases List.mem_singleton.mp h2
          dsimp only
          omega
  · rw [if_neg hz] at hcv ⊢
    exact h cv hcv

theorem buildKnown_fresh (bn : List (Nat × Node)) (bddId : Nat)
    (A : List (Nat × Node)) (st : List ((Option Nat × Option Nat) × Nat) × Nat)
    (h : ∀ cv ∈ st.1, cv.2 < (st.2 + 1) * 10000 + bddId) :
    ∀ cv ∈ (buildKnown bn bddId st A).1,
      cv.2 < ((buildKnown bn bddId st A).2 + 1) * 10000 + bddId := by
  induction A generalizing st with
  | nil => exact h
  | cons p A ih =>
      rw [buildKnown_cons]
      exact ih _ (insCol_fresh _ _ _ (insCol_fresh _ _ _ h))

theorem swapGroup_spec (bddId : Nat) (st : SwapState) (n : Node)
    (col : Option Nat × Option Nat) (sel : Bool)
    (hnodes : st.nodes = st.known.map knownNode)
    (hfresh : ∀ cv ∈ st.known, cv.2 < (st.next_id + 1) * 10000 + bddId) :
    swapGroup bddId st n col sel =
      (⟨st.parents, (insCol bddId (st.known, st.next_id) col).1,
          (insCol bddId (st.known, st.next_id) col).1.map knownNode,
          (insCol bddId (st.known, st.next_id) col).2⟩,
        setEdge sel n (if (col.1.isSome || col.2.isSome) = true then
            plookup col (insCol bddId (st.known, st.next_id) col).1
          else none)) := by
  obtain ⟨P, K, Nd, X⟩ := st
  dsimp only at hnodes hfresh ⊢
  subst hnodes
  unfold swapGroup insCol
  by_cases hz : (col.1.isSome || col.2.isSome) = true
  · simp only [if_pos hz]
    cases hpl : plookup col K with
    | some ex =>
        dsimp only
        rw [hpl]
        cases sel <;> rfl
    | none =>
        dsimp only
        rw [pinsert_fresh _ _ _ hpl]
        rw [ainsert_fresh _ _ _ (by
          intro q hq
          obtain ⟨cv, hcv, rfl⟩ := List.mem_map.mp hq
          have := hfresh cv hcv
          simp only [knownNode]
          omega)]
        rw [plookup_append, hpl]
        simp only [List.map_append, List.map_cons, List.map_nil, knownNode,
          plookup_cons, if_pos rfl]
        cases sel <;> rfl
  · simp only [if_neg hz]
    cases sel <;> rfl

theorem swapStep_spec (bn : List (Nat × Node)) (bddId : Nat) (st : SwapState)
    (p : Nat × Node)
    (hnodes : st.nodes = st.known.map knownNode)
    (hfresh : ∀ cv ∈ st.known, cv.2 < (st.next_id + 1) * 10000 + bddId) :
    swapStep bn bddId st p =
      ⟨st.parents ++ [(p.1,
          rewire (buildKnown bn bddId (st.known, st.next_id) [p]).1 bn p.2)],
        (buildKnown bn bddId (st.known, st.next_id) [p]).1,
        (buildKnown bn bddId (st.known, st.next_id) [p]).1.map knownNode,
        (buildKnown bn bddId (st.known, st.next_id) [p]).2⟩ := by
  rw [buildKnown_cons, buildKnown_nil]
  unfold swapStep rewire colPair
  cases hg0 : grandEdges bn p.2 false with
  | mk n₁ e0e =>
    dsimp only
    cases hg1 : grandEdges bn n₁ true with
    | mk n₂ e1e =>
      dsimp only
      rw [swapGroup_spec bddId st n₂ (e0e.1, e1e.1) false hnodes hfresh]
      dsimp only
      rw [swapGroup_spec bddId _ _ (e0e.2, e1e.2) true rfl
        (insCol_fresh bddId (st.known, st.next_id) (e0e.1, e1e.1) hfresh)]
      dsimp only
      by_cases hz0 : ((e0e.1).isSome || (e1e.1).isSome) = true
      · obtain ⟨v, hv⟩ := Option.isSome_iff_exists.mp
          (plookup_insCol_self bddId (st.known, st.next_id) (e0e.1, e1e.1) hz0)
        rw [if_pos hz0, if_pos hz0, hv,
          plookup_insCol_of_some bddId _ (e0e.1, e1e.1) (e0e.2, e1e.2) v hv]
        rfl
      · rw [if_neg hz0, if_neg hz0]
        rfl

theorem swapFold_spec (bn : List (Nat × Node)) (bddId : Nat) (A : List (Nat × Node))
    (st : SwapState)
    (hnodes : st.nodes = st.known.map knownNode)
    (hfresh : ∀ cv ∈ st.known, cv.2 < (st.next_id + 1) * 10000 + bddId) :
    A.foldl (swapStep bn bddId) st =
      ⟨st.parents ++ A.map (fun p => (p.1,
          rewire (buildKnown bn bddId (st.known, st.next_id) A).1 bn p.2)),
        (buildKnown bn bddId (st.known, st.next_id) A).1,
        (buildKnown bn bddId (st.known, st.next_id) A).1.map knownNode,
        (buildKnown bn bddId (st.known, st.next_id) A).2⟩ := by
  induction A generalizing st with
  | nil =>
      obtain ⟨P, K, Nd, X⟩ := st
      dsimp only at hnodes ⊢
      subst hnodes
      rw [buildKnown_nil]
      simp
  | cons p A ih =>
      rw [List.foldl_cons, swapStep_spec bn bddId st p hnodes hfresh]
      have hfr2 : ∀ cv ∈ (buildKnown bn bddId (st.known, st.next_id) [p]).1,
          cv.2 < ((buildKnown bn bddId (st.known, st.next_id) [p]).2 + 1) * 10000 + bddId :=
        buildKnown_fresh bn bddId [p] _ hfresh
      rw [ih ⟨st.parents ++ [(p.1,
            rewire (buildKnown bn bddId (st.known, st.next_id) [p]).1 bn p.2)],
          (buildKnown bn bddId (st.known, st.next_id) [p]).1,
          (buildKnown bn bddId (st.known, st.next_id) [p]).1.map knownNode,
          (buildKnown bn bddId (st.known, st.next_id) [p]).2⟩ rfl hfr2]
      dsimp only
      have hrw : rewire (buildKnown bn bddId (st.known, st.next_id) [p]).1 bn p.2 =
          rewire (buildKnown bn bddId
            (buildKnown bn bddId (st.known, st.next_id) [p]) A).1 bn p.2 := by
        unfold rewire
        congr 1
        · by_cases hz0 : ((colPair bn p.2).1.1.isSome || (colPair bn p.2).1.2.isSome) = true
          · rw [if_pos hz0, if_pos hz0]
            have hself := plookup_insCol_self bddId (st.known, st.next_id)
              (colPair bn p.2).1 hz0
            obtain ⟨v, hv⟩ := Option.isSome_iff_exists.mp hself
            have hv2 : plookup (colPair bn p.2).1
                (buildKnown bn bddId (st.known, st.next_id) [p]).1 = some v := by
              rw [buildKnown_cons, buildKnown_nil]
              exact plookup_insCol_of_some bddId _ _ (colPair bn p.2).2 v hv
            rw [hv2, plookup_buildKnown_of_some bn bddId A _ _ v hv2]
          · rw [if_neg hz0, if_neg hz0]
        · by_cases hz1 : ((colPair bn p.2).2.1.isSome || (colPair bn p.2).2.2.isSome) = true
          · rw [if_pos hz1, if_pos hz1]
            have hself := plookup_insCol_self bddId
              (insCol bddId (st.known, st.next_id) (colPair bn p.2).1)
              (colPair bn p.2).2 hz1
            obtain ⟨v, hv⟩ := Option.isSome_iff_exists.mp hself
            have hv2 : plookup (colPair bn p.2).2
                (buildKnown bn bddId (st.known, st.next_id) [p]).1 = some v := by
              rw [buildKnown_cons, buildKnown_nil]
              exact hv
            rw [hv2, plookup_buildKnown_of_some bn bddId A _ _ v hv2]
          · rw [if_neg hz1, if_neg hz1]
      rw [hrw, buildKnown_cons, List.map_cons, List.append_assoc]
      rfl

theorem swap_levels (b : Bdd) (i : Nat) :
    (b.swap i).levels =
      (b.levels.set i ⟨(b.levelAt i).nodes.map (fun p => (p.1,
          rewire (buildKnown (b.levelAt (i+1)).nodes b.id ([], b.next_id)
            (b.levelAt i).nodes).1 (b.levelAt (i+1)).nodes p.2)),
          (b.levelAt (i+1)).lhs⟩).set (i+1)
        ⟨(buildKnown (b.levelAt (i+1)).nodes b.id ([], b.next_id)
            (b.levelAt i).nodes).1.map knownNode, (b.levelAt i).lhs⟩ := by
  unfold Bdd.swap
  dsimp only
  rw [swapFold_spec (b.levelAt (i+1)).nodes b.id (b.levelAt i).nodes
    ⟨[], [], [], b.next_id⟩ rfl (by intro cv hcv; cases hcv)]
  rfl

theorem swap_id (b : Bdd) (i : Nat) : (b.swap i).id = b.id := rfl

theorem swap_next_id (b : Bdd) (i : Nat) :
    (b.swap i).next_id =
      (buildKnown (b.levelAt (i+1)).nodes b.id ([], b.next_id)
        (b.levelAt i).nodes).2 := by
  unfold Bdd.swap
  dsimp only
  rw [swapFold_spec (b.levelAt (i+1)).nodes b.id (b.levelAt i).nodes
    ⟨[], [], [], b.next_id⟩ rfl (by intro cv hcv; cases hcv)]
  rfl

theorem buildKnown_enum0 (bn : List (Nat × Node)) (bddId n0 : Nat)
    (A : List (Nat × Node)) :
    KnownEnum bddId n0 (buildKnown bn bddId ([], n0) A) :=
  buildKnown_enum bn bddId n0 A ([], n0) ⟨by simp, by simp⟩

theorem knownEnum_val_bounds (bddId n0 : Nat)
    (st : List ((Option Nat × Option Nat) × Nat) × Nat) (h : KnownEnum bddId n0 st)
    (cv : (Option Nat × Option Nat) × Nat) (hm : cv ∈ st.1) :
    (n0 + 1) * 10000 + bddId ≤ cv.2 ∧ cv.2 < (st.2 + 1) * 10000 + bddId := by
  have hv : cv.2 ∈ st.1.map Prod.snd := List.mem_map_of_mem Prod.snd hm
  rw [h.1] at hv
  simp only [List.mem_map, List.mem_range] at hv
  obtain ⟨j, hj, he⟩ := hv
  have h2 := h.2
  omega

theorem knownEnum_vals_nodup (bddId n0 : Nat)
    (st : List ((Option Nat × Option Nat) × Nat) × Nat) (h : KnownEnum bddId n0 st) :
    (st.1.map Prod.snd).Nodup := by
  rw [h.1]
  refine List.Nodup.map ?_ (List.nodup_range _)
  intro a b hab
  dsimp only at hab
  omega

theorem knownEnum_counter_le (bddId n0 : Nat)
    (st : List ((Option Nat × Option Nat) × Nat) × Nat) (h : KnownEnum bddId n0 st) :
    n0 ≤ st.2 := by
  have h2 := h.2
  omega

theorem alookup_knownNode (K : List ((Option Nat × Option Nat) × Nat))
    (hnd : (K.map Prod.snd).Nodup) (cv : (Option Nat × Option Nat) × Nat)
    (hm : cv ∈ K) :
    alookup cv.2 (K.map knownNode) = some ⟨cv.1.1, cv.1.2⟩ := by
  apply alookup_nodup_mem
  · rw [List.map_map]
    exact hnd
  · exact List.mem_map_of_mem knownNode hm

theorem getD_eq_getElem (l : List α) (i : Nat) (d : α) (h : i < l.length) :
    l.getD i d = l[i] := by
  rw [List.getD_eq_getElem?_getD, List.getElem?_eq_getElem h]
  rfl

theorem grandEdges_false_eq (bn : List (Nat × Node)) (n : Node) :
    grandEdges bn n false =
      (match n.e0 with
       | some c =>
           match alookup c bn with
           | some ch => (n, (ch.e0, ch.e1))
           | none => (⟨none, n.e1⟩, (none, none))
       | none => (n, (none, none))) := rfl

theorem grandEdges_true_eq (bn : List (Nat × Node)) (n : Node) :
    grandEdges bn n true =
      (match n.e1 with
       | some c =>
           match alookup c bn with
           | some ch => (n, (ch.e0, ch.e1))
           | none => (⟨n.e0, none⟩, (none, none))
       | none => (n, (none, none))) := rfl

theorem chainOk_level_resolve (ls : List Level) (hc : ChainOk ls) (j : Nat)
    (hj : j + 1 < ls.length) :
    ∀ p ∈ (ls.getD j ⟨[], []⟩).nodes,
      (p.2.e0.isSome || p.2.e1.isSome) = true ∧
      (∀ c ∈ p.2.e0.toList, (alookup c (ls.getD (j+1) ⟨[], []⟩).nodes).isSome = true) ∧
      (∀ c ∈ p.2.e1.toList, (alookup c (ls.getD (j+1) ⟨[], []⟩).nodes).isSome = true) := by
  have hd := chainOk_drop ls j hc
  have hj0 : j < ls.length := by omega
  rw [List.drop_eq_getElem_cons hj0, List.drop_eq_getElem_cons hj] at hd
  rw [getD_eq_getElem ls j _ hj0, getD_eq_getElem ls (j+1) _ hj]
  exact hd.1

theorem wf_level_keys_nodup (b : Bdd)
    (hnd : (b.levels.map (fun l => l.nodes.map Prod.fst)).flatten.Nodup)
    (j : Nat) (hj : j < b.levels.length) :
    ((b.levelAt j).nodes.map Prod.fst).Nodup := by
  have h1 := (List.nodup_flatten.mp hnd).1
  apply h1
  unfold Bdd.levelAt
  rw [getD_eq_getElem _ _ _ hj]
  exact List.mem_map_of_mem _ (List.getElem_mem hj)

theorem colPair_rewire (bn : List (Nat × Node)) (bddId n0 : Nat)
    (A : List (Nat × Node)) (p : Nat × Node) (hp : p ∈ A) :
    colPair ((buildKnown bn bddId ([], n0) A).1.map knownNode)
        (rewire (buildKnown bn bddId ([], n0) A).1 bn p.2) =
      (((colPair bn p.2).1.1, (colPair bn p.2).2.1),
       ((colPair bn p.2).1.2, (colPair bn p.2).2.2)) := by
  have henum := buildKnown_enum0 bn bddId n0 A
  have hvnd := knownEnum_vals_nodup bddId n0 _ henum
  unfold rewire
  by_cases hz0 : ((colPair bn p.2).1.1.isSome || (colPair bn p.2).1.2.isSome) = true
  · obtain ⟨v0, hv0⟩ := Option.isSome_iff_exists.mp
      (buildKnown_col_present bn bddId A ([], n0) p hp (colPair bn p.2).1 (Or.inl rfl) hz0)
    have ha0 := alookup_knownNode _ hvnd _ (plookup_mem _ _ _ hv0)
    dsimp only at ha0
    rw [if_pos hz0, hv0]
    by_cases hz1 : ((colPair bn p.2).2.1.isSome || (colPair bn p.2).2.2.isSome) = true
    · obtain ⟨v1, hv1⟩ := Option.isSome_iff_exists.mp
        (buildKnown_col_present bn bddId A ([], n0) p hp (colPair bn p.2).2 (Or.inr rfl) hz1)
      have ha1 := alookup_knownNode _ hvnd _ (plookup_mem _ _ _ hv1)
      dsimp only at ha1
      rw [if_pos hz1, hv1]
      unfold colPair
      rw [grandEdges_false_eq]
      dsimp only
      rw [ha0]
      dsimp only
      rw [grandEdges_true_eq]
      dsimp only
      rw [ha1]
      rfl
    · have hn10 : (colPair bn p.2).2.1 = none := by
        cases h : (colPair bn p.2).2.1 with
        | none => rfl
        | some a => exact absurd (by rw [h]; rfl) hz1
      have hn11 : (colPair bn p.2).2.2 = none := by
        cases h : (colPair bn p.2).2.2 with
        | none => rfl
        | some a => exact absurd (by rw [h]; simp) hz1
      rw [if_neg hz1, hn10, hn11]
      unfold colPair
      rw [grandEdges_false_eq]
      dsimp only
      rw [ha0]
      dsimp only
      rw [grandEdges_true_eq]
      rfl
  · have hn00 : (colPair bn p.2).1.1 = none := by
      cases h : (colPair bn p.2).1.1 with
      | none => rfl
      | some a => exact absurd (by rw [h]; rfl) hz0
    have hn01 : (colPair bn p.2).1.2 = none := by
      cases h : (colPair bn p.2).1.2 with
      | none => rfl
      | some a => exact absurd (by rw [h]; simp) hz0
    rw [if_neg hz0, hn00, hn01]
    by_cases hz1 : ((colPair bn p.2).2.1.isSome || (colPair bn p.2).2.2.isSome) = true
    · obtain ⟨v1, hv1⟩ := Option.isSome_iff_exists.mp
        (buildKnown_col_present bn bddId A ([], n0) p hp (colPair bn p.2).2 (Or.inr rfl) hz1)
      have ha1 := alookup_knownNode _ hvnd _ (plookup_mem _ _ _ hv1)
      dsimp only at ha1
      rw [if_pos hz1, hv1]
      unfold colPair
      rw [grandEdges_false_eq]
      dsimp only
      rw [grandEdges_true_eq]
      dsimp only
      rw [ha1]
      rfl
    · have hn10 : (colPair bn p.2).2.1 = none := by
        cases h : (colPair bn p.2).2.1 with
        | none => rfl
        | some a => exact absurd (by rw [h]; rfl) hz1
      have hn11 : (colPair bn p.2).2.2 = none := by
        cases h : (colPair bn p.2).2.2 with
        | none => rfl
        | some a => exact absurd (by rw [h]; simp) hz1
      rw [if_neg hz1, hn10, hn11]
      unfold colPair
      rw [grandEdges_false_eq]
      dsimp only
      rw [grandEdges_true_eq]

theorem nodup_keys_inj {κ β : Type} (l : List (κ × β))
    (h : (l.map Prod.fst).Nodup) :
    ∀ x ∈ l, ∀ y ∈ l, x.1 = y.1 → x = y := by
  induction l with
  | nil => intro x hx; cases hx
  | cons a l ih =>
      rw [List.map_cons, List.nodup_cons] at h
      intro x hx y hy hxy
      rcases List.mem_cons.mp hx with rfl | hx'
      · rcases List.mem_cons.mp hy with rfl | hy'
        · rfl
        · exact absurd (hxy ▸ List.mem_map_of_mem Prod.fst hy') h.1
      · rcases List.mem_cons.mp hy with rfl | hy'
        · exact absurd (hxy ▸ List.mem_map_of_mem Prod.fst hx') h.1
        · exact ih h.2 x hx' y hy' hxy

theorem chainOk_last (ls : List Level) (hc : ChainOk ls) (hne : ls ≠ []) :
    ∀ p ∈ (ls.getD (ls.length - 1) ⟨[], []⟩).nodes, p.2 = Node.mk none none := by
  have hlt : ls.length - 1 < ls.length := by
    cases ls with
    | nil => exact absurd rfl hne
    | cons l rest => simp
  have hd := chainOk_drop ls (ls.length - 1) hc
  rw [List.drop_eq_getElem_cons hlt] at hd
  rw [show ls.length - 1 + 1 = ls.length from by omega, List.drop_length] at hd
  rw [getD_eq_getElem ls (ls.length - 1) _ hlt]
  exact hd

theorem swap_levelAt_above (b : Bdd) (i : Nat) (hrange : i + 1 < b.levels.length) :
    (b.swap i).levelAt i = ⟨swapP1 b i, (b.levelAt (i+1)).lhs⟩ := by
  unfold Bdd.levelAt
  rw [swap_levels b i, getD_set_ne _ _ _ _ _ (by omega),
    getD_set_eq _ _ _ _ (by omega)]
  rfl

theorem swap_levelAt_below (b : Bdd) (i : Nat) (hrange : i + 1 < b.levels.length) :
    (b.swap i).levelAt (i+1) = ⟨swapN1 b i, (b.levelAt i).lhs⟩ := by
  unfold Bdd.levelAt
  rw [swap_levels b i, getD_set_eq _ _ _ _ (by simp; omega)]
  rfl

theorem swap_twice_levels (b : Bdd) (i : Nat) (hrange : i + 1 < b.levels.length) :
    ((b.swap i).swap i).levels =
      (b.levels.set i ⟨swapP2 b i, (b.levelAt i).lhs⟩).set (i+1)
        ⟨swapN2 b i, (b.levelAt (i+1)).lhs⟩ := by
  have h2 := swap_levels (b.swap i) i
  rw [swap_levelAt_above b i hrange, swap_levelAt_below b i hrange,
    swap_id, swap_next_id, swap_levels b i] at h2
  rw [h2]
  rw [List.set_comm _ _ _ (by omega : i + 1 ≠ i), List.set_set, List.set_set]
  rfl

theorem colPair_resolved (bn : List (Nat × Node)) (n : Node)
    (hr0 : ∀ c ∈ n.e0.toList, (alookup c bn).isSome = true)
    (hr1 : ∀ c ∈ n.e1.toList, (alookup c bn).isSome = true) :
    colPair bn n =
      (((fnThrough bn n.e0).1, (fnThrough bn n.e1).1),
       ((fnThrough bn n.e0).2, (fnThrough bn n.e1).2)) := by
  have hg0 : grandEdges bn n false = (n, fnThrough bn n.e0) := by
    rw [grandEdges_false_eq]
    unfold fnThrough
    cases he0 : n.e0 with
    | none => rfl
    | some c0 =>
        obtain ⟨ch, hch⟩ := Option.isSome_iff_exists.mp (hr0 c0 (by simp [he0]))
        dsimp only
        rw [hch]
  have hg1 : grandEdges bn n true = (n, fnThrough bn n.e1) := by
    rw [grandEdges_true_eq]
    unfold fnThrough
    cases he1 : n.e1 with
    | none => rfl
    | some c1 =>
        obtain ⟨ch, hch⟩ := Option.isSome_iff_exists.mp (hr1 c1 (by simp [he1]))
        dsimp only
        rw [hch]
  unfold colPair
  rw [hg0]
  dsimp only
  rw [hg1]

theorem colPair_second (bn : List (Nat × Node)) (bddId n0 : Nat)
    (A : List (Nat × Node)) (p : Nat × Node) (hp : p ∈ A)
    (hr0 : ∀ c ∈ p.2.e0.toList, (alookup c bn).isSome = true)
    (hr1 : ∀ c ∈ p.2.e1.toList, (alookup c bn).isSome = true) :
    colPair ((buildKnown bn bddId ([], n0) A).1.map knownNode)
        (rewire (buildKnown bn bddId ([], n0) A).1 bn p.2) =
      (fnThrough bn p.2.e0, fnThrough bn p.2.e1) := by
  rw [colPair_rewire bn bddId n0 A p hp, colPair_resolved bn p.2 hr0 hr1]

theorem swapK2_key_fn (b : Bdd) (i : Nat) (hrange : i + 2 < b.levels.length)
    (hck : ChainOk b.levels) :
    ∀ cv ∈ (swapK2 b i).1,
      ∃ q ∈ (b.levelAt (i+1)).nodes, cv.1 = (q.2.e0, q.2.e1) := by
  intro cv hcv
  have hnz := buildKnown_keys_nonzero (swapN1 b i) b.id (swapP1 b i)
    ([], (swapK1 b i).2) (by intro x hx; cases hx) cv hcv
  rcases buildKnown_mem (swapN1 b i) b.id (swapP1 b i) ([], (swapK1 b i).2) cv hcv
    with h0 | ⟨q', hq', hc⟩
  · cases h0
  · obtain ⟨p, hp, rfl⟩ := List.mem_map.mp hq'
    have hres := chainOk_level_resolve b.levels hck i (by omega) p hp
    have hsec : colPair (swapN1 b i)
        (rewire (swapK1 b i).1 (b.levelAt (i+1)).nodes p.2) =
        (fnThrough (b.levelAt (i+1)).nodes p.2.e0,
         fnThrough (b.levelAt (i+1)).nodes p.2.e1) :=
      colPair_second (b.levelAt (i+1)).nodes b.id b.next_id (b.levelAt i).nodes
        p hp hres.2.1 hres.2.2
    dsimp only at hc
    rw [hsec] at hc
    dsimp only at hc
    rcases hc with h | h
    · cases he : p.2.e0 with
      | none =>
          rw [he] at h
          rw [show fnThrough (b.levelAt (i+1)).nodes none = (none, none) from rfl] at h
          rw [h] at hnz
          simp at hnz
      | some c =>
          obtain ⟨ch, hch⟩ := Option.isSome_iff_exists.mp (hres.2.1 c (by simp [he]))
          refine ⟨(c, ch), alookup_mem _ _ _ hch, ?_⟩
          rw [h, he]
          unfold fnThrough
          dsimp only
          rw [show alookup c (b.levelAt (i+1)).nodes = some ch from hch]
    · cases he : p.2.e1 with
      | none =>
          rw [he] at h
          rw [show fnThrough (b.levelAt (i+1)).nodes none = (none, none) from rfl] at h
          rw [h] at hnz
          simp at hnz
      | some c =>
          obtain ⟨ch, hch⟩ := Option.isSome_iff_exists.mp (hres.2.2 c (by simp [he]))
          refine ⟨(c, ch), alookup_mem _ _ _ hch, ?_⟩
          rw [h, he]
          unfold fnThrough
          dsimp only
          rw [show alookup c (b.levelAt (i+1)).nodes = some ch from hch]

theorem swapK2_key_of_below (b : Bdd) (i : Nat) (hrange : i + 2 < b.levels.length)
    (hck : ChainOk b.levels)
    (hndB : ((b.levelAt (i+1)).nodes.map Prod.fst).Nodup)
    (horph : ∀ p ∈ (b.levelAt (i+1)).nodes, ∃ q ∈ (b.levelAt i).nodes,
        q.2.e0 = some p.1 ∨ q.2.e1 = some p.1) :
    ∀ q ∈ (b.levelAt (i+1)).nodes,
      (plookup (q.2.e0, q.2.e1) (swapK2 b i).1).isSome = true := by
  intro q hq
  obtain ⟨r, hr, hor⟩ := horph q hq
  have hresr := chainOk_level_resolve b.levels hck i (by omega) r hr
  have hq2 := chainOk_level_resolve b.levels hck (i+1) (by omega) q hq
  have hr' : (r.1, rewire (swapK1 b i).1 (b.levelAt (i+1)).nodes r.2) ∈ swapP1 b i := by
    unfold swapP1
    exact List.mem_map_of_mem _ hr
  have hsec : colPair (swapN1 b i)
      (rewire (swapK1 b i).1 (b.levelAt (i+1)).nodes r.2) =
      (fnThrough (b.levelAt (i+1)).nodes r.2.e0,
       fnThrough (b.levelAt (i+1)).nodes r.2.e1) :=
    colPair_second (b.levelAt (i+1)).nodes b.id b.next_id (b.levelAt i).nodes
      r hr hresr.2.1 hresr.2.2
  have haq : alookup q.1 (b.levelAt (i+1)).nodes = some q.2 :=
    alookup_nodup_mem q.1 q.2 _ hndB hq
  rcases hor with h0 | h1
  · have hf : fnThrough (b.levelAt (i+1)).nodes r.2.e0 = (q.2.e0, q.2.e1) := by
      rw [h0]
      unfold fnThrough
      dsimp only
      rw [haq]
    exact buildKnown_col_present (swapN1 b i) b.id (swapP1 b i)
      ([], (swapK1 b i).2) _ hr' (q.2.e0, q.2.e1)
      (Or.inl (by rw [hsec]; exact hf.symm)) hq2.1
  · have hf : fnThrough (b.levelAt (i+1)).nodes r.2.e1 = (q.2.e0, q.2.e1) := by
      rw [h1]
      unfold fnThrough
      dsimp only
      rw [haq]
    exact buildKnown_col_present (swapN1 b i) b.id (swapP1 b i)
      ([], (swapK1 b i).2) _ hr' (q.2.e0, q.2.e1)
      (Or.inr (by rw [hsec]; exact hf.symm)) hq2.1

theorem swapN2_length (b : Bdd) (i : Nat) (hrange : i + 2 < b.levels.length)
    (hck : ChainOk b.levels)
    (hndB : ((b.levelAt (i+1)).nodes.map Prod.fst).Nodup)
    (hfun : ∀ p ∈ (b.levelAt (i+1)).nodes, ∀ q ∈ (b.levelAt (i+1)).nodes,
        p.2 = q.2 → p.1 = q.1)
    (horph : ∀ p ∈ (b.levelAt (i+1)).nodes, ∃ q ∈ (b.levelAt i).nodes,
        q.2.e0 = some p.1 ∨ q.2.e1 = some p.1) :
    (swapN2 b i).length = (b.levelAt (i+1)).nodes.length := by
  have hK : ((swapK2 b i).1.map Prod.fst).Nodup :=
    buildKnown_keys_nodup (swapN1 b i) b.id (swapP1 b i) ([], (swapK1 b i).2)
      (by simp)
  have hfuncs : ((b.levelAt (i+1)).nodes.map (fun q => (q.2.e0, q.2.e1))).Nodup := by
    apply List.Nodup.map_on ?_ (List.Nodup.of_map Prod.fst hndB)
    intro x hx y hy hxy
    have h0 : x.2.e0 = y.2.e0 := congrArg Prod.fst hxy
    have h1 : x.2.e1 = y.2.e1 := congrArg Prod.snd hxy
    have h2 : x.2 = y.2 := by
      rw [show x.2 = Node.mk x.2.e0 x.2.e1 from rfl, h0, h1]
    exact Prod.ext (hfun x hx y hy h2) h2
  have hperm : ((swapK2 b i).1.map Prod.fst).Perm
      ((b.levelAt (i+1)).nodes.map (fun q => (q.2.e0, q.2.e1))) := by
    rw [List.perm_ext_iff_of_nodup hK hfuncs]
    intro c
    constructor
    · intro hc
      obtain ⟨cv, hcv, rfl⟩ := List.mem_map.mp hc
      obtain ⟨q, hq, he⟩ := swapK2_key_fn b i hrange hck cv hcv
      exact he ▸ List.mem_map_of_mem _ hq
    · intro hc
      obtain ⟨q, hq, rfl⟩ := List.mem_map.mp hc
      obtain ⟨v, hv⟩ := Option.isSome_iff_exists.mp
        (swapK2_key_of_below b i hrange hck hndB horph q hq)
      exact List.mem_map_of_mem Prod.fst (plookup_mem _ _ _ hv)
  have hlen := hperm.length_eq
  unfold swapN2
  simp only [List.length_map] at hlen ⊢
  exact hlen

theorem swapRename_not_mem (orig newNodes : List (Nat × Node)) (x : Nat)
    (h : alookup x newNodes = none) : swapRename orig newNodes x = x := by
  unfold swapRename
  rw [h]

theorem swapK1_counter_ge (b : Bdd) (i : Nat) : b.next_id ≤ (swapK1 b i).2 :=
  knownEnum_counter_le b.id b.next_id (swapK1 b i)
    (buildKnown_enum0 (b.levelAt (i+1)).nodes b.id b.next_id (b.levelAt i).nodes)

theorem swapN2_key_large (b : Bdd) (i : Nat) :
    ∀ q ∈ swapN2 b i, (b.next_id + 1) * 10000 ≤ q.1 := by
  intro q hq
  unfold swapN2 at hq
  obtain ⟨cv, hcv, rfl⟩ := List.mem_map.mp hq
  have hb := knownEnum_val_bounds b.id (swapK1 b i).2 (swapK2 b i)
    (buildKnown_enum0 (swapN1 b i) b.id (swapK1 b i).2 (swapP1 b i)) cv hcv
  have hc1 := swapK1_counter_ge b i
  simp only [knownNode]
  omega

theorem swapRename_small (b : Bdd) (i : Nat) (x : Nat)
    (hx : x < (b.next_id + 1) * 10000) :
    swapRename (b.levelAt (i+1)).nodes (swapN2 b i) x = x := by
  apply swapRename_not_mem
  apply alookup_eq_none_of_forall
  intro q hq
  have := swapN2_key_large b i q hq
  omega

theorem swapRename_spec (b : Bdd) (i : Nat) (hrange : i + 2 < b.levels.length)
    (hck : ChainOk b.levels) :
    ∀ cv ∈ (swapK2 b i).1,
      ∃ q ∈ (b.levelAt (i+1)).nodes,
        q.2 = Node.mk cv.1.1 cv.1.2 ∧
        swapRename (b.levelAt (i+1)).nodes (swapN2 b i) cv.2 = q.1 := by
  intro cv hcv
  obtain ⟨q0, hq0, hfn⟩ := swapK2_key_fn b i hrange hck cv hcv
  have hq0n : q0.2 = Node.mk cv.1.1 cv.1.2 := by
    rw [hfn]
  have ha : alookup cv.2 (swapN2 b i) = some (Node.mk cv.1.1 cv.1.2) :=
    alookup_knownNode (swapK2 b i).1
      (knownEnum_vals_nodup b.id (swapK1 b i).2 (swapK2 b i)
        (buildKnown_enum0 (swapN1 b i) b.id (swapK1 b i).2 (swapP1 b i))) cv hcv
  cases hf : (b.levelAt (i+1)).nodes.find?
      (fun r => decide (r.2 = Node.mk cv.1.1 cv.1.2)) with
  | none =>
      exact absurd (decide_eq_true hq0n) (List.find?_eq_none.mp hf q0 hq0)
  | some q1 =>
      have hp := List.find?_some hf
      refine ⟨q1, List.mem_of_find?_eq_some hf, of_decide_eq_true hp, ?_⟩
      unfold swapRename
      rw [ha]
      dsimp only
      rw [hf]

theorem swapP2_node (b : Bdd) (i : Nat) (hrange : i + 2 < b.levels.length)
    (hck : ChainOk b.levels)
    (hndB : ((b.levelAt (i+1)).nodes.map Prod.fst).Nodup)
    (hfun : ∀ p ∈ (b.levelAt (i+1)).nodes, ∀ q ∈ (b.levelAt (i+1)).nodes,
        p.2 = q.2 → p.1 = q.1)
    (horph : ∀ p ∈ (b.levelAt (i+1)).nodes, ∃ q ∈ (b.levelAt i).nodes,
        q.2.e0 = some p.1 ∨ q.2.e1 = some p.1) :
    ∀ p ∈ (b.levelAt i).nodes,
      Node.mk
        ((rewire (swapK2 b i).1 (swapN1 b i)
            (rewire (swapK1 b i).1 (b.levelAt (i+1)).nodes p.2)).e0.map
          (swapRename (b.levelAt (i+1)).nodes (swapN2 b i)))
        ((rewire (swapK2 b i).1 (swapN1 b i)
            (rewire (swapK1 b i).1 (b.levelAt (i+1)).nodes p.2)).e1.map
          (swapRename (b.levelAt (i+1)).nodes (swapN2 b i))) = p.2 := by
  intro p hp
  have hres := chainOk_level_resolve b.levels hck i (by omega) p hp
  have hsec : colPair (swapN1 b i)
      (rewire (swapK1 b i).1 (b.levelAt (i+1)).nodes p.2) =
      (fnThrough (b.levelAt (i+1)).nodes p.2.e0,
       fnThrough (b.levelAt (i+1)).nodes p.2.e1) :=
    colPair_second (b.levelAt (i+1)).nodes b.id b.next_id (b.levelAt i).nodes
      p hp hres.2.1 hres.2.2
  obtain ⟨n1, hn1⟩ : ∃ n1, rewire (swapK1 b i).1 (b.levelAt (i+1)).nodes p.2 = n1 :=
    ⟨_, rfl⟩
  rw [hn1] at hsec ⊢
  rw [show rewire (swapK2 b i).1 (swapN1 b i) n1 =
      Node.mk
        (if ((fnThrough (b.levelAt (i+1)).nodes p.2.e0).1.isSome ||
            (fnThrough (b.levelAt (i+1)).nodes p.2.e0).2.isSome) = true then
          plookup (fnThrough (b.levelAt (i+1)).nodes p.2.e0) (swapK2 b i).1
        else none)
        (if ((fnThrough (b.levelAt (i+1)).nodes p.2.e1).1.isSome ||
            (fnThrough (b.levelAt (i+1)).nodes p.2.e1).2.isSome) = true then
          plookup (fnThrough (b.levelAt (i+1)).nodes p.2.e1) (swapK2 b i).1
        else none) from by
    unfold rewire
    rw [hsec]]
  have hcomp : ∀ e : Option Nat,
      (∀ c ∈ e.toList, (alookup c (b.levelAt (i+1)).nodes).isSome = true) →
      Option.map (swapRename (b.levelAt (i+1)).nodes (swapN2 b i))
        (if ((fnThrough (b.levelAt (i+1)).nodes e).1.isSome ||
            (fnThrough (b.levelAt (i+1)).nodes e).2.isSome) = true then
          plookup (fnThrough (b.levelAt (i+1)).nodes e) (swapK2 b i).1
        else none) = e := by
    intro e hrese
    cases he : e with
    | none =>
        rw [show fnThrough (b.levelAt (i+1)).nodes none = (none, none) from rfl]
        simp
    | some c =>
        obtain ⟨ch, hch⟩ := Option.isSome_iff_exists.mp (hrese c (by simp [he]))
        have hft : fnThrough (b.levelAt (i+1)).nodes (some c) = (ch.e0, ch.e1) := by
          unfold fnThrough
          dsimp only
          rw [hch]
        rw [hft]
        have hchmem := alookup_mem _ _ _ hch
        have hnzch := (chainOk_level_resolve b.levels hck (i+1) (by omega)
          (c, ch) hchmem).1
        dsimp only at hnzch
        rw [if_pos hnzch]
        obtain ⟨v, hv⟩ := Option.isSome_iff_exists.mp
          (swapK2_key_of_below b i hrange hck hndB horph (c, ch) hchmem)
        dsimp only at hv
        rw [hv]
        obtain ⟨q1, hq1, hq1n, hq1f⟩ := swapRename_spec b i hrange hck
          ((ch.e0, ch.e1), v) (plookup_mem _ _ _ hv)
        have hq1c : q1.1 = c := hfun q1 hq1 (c, ch) hchmem (by rw [hq1n])
        rw [show Option.map (swapRename (b.levelAt (i+1)).nodes (swapN2 b i))
            (some v) = some (swapRename (b.levelAt (i+1)).nodes (swapN2 b i) v)
          from rfl, hq1f, hq1c]
  dsimp only
  rw [hcomp p.2.e0 hres.2.1, hcomp p.2.e1 hres.2.2]

theorem swapN2_inj (b : Bdd) (i : Nat) (hrange : i + 2 < b.levels.length)
    (hck : ChainOk b.levels)
    (hndB : ((b.levelAt (i+1)).nodes.map Prod.fst).Nodup) :
    ∀ x ∈ swapN2 b i, ∀ y ∈ swapN2 b i,
      swapRename (b.levelAt (i+1)).nodes (swapN2 b i) x.1 =
        swapRename (b.levelAt (i+1)).nodes (swapN2 b i) y.1 → x.1 = y.1 := by
  intro x hx y hy hf
  unfold swapN2 at hx hy
  obtain ⟨cv1, hcv1, rfl⟩ := List.mem_map.mp hx
  obtain ⟨cv2, hcv2, rfl⟩ := List.mem_map.mp hy
  obtain ⟨q1, hq1, hq1n, hq1f⟩ := swapRename_spec b i hrange hck cv1 hcv1
  obtain ⟨q2, hq2, hq2n, hq2f⟩ := swapRename_spec b i hrange hck cv2 hcv2
  simp only [knownNode] at hf ⊢
  rw [hq1f, hq2f] at hf
  have hqeq : q1 = q2 := nodup_keys_inj _ hndB q1 hq1 q2 hq2 hf
  have hkey : cv1.1 = cv2.1 := by
    have hnn : Node.mk cv1.1.1 cv1.1.2 = Node.mk cv2.1.1 cv2.1.2 := by
      rw [← hq1n, ← hq2n, hqeq]
    have h1 : cv1.1.1 = cv2.1.1 := congrArg Node.e0 hnn
    have h2 : cv1.1.2 = cv2.1.2 := congrArg Node.e1 hnn
    rw [show cv1.1 = (cv1.1.1, cv1.1.2) from rfl, h1, h2]
  have hcveq : cv1 = cv2 := nodup_keys_inj _
    (buildKnown_keys_nodup (swapN1 b i) b.id (swapP1 b i) ([], (swapK1 b i).2)
      (by simp)) cv1 hcv1 cv2 hcv2 hkey
  rw [hcveq]

theorem wf_level_id_bound (b : Bdd)
    (hidb : ∀ l ∈ b.levels, ∀ p ∈ l.nodes, p.1 < (b.next_id + 1) * 10000)
    (j : Nat) (hj : j < b.levels.length) :
    ∀ q ∈ (b.levelAt j).nodes, q.1 < (b.next_id + 1) * 10000 := by
  intro q hq
  apply hidb (b.levelAt j) ?_ q hq
  unfold Bdd.levelAt
  rw [getD_eq_getElem _ _ _ hj]
  exact List.getElem_mem hj

theorem swapN2_renaming (b : Bdd) (i : Nat) (hrange : i + 2 < b.levels.length)
    (hck : ChainOk b.levels)
    (hidb : ∀ l ∈ b.levels, ∀ p ∈ l.nodes, p.1 < (b.next_id + 1) * 10000) :
    ∀ p ∈ swapN2 b i,
      (swapRename (b.levelAt (i+1)).nodes (swapN2 b i) p.1,
        Node.mk
          (p.2.e0.map (swapRename (b.levelAt (i+1)).nodes (swapN2 b i)))
          (p.2.e1.map (swapRename (b.levelAt (i+1)).nodes (swapN2 b i))))
        ∈ (b.levelAt (i+1)).nodes := by
  intro p hp
  unfold swapN2 at hp
  obtain ⟨cv, hcv, rfl⟩ := List.mem_map.mp hp
  obtain ⟨q1, hq1, hq1n, hq1f⟩ := swapRename_spec b i hrange hck cv hcv
  obtain ⟨q0, hq0, hfn⟩ := swapK2_key_fn b i hrange hck cv hcv
  have hq0res := chainOk_level_resolve b.levels hck (i+1) (by omega) q0 hq0
  have he0q : cv.1.1 = q0.2.e0 := congrArg Prod.fst hfn
  have he1q : cv.1.2 = q0.2.e1 := congrArg Prod.snd hfn
  have hfe0 : cv.1.1.map (swapRename (b.levelAt (i+1)).nodes (swapN2 b i)) =
      cv.1.1 := by
    cases hc1 : cv.1.1 with
    | none => rfl
    | some c =>
        have hcq : q0.2.e0 = some c := by rw [← he0q, hc1]
        obtain ⟨nd2, hnd2⟩ := Option.isSome_iff_exists.mp
          (hq0res.2.1 c (by simp [hcq]))
        rw [show Option.map (swapRename (b.levelAt (i+1)).nodes (swapN2 b i))
            (some c) = some (swapRename (b.levelAt (i+1)).nodes (swapN2 b i) c)
          from rfl,
          swapRename_small b i c (wf_level_id_bound b hidb (i+2) (by omega)
            (c, nd2) (alookup_mem _ _ _ hnd2))]
  have hfe1 : cv.1.2.map (swapRename (b.levelAt (i+1)).nodes (swapN2 b i)) =
      cv.1.2 := by
    cases hc1 : cv.1.2 with
    | none => rfl
    | some c =>
        have hcq : q0.2.e1 = some c := by rw [← he1q, hc1]
        obtain ⟨nd2, hnd2⟩ := Option.isSome_iff_exists.mp
          (hq0res.2.2 c (by simp [hcq]))
        rw [show Option.map (swapRename (b.levelAt (i+1)).nodes (swapN2 b i))
            (some c) = some (swapRename (b.levelAt (i+1)).nodes (swapN2 b i) c)
          from rfl,
          swapRename_small b i c (wf_level_id_bound b hidb (i+2) (by omega)
            (c, nd2) (alookup_mem _ _ _ hnd2))]
  simp only [knownNode]
  rw [hq1f]
  rw [hfe0, hfe1, ← hq1n]
  exact hq1

theorem swapP2_renaming (b : Bdd) (i : Nat) (hrange : i + 2 < b.levels.length)
    (hck : ChainOk b.levels)
    (hndB : ((b.levelAt (i+1)).nodes.map Prod.fst).Nodup)
    (hfun : ∀ p ∈ (b.levelAt (i+1)).nodes, ∀ q ∈ (b.levelAt (i+1)).nodes,
        p.2 = q.2 → p.1 = q.1)
    (horph : ∀ p ∈ (b.levelAt (i+1)).nodes, ∃ q ∈ (b.levelAt i).nodes,
        q.2.e0 = some p.1 ∨ q.2.e1 = some p.1)
    (hidb : ∀ l ∈ b.levels, ∀ p ∈ l.nodes, p.1 < (b.next_id + 1) * 10000) :
    ∀ p ∈ swapP2 b i,
      (swapRename (b.levelAt (i+1)).nodes (swapN2 b i) p.1,
        Node.mk
          (p.2.e0.map (swapRename (b.levelAt (i+1)).nodes (swapN2 b i)))
          (p.2.e1.map (swapRename (b.levelAt (i+1)).nodes (swapN2 b i))))
        ∈ (b.levelAt i).nodes := by
  intro p hp
  unfold swapP2 at hp
  obtain ⟨p1, hp1, rfl⟩ := List.mem_map.mp hp
  unfold swapP1 at hp1
  obtain ⟨p0, hp0, rfl⟩ := List.mem_map.mp hp1
  dsimp only
  rw [swapRename_small b i p0.1 (wf_level_id_bound b hidb i (by omega) p0 hp0),
    swapP2_node b i hrange hck hndB hfun horph p0 hp0]
  exact hp0

theorem untouched_renaming (b : Bdd) (i : Nat) (hck : ChainOk b.levels)
    (hidb : ∀ l ∈ b.levels, ∀ p ∈ l.nodes, p.1 < (b.next_id + 1) * 10000)
    (j : Nat) (hj : j < b.levels.length) :
    ∀ p ∈ (b.levelAt j).nodes,
      (swapRename (b.levelAt (i+1)).nodes (swapN2 b i) p.1,
        Node.mk
          (p.2.e0.map (swapRename (b.levelAt (i+1)).nodes (swapN2 b i)))
          (p.2.e1.map (swapRename (b.levelAt (i+1)).nodes (swapN2 b i))))
        ∈ (b.levelAt j).nodes := by
  intro p hp
  have hfix1 : swapRename (b.levelAt (i+1)).nodes (swapN2 b i) p.1 = p.1 :=
    swapRename_small b i p.1 (wf_level_id_bound b hidb j hj p hp)
  have hnode : Node.mk
      (p.2.e0.map (swapRename (b.levelAt (i+1)).nodes (swapN2 b i)))
      (p.2.e1.map (swapRename (b.levelAt (i+1)).nodes (swapN2 b i))) = p.2 := by
    by_cases hlast : j + 1 < b.levels.length
    · have hres := chainOk_level_resolve b.levels hck j hlast p hp
      have h0 : p.2.e0.map (swapRename (b.levelAt (i+1)).nodes (swapN2 b i)) =
          p.2.e0 := by
        cases he : p.2.e0 with
        | none => rfl
        | some c =>
            obtain ⟨nd2, hnd2⟩ := Option.isSome_iff_exists.mp
              (hres.2.1 c (by simp [he]))
            rw [show Option.map (swapRename (b.levelAt (i+1)).nodes (swapN2 b i))
                (some c) = some (swapRename (b.levelAt (i+1)).nodes (swapN2 b i) c)
              from rfl,
              swapRename_small b i c (wf_level_id_bound b hidb (j+1) (by omega)
                (c, nd2) (alookup_mem _ _ _ hnd2))]
      have h1 : p.2.e1.map (swapRename (b.levelAt (i+1)).nodes (swapN2 b i)) =
          p.2.e1 := by
        cases he : p.2.e1 with
        | none => rfl
        | some c =>
            obtain ⟨nd2, hnd2⟩ := Option.isSome_iff_exists.mp
              (hres.2.2 c (by simp [he]))
            rw [show Option.map (swapRename (b.levelAt (i+1)).nodes (swapN2 b i))
                (some c) = some (swapRename (b.levelAt (i+1)).nodes (swapN2 b i) c)
              from rfl,
              swapRename_small b i c (wf_level_id_bound b hidb (j+1) (by omega)
                (c, nd2) (alookup_mem _ _ _ hnd2))]
      rw [h0, h1]
    · have hj' : j = b.levels.length - 1 := by omega
      have hp' : p ∈ (b.levelAt (b.levels.length - 1)).nodes := hj' ▸ hp
      have hpn := chainOk_last b.levels hck
        (by
          intro hnil
          rw [hnil] at hj
          simp at hj) p hp'
      rw [hpn]
      rfl
  rw [hfix1, hnode]
  exact hp

theorem swap_twice_struct_equiv (b : Bdd) (i : Nat) (hwf : b.WF)
    (hrange : i + 2 < b.levels.length)
    (hidb : ∀ l ∈ b.levels, ∀ p ∈ l.nodes, p.1 < (b.next_id + 1) * 10000)
    (hfun : ∀ p ∈ (b.levelAt (i+1)).nodes, ∀ q ∈ (b.levelAt (i+1)).nodes,
        p.2 = q.2 → p.1 = q.1)
    (horph : ∀ p ∈ (b.levelAt (i+1)).nodes, ∃ q ∈ (b.levelAt i).nodes,
        q.2.e0 = some p.1 ∨ q.2.e1 = some p.1) :
    StructEquiv ((b.swap i).swap i) b := by
  obtain ⟨hne, hsrc, hsink, hsinklhs, hwid, hnd, hck⟩ := hwf
  have hndB : ((b.levelAt (i+1)).nodes.map Prod.fst).Nodup :=
    wf_level_keys_nodup b hnd (i+1) (by omega)
  have hL2 := swap_twice_levels b i (by omega)
  have hbli : i < b.levels.length := by omega
  have hbli1 : i + 1 < b.levels.length := by omega
  have hlvI : b.levelAt i = b.levels[i] :=
    getD_eq_getElem b.levels i ⟨[], []⟩ hbli
  have hlvI1 : b.levelAt (i+1) = b.levels[i+1] :=
    getD_eq_getElem b.levels (i+1) ⟨[], []⟩ hbli1
  unfold StructEquiv
  refine ⟨?_, ?_, swapRename (b.levelAt (i+1)).nodes (swapN2 b i), ?_⟩
  · rw [hL2]
    simp
  · rw [hL2, List.forall₂_iff_get]
    refine ⟨by simp, ?_⟩
    intro j h1 h2
    simp only [List.get_eq_getElem]
    by_cases hj1 : i + 1 = j
    · subst hj1
      rw [List.getElem_set_self, ← hlvI1]
      exact ⟨rfl, swapN2_length b i hrange hck hndB hfun horph⟩
    · by_cases hj0 : i = j
      · subst hj0
        rw [List.getElem_set_ne (by omega), List.getElem_set_self, ← hlvI]
        refine ⟨rfl, ?_⟩
        show (swapP2 b i).length = (b.levelAt i).nodes.length
        unfold swapP2 swapP1
        simp
      · rw [List.getElem_set_ne (by omega), List.getElem_set_ne (by omega)]
        exact ⟨rfl, rfl⟩
  · unfold Renaming
    rw [hL2, List.forall₂_iff_get]
    refine ⟨by simp, ?_⟩
    intro j h1 h2
    simp only [List.get_eq_getElem]
    by_cases hj1 : i + 1 = j
    · subst hj1
      rw [List.getElem_set_self, ← hlvI1]
      exact ⟨swapN2_renaming b i hrange hck hidb,
        swapN2_inj b i hrange hck hndB⟩
    · by_cases hj0 : i = j
      · subst hj0
        rw [List.getElem_set_ne (by omega), List.getElem_set_self, ← hlvI]
        refine ⟨swapP2_renaming b i hrange hck hndB hfun horph hidb, ?_⟩
        intro p hp q hq hf
        unfold swapP2 at hp hq
        obtain ⟨p1, hp1, rfl⟩ := List.mem_map.mp hp
        obtain ⟨q1, hq1, rfl⟩ := List.mem_map.mp hq
        unfold swapP1 at hp1 hq1
        obtain ⟨p0, hp0, rfl⟩ := List.mem_map.mp hp1
        obtain ⟨q0, hq0, rfl⟩ := List.mem_map.mp hq1
        dsimp only at hf ⊢
        rw [swapRename_small b i p0.1
            (wf_level_id_bound b hidb i (by omega) p0 hp0),
          swapRename_small b i q0.1
            (wf_level_id_bound b hidb i (by omega) q0 hq0)] at hf
        exact hf
      · rw [List.getElem_set_ne (by omega), List.getElem_set_ne (by omega)]
        have hlvJ : b.levelAt j = b.levels[j] :=
          getD_eq_getElem b.levels j ⟨[], []⟩ h2
        rw [← hlvJ]
        refine ⟨untouched_renaming b i hck hidb j h2, ?_⟩
        intro p hp q hq hf
        rw [swapRename_small b i p.1 (wf_level_id_bound b hidb j h2 p hp),
          swapRename_small b i q.1 (wf_level_id_bound b hidb j h2 q hq)] at hf
        exact hf

/-! ### GF(2) row algebra (claim C2) -/

theorem zeroRow_length (w : Nat) : (zeroRow w).length = w := List.length_replicate _ _

theorem bit_zeroRow : ∀ w t, bit (zeroRow w) t = false := by
  intro w
  induction w with
  | zero => intro t; cases t <;> rfl
  | succ n ih =>
      intro t
      cases t with
      | zero => rfl
      | succ t' => exact ih t'

theorem row_ext (r₁ r₂ : Row) (hl : r₁.length = r₂.length)
    (hb : ∀ t, bit r₁ t = bit r₂ t) : r₁ = r₂ := by
  induction r₁ generalizing r₂ with
  | nil =>
      cases r₂ with
      | nil => rfl
      | cons y ys => simp at hl
  | cons x xs ih =>
      cases r₂ with
      | nil => simp at hl
      | cons y ys =>
          have h0 : x = y := hb 0
          have ht : ∀ t, bit xs t = bit ys t := fun t => hb (t + 1)
          rw [h0, ih ys (by simpa using hl) ht]

theorem allFalse_eq_zeroRow (r : Row) (w : Nat) (hl : r.length = w)
    (hb : ∀ t, bit r t = false) : r = zeroRow w := by
  apply row_ext r (zeroRow w) (by rw [hl, zeroRow_length])
  intro t
  rw [hb t, bit_zeroRow]

theorem xorRow_comm (a b : Row) : xorRow a b = xorRow b a := by
  induction a generalizing b with
  | nil => cases b <;> rfl
  | cons x xs ih =>
      cases b with
      | nil => rfl
      | cons y ys =>
          simp only [xorRow_cons]
          rw [Bool.xor_comm, ih ys]

theorem xorRow_assoc (a b c : Row) : xorRow (xorRow a b) c = xorRow a (xorRow b c) := by
  induction a generalizing b c with
  | nil => cases b <;> cases c <;> rfl
  | cons x xs ih =>
      cases b with
      | nil => rfl
      | cons y ys =>
          cases c with
          | nil => rfl
          | cons z zs =>
              simp only [xorRow_cons]
              rw [Bool.xor_assoc, ih ys zs]

theorem xorRow_zero_left (w : Nat) (r : Row) (h : r.length = w) :
    xorRow (zeroRow w) r = r := by
  induction r generalizing w with
  | nil => subst h; rfl
  | cons x xs ih =>
      subst h
      show xorRow (false :: zeroRow xs.length) (x :: xs) = x :: xs
      rw [xorRow_cons, Bool.false_xor, ih xs.length rfl]

theorem xorRow_zero_right (w : Nat) (r : Row) (h : r.length = w) :
    xorRow r (zeroRow w) = r := by
  rw [xorRow_comm]
  exact xorRow_zero_left w r h

theorem xorRow_self_zero (r : Row) : xorRow r r = zeroRow r.length := by
  induction r with
  | nil => rfl
  | cons x xs ih =>
      show xorRow (x :: xs) (x :: xs) = false :: zeroRow xs.length
      rw [xorRow_cons, Bool.xor_self, ih]

theorem xorRow_pair_cancel (w : Nat) (x y r : Row) (hx : x.length = w)
    (hy : y.length = w) (hr : r.length = w) :
    xorRow (xorRow x r) (xorRow y r) = xorRow x y := by
  apply row_ext
  · rw [xorRow_length, xorRow_length, xorRow_length, xorRow_length]
    omega
  · intro t
    rw [bit_xorRow _ _ _ (by rw [xorRow_length, xorRow_length]; omega),
      bit_xorRow _ _ _ (by omega), bit_xorRow _ _ _ (by omega),
      bit_xorRow _ _ _ (by omega)]
    cases bit x t <;> cases bit y t <;> cases bit r t <;> rfl

theorem combineFold_shift (w : Nat) (l : List (Bool × Row)) (acc : Row)
    (hl : ∀ p ∈ l, p.2.length = w) (hacc : acc.length = w) :
    l.foldl (fun acc p => if p.1 then xorRow acc p.2 else acc) acc =
      xorRow acc (l.foldl (fun acc p => if p.1 then xorRow acc p.2 else acc)
        (zeroRow w)) := by
  induction l generalizing acc with
  | nil =>
      rw [List.foldl_nil, List.foldl_nil, xorRow_zero_right w acc hacc]
  | cons p l ih =>
      rw [List.foldl_cons, List.foldl_cons]
      have hp2 : p.2.length = w := hl p (by simp)
      have hl' : ∀ q ∈ l, q.2.length = w := fun q hq => hl q (by simp [hq])
      by_cases hp : p.1 = true
      · rw [if_pos hp, if_pos hp]
        rw [ih (xorRow acc p.2) hl' (by rw [xorRow_length]; omega)]
        rw [ih (xorRow (zeroRow w) p.2) hl'
          (by rw [xorRow_length, zeroRow_length]; omega)]
        rw [xorRow_zero_left w p.2 hp2, xorRow_assoc]
      · rw [if_neg hp, if_neg hp]
        exact ih acc hl' hacc

theorem combineRows_nil_left (w : Nat) (rows : Rows) :
    combineRows w [] rows = zeroRow w := rfl

theorem combineRows_nil_right (w : Nat) (c : List Bool) :
    combineRows w c [] = zeroRow w := by
  cases c <;> rfl

theorem combineRows_cons (w : Nat) (a : Bool) (c : List Bool) (r : Row) (rs : Rows)
    (hr : r.length = w) (hrs : ∀ x ∈ rs, x.length = w) :
    combineRows w (a :: c) (r :: rs) =
      if a then xorRow (combineRows w c rs) r else combineRows w c rs := by
  unfold combineRows
  rw [List.zip_cons_cons, List.foldl_cons]
  have hl' : ∀ p ∈ c.zip rs, p.2.length = w := by
    intro p hp
    exact hrs p.2 (List.of_mem_zip hp).2
  by_cases ha : a = true
  · rw [if_pos ha, if_pos ha]
    rw [combineFold_shift w _ _ hl' (by rw [xorRow_length, zeroRow_length, hr]; omega)]
    rw [xorRow_zero_left w r hr, xorRow_comm]
  · rw [if_neg ha, if_neg ha]

theorem combineRows_length (w : Nat) (c : List Bool) (rows : Rows)
    (hw : ∀ r ∈ rows, r.length = w) : (combineRows w c rows).length = w := by
  induction rows generalizing c with
  | nil => rw [combineRows_nil_right, zeroRow_length]
  | cons r rs ih =>
      cases c with
      | nil => rw [combineRows_nil_left, zeroRow_length]
      | cons a c' =>
          rw [combineRows_cons w a c' r rs (hw r (by simp))
            (fun x hx => hw x (by simp [hx]))]
          by_cases ha : a = true
          · rw [if_pos ha, xorRow_length, ih c' (fun x hx => hw x (by simp [hx])),
              hw r (by simp)]
            omega
          · rw [if_neg ha]
            exact ih c' (fun x hx => hw x (by simp [hx]))

theorem combineRows_allfalse (w : Nat) (c : List Bool) (rows : Rows)
    (h : ∀ x ∈ c, x = false) : combineRows w c rows = zeroRow w := by
  induction c generalizing rows with
  | nil => rfl
  | cons a c' ih =>
      cases rows with
      | nil => rw [combineRows_nil_right]
      | cons r rs =>
          have ha : a = false := h a (by simp)
          subst ha
          unfold combineRows
          rw [List.zip_cons_cons, List.foldl_cons]
          exact ih rs (fun x hx => h x (by simp [hx]))

theorem combineRows_linear (w : Nat) (c₁ c₂ : List Bool) (rows : Rows)
    (hc : c₁.length = c₂.length) (hw : ∀ r ∈ rows, r.length = w) :
    combineRows w (xorRow c₁ c₂) rows =
      xorRow (combineRows w c₁ rows) (combineRows w c₂ rows) := by
  induction rows generalizing c₁ c₂ with
  | nil =>
      rw [combineRows_nil_right, combineRows_nil_right, combineRows_nil_right,
        xorRow_zero_right _ _ (zeroRow_length w)]
  | cons r rs ih =>
      have hr : r.length = w := hw r (by simp)
      have hrs : ∀ x ∈ rs, x.length = w := fun x hx => hw x (by simp [hx])
      cases c₁ with
      | nil =>
          cases c₂ with
          | nil =>
              rw [show xorRow [] [] = ([] : Row) from rfl, combineRows_nil_left,
                xorRow_zero_right _ _ (zeroRow_length w)]
          | cons b c₂' => simp at hc
      | cons a c₁' =>
          cases c₂ with
          | nil => simp at hc
          | cons b c₂' =>
              have hc' : c₁'.length = c₂'.length := by simpa using hc
              rw [xorRow_cons, combineRows_cons w _ _ r rs hr hrs,
                combineRows_cons w a c₁' r rs hr hrs,
                combineRows_cons w b c₂' r rs hr hrs, ih c₁' c₂' hc' hrs]
              have hC1 : (combineRows w c₁' rs).length = w :=
                combineRows_length w c₁' rs hrs
              have hC2 : (combineRows w c₂' rs).length = w :=
                combineRows_length w c₂' rs hrs
              cases a <;> cases b
              · simp
              · simp only [Bool.false_xor, if_true, if_false, Bool.false_eq_true,
                  if_neg (by simp : ¬ (false = true))]
                rw [xorRow_assoc]
              · simp only [Bool.xor_false, if_true, if_false,
                  if_neg (by simp : ¬ (false = true))]
                rw [xorRow_assoc, xorRow_comm (combineRows w c₂' rs) r,
                  ← xorRow_assoc]
              · simp only [Bool.xor_self, if_neg (by simp : ¬ (false = true)), if_pos rfl]
                exact (xorRow_pair_cancel w _ _ r hC1 hC2 hr).symm

theorem foldl_xor_shift (l : List Bool) (b : Bool) :
    l.foldl xor b = xor b (l.foldl xor false) := by
  induction l generalizing b with
  | nil => simp
  | cons x xs ih =>
      rw [List.foldl_cons, List.foldl_cons, ih (xor b x), ih (xor false x)]
      cases b <;> cases x <;> cases xs.foldl xor false <;> rfl

theorem foldl_xor_allfalse (l : List Bool) (b : Bool) (h : ∀ x ∈ l, x = false) :
    l.foldl xor b = b := by
  induction l generalizing b with
  | nil => rfl
  | cons x xs ih =>
      rw [List.foldl_cons, h x (by simp)]
      rw [show xor b false = b from by cases b <;> rfl]
      exact ih b (fun x hx => h x (by simp [hx]))

theorem getD_allfalse (l : List Bool) (h : ∀ j, l.getD j false = false) :
    ∀ x ∈ l, x = false := by
  intro x hx
  obtain ⟨j, hj, rfl⟩ := List.mem_iff_getElem.mp hx
  rw [← getD_eq_getElem l j false hj]
  exact h j

theorem foldl_xor_single (l : List Bool) (k : Nat)
    (h : ∀ j, j ≠ k → l.getD j false = false) :
    l.foldl xor false = l.getD k false := by
  induction l generalizing k with
  | nil => simp
  | cons x xs ih =>
      rw [List.foldl_cons, foldl_xor_shift]
      cases k with
      | zero =>
          have hxs : xs.foldl xor false = false := by
            apply foldl_xor_allfalse
            apply getD_allfalse
            intro j
            exact h (j + 1) (by omega)
          rw [hxs]
          cases x <;> rfl
      | succ k' =>
          have hx : x = false := by
            have := h 0 (by omega)
            simpa using this
          subst hx
          rw [ih k' (fun j hj => h (j + 1) (by omega))]
          simp

theorem bit_combineRows (w : Nat) (c : List Bool) (rows : Rows)
    (hw : ∀ r ∈ rows, r.length = w) (t : Nat) :
    bit (combineRows w c rows) t =
      (List.zipWith (fun a r => a && bit r t) c rows).foldl xor false := by
  induction rows generalizing c with
  | nil =>
      rw [combineRows_nil_right, bit_zeroRow]
      cases c <;> rfl
  | cons r rs ih =>
      have hr : r.length = w := hw r (by simp)
      have hrs : ∀ x ∈ rs, x.length = w := fun x hx => hw x (by simp [hx])
      cases c with
      | nil => rw [combineRows_nil_left, bit_zeroRow]; rfl
      | cons a c' =>
          rw [combineRows_cons w a c' r rs hr hrs, List.zipWith_cons_cons,
            List.foldl_cons, foldl_xor_shift]
          by_cases ha : a = true
          · rw [if_pos ha, ha,
              bit_xorRow _ _ _ (by rw [combineRows_length w c' rs hrs, hr]),
              ih c' hrs]
            cases bit r t <;> cases (List.zipWith (fun a r => a && bit r t) c' rs).foldl xor false <;> rfl
          · have ha' : a = false := by simpa using ha
            subst ha'
            rw [if_neg (by simp), ih c' hrs]
            simp

theorem getD_zipWith (f : Bool → Row → Bool) (l₁ : List Bool) (l₂ : List Row)
    (p : Nat) (h₁ : p < l₁.length) (h₂ : p < l₂.length) :
    (List.zipWith f l₁ l₂).getD p false = f (l₁.getD p false) (l₂.getD p []) := by
  rw [getD_eq_getElem _ _ _ (by rw [List.length_zipWith]; omega),
    getD_eq_getElem _ _ _ h₁, getD_eq_getElem _ _ _ h₂]
  exact List.getElem_zipWith

theorem bit_combineRows_single (w : Nat) (c : List Bool) (rows : Rows)
    (hw : ∀ r ∈ rows, r.length = w) (t k : Nat)
    (hk : k < c.length) (hkr : k < rows.length)
    (hothers : ∀ p, p ≠ k → (bit c p && bit (rows.getD p []) t) = false) :
    bit (combineRows w c rows) t = (bit c k && bit (rows.getD k []) t) := by
  rw [bit_combineRows w c rows hw t]
  rw [foldl_xor_single _ k (by
    intro j hj
    by_cases hje : j < (List.zipWith (fun a r => a && bit r t) c rows).length
    · rw [List.length_zipWith] at hje
      rw [getD_zipWith _ _ _ _ (by omega) (by omega)]
      exact hothers j hj
    · rw [List.getD_eq_default _ _ (by omega)])]
  rw [getD_zipWith _ _ _ _ hk hkr]
  rfl

theorem bit_combineRows_allzero (w : Nat) (c : List Bool) (rows : Rows)
    (hw : ∀ r ∈ rows, r.length = w) (t : Nat)
    (h : ∀ p, (bit c p && bit (rows.getD p []) t) = false) :
    bit (combineRows w c rows) t = false := by
  rw [bit_combineRows w c rows hw t]
  apply foldl_xor_allfalse
  apply getD_allfalse
  intro j
  by_cases hje : j < (List.zipWith (fun a r => a && bit r t) c rows).length
  · rw [List.length_zipWith] at hje
    rw [getD_zipWith _ _ _ _ (by omega) (by omega)]
    exact h j
  · rw [List.getD_eq_default _ _ (by omega)]

theorem bit_set_self (r : Row) (i : Nat) (x : Bool) (h : i < r.length) :
    bit (r.set i x) i = x := getD_set_eq r i x false h

theorem bit_set_other (r : Row) (i p : Nat) (x : Bool) (h : i ≠ p) :
    bit (r.set i x) p = bit r p := getD_set_ne r i p x false h

theorem identityRows_length (n : Nat) : (identityRows n).length = n := by
  unfold identityRows
  simp

theorem identityRows_widths (n : Nat) : ∀ r ∈ identityRows n, r.length = n := by
  intro r hr
  unfold identityRows at hr
  obtain ⟨j, hj, rfl⟩ := List.mem_map.mp hr
  rw [List.length_set, zeroRow_length]

theorem identityRows_getD (n j : Nat) (hj : j < n) :
    (identityRows n).getD j [] = (zeroRow n).set j true := by
  unfold identityRows
  rw [getD_eq_getElem _ _ _ (by simp [hj])]
  simp

theorem bit_identityRows (n j t : Nat) (hj : j < n) :
    bit ((identityRows n).getD j []) t = decide (j = t) := by
  rw [identityRows_getD n j hj]
  by_cases hjt : j = t
  · subst hjt
    rw [bit_set_self _ _ _ (by rw [zeroRow_length]; omega)]
    simp
  · rw [bit_set_other _ _ _ _ hjt, bit_zeroRow]
    simp [hjt]

theorem combineRows_identity (n : Nat) (c : List Bool) (hc : c.length = n) :
    combineRows n c (identityRows n) = c := by
  apply row_ext
  · rw [combineRows_length n c _ (identityRows_widths n), hc]
  · intro t
    by_cases ht : t < n
    · rw [bit_combineRows_single n c (identityRows n) (identityRows_widths n) t t
        (by omega) (by rw [identityRows_length]; omega) ?_]
      · rw [bit_identityRows n t t ht]
        simp
      · intro p hp
        by_cases hpn : p < n
        · rw [bit_identityRows n p t hpn]
          simp [hp]
        · rw [show bit c p = false from
            List.getD_eq_default _ _ (by omega)]
          rfl
    · rw [bit_combineRows_allzero n c (identityRows n) (identityRows_widths n) t ?_,
        show bit c t = false from List.getD_eq_default _ _ (by omega)]
      intro p
      by_cases hpn : p < n
      · rw [bit_identityRows n p t hpn]
        simp
        omega
      · rw [show bit c p = false from List.getD_eq_default _ _ (by omega)]
        rfl

theorem rowsGetD_width (w : Nat) (rows : Rows) (hw : ∀ r ∈ rows, r.length = w)
    (j : Nat) (hj : j < rows.length) : (rows.getD j []).length = w := by
  apply hw
  rw [getD_eq_getElem _ _ _ hj]
  exact List.getElem_mem hj

theorem combineRows_set (w : Nat) (c : List Bool) (rows : Rows) (i : Nat) (x : Bool)
    (hi : i < c.length) (hir : i < rows.length) (hw : ∀ r ∈ rows, r.length = w) :
    combineRows w (c.set i (xor (bit c i) x)) rows =
      if x then xorRow (combineRows w c rows) (rows.getD i [])
      else combineRows w c rows := by
  induction i generalizing c rows with
  | zero =>
      cases c with
      | nil => simp at hi
      | cons a c' =>
          cases rows with
          | nil => simp at hir
          | cons r rs =>
              have hr : r.length = w := hw r (by simp)
              have hrs : ∀ y ∈ rs, y.length = w := fun y hy => hw y (by simp [hy])
              rw [show (a :: c').set 0 (xor (bit (a :: c') 0) x) =
                (xor a x) :: c' from rfl]
              rw [combineRows_cons w _ c' r rs hr hrs,
                combineRows_cons w a c' r rs hr hrs]
              have hCR : (combineRows w c' rs).length = w :=
                combineRows_length w c' rs hrs
              rw [show List.getD (r :: rs) 0 [] = r from rfl]
              cases x with
              | false =>
                  simp only [Bool.xor_false, if_neg (by simp : ¬ (false = true))]
              | true =>
                  cases a with
                  | true =>
                      simp only [show xor true true = false from rfl,
                        if_neg (by simp : ¬ (false = true)), if_pos rfl, if_true]
                      rw [xorRow_assoc, xorRow_self_zero,
                        show r.length = w from hr,
                        xorRow_zero_right w _ hCR]
                  | false =>
                      simp only [show xor false true = true from rfl,
                        if_pos rfl, if_neg (by simp : ¬ (false = true))]
  | succ i' ih =>
      cases c with
      | nil => simp at hi
      | cons a c' =>
          cases rows with
          | nil => simp at hir
          | cons r rs =>
              have hr : r.length = w := hw r (by simp)
              have hrs : ∀ y ∈ rs, y.length = w := fun y hy => hw y (by simp [hy])
              rw [show (a :: c').set (i' + 1) (xor (bit (a :: c') (i' + 1)) x) =
                a :: c'.set i' (xor (bit c' i') x) from rfl]
              rw [combineRows_cons w a _ r rs hr hrs,
                combineRows_cons w a c' r rs hr hrs,
                ih c' rs (by simpa using hi) (by simpa using hir) hrs]
              have hCR : (combineRows w c' rs).length = w :=
                combineRows_length w c' rs hrs
              have hpiv : (rs.getD i' []).length = w :=
                rowsGetD_width w rs hrs i' (by simpa using hir)
              rw [show List.getD (r :: rs) (i' + 1) [] = rs.getD i' [] from rfl]
              cases x with
              | false =>
                  simp only [if_neg (by simp : ¬ (false = true))]
              | true =>
                  simp only [if_pos rfl, if_true]
                  cases a with
                  | false =>
                      simp only [if_neg (by simp : ¬ (false = true))]
                  | true =>
                      simp only [if_pos rfl, if_true]
                      rw [xorRow_assoc, xorRow_comm (rs.getD i' []) r, ← xorRow_assoc]

theorem combineRows_setRow (w : Nat) (c : List Bool) (rows : Rows) (k : Nat) (r : Row)
    (hk : k < rows.length) (hr : r.length = w) (hw : ∀ y ∈ rows, y.length = w) :
    combineRows w c (rows.set k r) =
      if bit c k then xorRow (xorRow (combineRows w c rows) (rows.getD k [])) r
      else combineRows w c rows := by
  induction k generalizing c rows with
  | zero =>
      cases rows with
      | nil => simp at hk
      | cons r₀ rs =>
          have hr₀ : r₀.length = w := hw r₀ (by simp)
          have hrs : ∀ y ∈ rs, y.length = w := fun y hy => hw y (by simp [hy])
          cases c with
          | nil =>
              rw [show bit ([] : List Bool) 0 = false from rfl,
                if_neg (by simp : ¬ (false = true)),
                combineRows_nil_left, combineRows_nil_left]
          | cons a c' =>
              rw [show (r₀ :: rs).set 0 r = r :: rs from rfl,
                combineRows_cons w a c' r rs hr hrs,
                combineRows_cons w a c' r₀ rs hr₀ hrs,
                show bit (a :: c') 0 = a from rfl,
                show List.getD (r₀ :: rs) 0 [] = r₀ from rfl]
              have hCR : (combineRows w c' rs).length = w :=
                combineRows_length w c' rs hrs
              cases a with
              | false =>
                  simp only [if_neg (by simp : ¬ (false = true))]
              | true =>
                  simp only [if_pos rfl, if_true]
                  rw [xorRow_self_cancel _ _ (by omega)]
  | succ k' ih =>
      cases rows with
      | nil => simp at hk
      | cons r₀ rs =>
          have hr₀ : r₀.length = w := hw r₀ (by simp)
          have hrs : ∀ y ∈ rs, y.length = w := fun y hy => hw y (by simp [hy])
          cases c with
          | nil =>
              rw [show bit ([] : List Bool) (k' + 1) = false from rfl,
                if_neg (by simp : ¬ (false = true)),
                combineRows_nil_left, combineRows_nil_left]
          | cons a c' =>
              have hsetw : ∀ y ∈ rs.set k' r, y.length = w := by
                intro y hy
                rcases List.mem_or_eq_of_mem_set hy with hy' | rfl
                · exact hrs y hy'
                · exact hr
              rw [show (r₀ :: rs).set (k' + 1) r = r₀ :: rs.set k' r from rfl,
                combineRows_cons w a c' r₀ _ hr₀ hsetw,
                combineRows_cons w a c' r₀ rs hr₀ hrs,
                ih c' rs (by simpa using hk) hrs,
                show bit (a :: c') (k' + 1) = bit c' k' from rfl,
                show List.getD (r₀ :: rs) (k' + 1) [] = rs.getD k' [] from rfl]
              have hCR : (combineRows w c' rs).length = w :=
                combineRows_length w c' rs hrs
              have hpiv : (rs.getD k' []).length = w :=
                rowsGetD_width w rs hrs k' (by simpa using hk)
              cases hbc : bit c' k' with
              | false =>
                  simp only [if_neg (by simp : ¬ (false = true))]
              | true =>
                  simp only [if_pos rfl, if_true]
                  cases a with
                  | false =>
                      simp only [if_neg (by simp : ¬ (false = true))]
                  | true =>
                      simp only [if_pos rfl, if_true]
                      rw [xorRow_assoc, xorRow_assoc, xorRow_assoc]
                      rw [show xorRow (rs.getD k' []) (xorRow r r₀) =
                        xorRow r₀ (xorRow (rs.getD k' []) r) from by
                          rw [xorRow_comm r r₀, ← xorRow_assoc,
                            xorRow_comm (rs.getD k' []) r₀, xorRow_assoc]]
                      rw [← xorRow_assoc]

theorem zip_take_of_le (c : List Bool) (rows : Rows) (k : Nat)
    (h : c.length ≤ k) : List.zip c (rows.take k) = List.zip c rows := by
  induction c generalizing rows k with
  | nil => rfl
  | cons a c' ih =>
      cases rows with
      | nil => simp
      | cons r rs =>
          cases k with
          | zero => simp at h
          | succ k' =>
              rw [List.take_succ_cons, List.zip_cons_cons, List.zip_cons_cons,
                ih rs k' (by simpa using h)]

theorem combineRows_take (w : Nat) (c : List Bool) (rows : Rows) (k : Nat)
    (hck : c.length ≤ k) :
    combineRows w c (rows.take k) = combineRows w c rows := by
  unfold combineRows
  rw [zip_take_of_le c rows k hck]

theorem combineRows_append_false (w : Nat) (c : List Bool) (m : Nat) (rows : Rows)
    (hw : ∀ r ∈ rows, r.length = w) :
    combineRows w (c ++ List.replicate m false) rows = combineRows w c rows := by
  induction c generalizing rows with
  | nil =>
      rw [List.nil_append, combineRows_nil_left]
      exact combineRows_allfalse w _ rows (fun x hx => List.eq_of_mem_replicate hx)
  | cons a c' ih =>
      cases rows with
      | nil => rw [combineRows_nil_right, combineRows_nil_right]
      | cons r rs =>
          have hr : r.length = w := hw r (by simp)
          have hrs : ∀ y ∈ rs, y.length = w := fun y hy => hw y (by simp [hy])
          rw [List.cons_append, combineRows_cons w a _ r rs hr hrs,
            combineRows_cons w a c' r rs hr hrs, ih rs hrs]

theorem combineRows_dropZero (w : Nat) (c : List Bool) (rows : Rows) (k : Nat)
    (hk : k ≤ rows.length) (hkc : k ≤ c.length)
    (hz : ∀ j, j < k → rows.getD j [] = zeroRow w)
    (hw : ∀ r ∈ rows, r.length = w) :
    combineRows w c rows = combineRows w (c.drop k) (rows.drop k) := by
  induction k generalizing c rows with
  | zero => rw [List.drop_zero, List.drop_zero]
  | succ k' ih =>
      cases rows with
      | nil => simp at hk
      | cons r rs =>
          cases c with
          | nil => simp at hkc
          | cons a c' =>
              have hr : r.length = w := hw r (by simp)
              have hrs : ∀ y ∈ rs, y.length = w := fun y hy => hw y (by simp [hy])
              have hr0 : r = zeroRow w := by
                have := hz 0 (Nat.succ_pos _)
                simpa using this
              rw [combineRows_cons w a c' r rs hr hrs]
              have hCR : (combineRows w c' rs).length = w :=
                combineRows_length w c' rs hrs
              have hstep : (if a then xorRow (combineRows w c' rs) r
                  else combineRows w c' rs) = combineRows w c' rs := by
                cases a with
                | false => simp only [if_neg (by simp : ¬ (false = true))]
                | true =>
                    simp only [if_pos rfl, if_true]
                    rw [hr0, xorRow_zero_right w _ hCR]
              rw [hstep, List.drop_succ_cons, List.drop_succ_cons]
              exact ih c' rs (by simpa using hk) (by simpa using hkc)
                (fun j hj => by have := hz (j+1) (by omega); simpa using this) hrs

theorem parity_nil : parity [] = false := rfl

theorem parity_cons (a : Bool) (l : List Bool) :
    parity (a :: l) = xor a (parity l) := by
  show (a :: l).foldl xor false = xor a (l.foldl xor false)
  rw [List.foldl_cons, foldl_xor_shift]
  rw [Bool.false_xor]

theorem parity_allfalse (l : List Bool) (h : ∀ x ∈ l, x = false) :
    parity l = false :=
  foldl_xor_allfalse l false h

theorem addSel_length (t : List Bool) (rows : Rows) (p : Row) :
    (addSel t rows p).length = min t.length rows.length :=
  List.length_zipWith _ _ _

theorem addSel_widths (w : Nat) (t : List Bool) (rows : Rows) (p : Row)
    (hw : ∀ r ∈ rows, r.length = w) (hp : p.length = w) :
    ∀ y ∈ addSel t rows p, y.length = w := by
  induction t generalizing rows with
  | nil => intro y hy; simp [addSel] at hy
  | cons b ts ih =>
      cases rows with
      | nil => intro y hy; simp [addSel] at hy
      | cons r rs =>
          have hr : r.length = w := hw r (by simp)
          have hrs : ∀ x ∈ rs, x.length = w := fun x hx => hw x (by simp [hx])
          intro y hy
          rw [show addSel (b :: ts) (r :: rs) p =
            (if b then xorRow r p else r) :: addSel ts rs p from rfl] at hy
          rcases List.mem_cons.mp hy with rfl | hy'
          · cases b with
            | false => simpa using hr
            | true =>
                simp only [if_pos rfl, if_true]
                rw [xorRow_length]
                omega
          · exact ih rs hrs y hy'

theorem addSel_getD (t : List Bool) (rows : Rows) (p : Row) (j : Nat)
    (hj : j < rows.length) (hjt : j < t.length) :
    (addSel t rows p).getD j [] =
      if t.getD j false then xorRow (rows.getD j []) p else rows.getD j [] := by
  induction j generalizing t rows with
  | zero =>
      cases t with
      | nil => simp at hjt
      | cons b ts =>
          cases rows with
          | nil => simp at hj
          | cons r rs => rfl
  | succ j' ih =>
      cases t with
      | nil => simp at hjt
      | cons b ts =>
          cases rows with
          | nil => simp at hj
          | cons r rs =>
              exact ih ts rs (by simpa using hj) (by simpa using hjt)

theorem ite_decide (P : Prop) [Decidable P] (a b : α) :
    (if P then a else b) = (if decide P then a else b) := by
  by_cases h : P
  · simp [h]
  · simp [h]

theorem mapIdx_eq_addSel (rows : Rows) (p : Row) (Q : Nat → Row → Bool) :
    rows.mapIdx (fun j r => if Q j r then xorRow r p else r) =
      addSel ((List.range rows.length).map (fun j => Q j (rows.getD j []))) rows p := by
  induction rows generalizing Q with
  | nil => rfl
  | cons r rs ih =>
      rw [List.mapIdx_cons]
      rw [show (r :: rs).length = rs.length + 1 from rfl,
        List.range_succ_eq_map, List.map_cons, List.map_map]
      rw [show addSel ((Q 0 (List.getD (r :: rs) 0 [])) ::
          (List.map ((fun j => Q j (List.getD (r :: rs) j [])) ∘ (· + 1))
            (List.range rs.length))) (r :: rs) p =
        (if Q 0 (List.getD (r :: rs) 0 []) then xorRow r p else r) ::
          addSel (List.map ((fun j => Q j (List.getD (r :: rs) j [])) ∘ (· + 1))
            (List.range rs.length)) rs p from rfl]
      rw [show List.getD (r :: rs) 0 [] = r from rfl]
      congr 1
      rw [ih (fun j x => Q (j + 1) x)]
      congr 1

theorem range_map_getD (n : Nat) (f : Nat → Bool) (i : Nat) (hi : i < n) :
    ((List.range n).map f).getD i false = f i := by
  rw [getD_eq_getElem _ _ _ (by simpa using hi)]
  rw [List.getElem_map, List.getElem_range]

theorem zipWith_and_set (c t : List Bool) (i : Nat) (x : Bool)
    (hic : i < c.length) (hit : i < t.length) :
    List.zipWith (fun u v => u && v) (c.set i x) t =
      (List.zipWith (fun u v => u && v) c t).set i (x && t.getD i false) := by
  induction i generalizing c t with
  | zero =>
      cases c with
      | nil => simp at hic
      | cons a c' =>
          cases t with
          | nil => simp at hit
          | cons b ts => rfl
  | succ i' ih =>
      cases c with
      | nil => simp at hic
      | cons a c' =>
          cases t with
          | nil => simp at hit
          | cons b ts =>
              rw [show (a :: c').set (i' + 1) x = a :: c'.set i' x from rfl]
              rw [show List.zipWith (fun u v => u && v) (a :: c'.set i' x) (b :: ts) =
                (a && b) :: List.zipWith (fun u v => u && v) (c'.set i' x) ts from rfl]
              rw [ih c' ts (by simpa using hic) (by simpa using hit)]
              rfl

theorem combine_addSel (w : Nat) (c t : List Bool) (rows : Rows) (p : Row)
    (ht : t.length = rows.length) (hw : ∀ r ∈ rows, r.length = w)
    (hp : p.length = w) :
    combineRows w c (addSel t rows p) =
      if parity (List.zipWith (fun u v => u && v) c t)
      then xorRow (combineRows w c rows) p
      else combineRows w c rows := by
  induction rows generalizing c t with
  | nil =>
      cases t with
      | cons b ts => simp at ht
      | nil =>
          rw [show addSel [] [] p = [] from rfl, combineRows_nil_right,
            List.zipWith_nil_right, parity_nil,
            if_neg (by simp : ¬ (false = true))]
  | cons r rs ih =>
      cases t with
      | nil => simp at ht
      | cons b ts =>
          have hr : r.length = w := hw r (by simp)
          have hrs : ∀ y ∈ rs, y.length = w := fun y hy => hw y (by simp [hy])
          have hts : ts.length = rs.length := by simpa using ht
          cases c with
          | nil =>
              rw [combineRows_nil_left, combineRows_nil_left,
                List.zipWith_nil_left, parity_nil,
                if_neg (by simp : ¬ (false = true))]
          | cons a c' =>
              have hhead : (if b then xorRow r p else r).length = w := by
                cases b with
                | false => simpa using hr
                | true =>
                    simp only [if_pos rfl, if_true]
                    rw [xorRow_length]; omega
              have haw : ∀ y ∈ addSel ts rs p, y.length = w :=
                addSel_widths w ts rs p hrs hp
              rw [show addSel (b :: ts) (r :: rs) p =
                (if b then xorRow r p else r) :: addSel ts rs p from rfl]
              rw [combineRows_cons w a c' _ _ hhead haw,
                combineRows_cons w a c' r rs hr hrs,
                ih c' ts hts hrs]
              rw [show List.zipWith (fun u v => u && v) (a :: c') (b :: ts) =
                (a && b) :: List.zipWith (fun u v => u && v) c' ts from rfl,
                parity_cons]
              have hCR : (combineRows w c' rs).length = w :=
                combineRows_length w c' rs hrs
              cases a with
              | false =>
                  simp only [Bool.false_and, Bool.false_xor,
                    if_neg (by simp : ¬ (false = true))]
              | true =>
                  simp only [Bool.true_and, if_pos rfl, if_true]
                  cases b with
                  | false =>
                      simp only [Bool.false_xor,
                        if_neg (by simp : ¬ (false = true))]
                      cases hq : parity (List.zipWith (fun u v => u && v) c' ts) with
                      | false =>
                          simp only [if_neg (by simp : ¬ (false = true))]
                      | true =>
                          simp only [if_pos rfl, if_true]
                          rw [xorRow_assoc, xorRow_comm p r, ← xorRow_assoc]
                  | true =>
                      simp only [if_pos rfl, if_true]
                      cases hq : parity (List.zipWith (fun u v => u && v) c' ts) with
                      | false =>
                          simp only [Bool.xor_false, if_pos rfl, if_true,
                            if_neg (by simp : ¬ (false = true))]
                          rw [xorRow_assoc]
                      | true =>
                          simp only [Bool.xor_true, Bool.not_true,
                            if_neg (by simp : ¬ (false = true)), if_pos rfl, if_true]
                          exact xorRow_pair_cancel w _ r p hCR hr hp

theorem combine_single (n : Nat) (D : Rows) (k : Nat) (hk : k < D.length)
    (hw : ∀ r ∈ D, r.length = n) :
    combineRows n ((List.replicate D.length false).set k true) D = D.getD k [] := by
  have h0 : bit (List.replicate D.length false) k = false := by
    unfold bit
    rcases Nat.lt_or_ge k (List.replicate D.length (false : Bool)).length with h | h
    · rw [getD_eq_getElem _ _ _ h, List.getElem_replicate]
    · rw [List.getD_eq_default _ _ h]
  have := combineRows_set n (List.replicate D.length false) D k true
    (by simpa using hk) hk hw
  rw [h0] at this
  rw [show xor false true = true from rfl] at this
  rw [this, if_pos rfl, combineRows_allfalse n _ D
    (fun x hx => List.eq_of_mem_replicate hx),
    xorRow_zero_left n _ (rowsGetD_width n D hw k hk)]

theorem allfalse_bit (l : List Bool) (h : ∀ x ∈ l, x = false) (t : Nat) :
    bit l t = false := by
  unfold bit
  rcases Nat.lt_or_ge t l.length with hlt | hge
  · rw [getD_eq_getElem _ _ _ hlt]
    exact h _ (List.getElem_mem hlt)
  · exact List.getD_eq_default _ _ hge

theorem allfalse_of_bits (l : List Bool) (h : ∀ t, bit l t = false) :
    ∀ x ∈ l, x = false := by
  intro x hx
  obtain ⟨k, hk, rfl⟩ := List.mem_iff_getElem.mp hx
  rw [← getD_eq_getElem l k false hk]
  exact h k

theorem rowsSwap_length (rows : Rows) (i j : Nat) :
    (rowsSwap rows i j).length = rows.length := by
  unfold rowsSwap
  rw [List.length_set, List.length_set]

theorem bitsSwap_length (r : Row) (i j : Nat) :
    (bitsSwap r i j).length = r.length := by
  unfold bitsSwap
  rw [List.length_set, List.length_set]

theorem rowsSwap_getD (rows : Rows) (i j k : Nat) (hi : i < rows.length)
    (hj : j < rows.length) :
    (rowsSwap rows i j).getD k [] =
      if k = j then rows.getD i [] else if k = i then rows.getD j []
      else rows.getD k [] := by
  unfold rowsSwap
  by_cases hkj : k = j
  · subst hkj
    rw [if_pos rfl, getD_set_eq _ _ _ _ (by rw [List.length_set]; exact hj)]
  · rw [if_neg hkj, getD_set_ne _ _ _ _ _ (fun h => hkj h.symm)]
    by_cases hki : k = i
    · subst hki
      rw [if_pos rfl, getD_set_eq _ _ _ _ hi]
    · rw [if_neg hki, getD_set_ne _ _ _ _ _ (fun h => hki h.symm)]

theorem bit_bitsSwap (r : Row) (i j k : Nat) (hi : i < r.length)
    (hj : j < r.length) :
    bit (bitsSwap r i j) k =
      if k = j then bit r i else if k = i then bit r j else bit r k := by
  unfold bitsSwap bit
  by_cases hkj : k = j
  · subst hkj
    rw [if_pos rfl, getD_set_eq _ _ _ _ (by rw [List.length_set]; exact hj)]
  · rw [if_neg hkj, getD_set_ne _ _ _ _ _ (fun h => hkj h.symm)]
    by_cases hki : k = i
    · subst hki
      rw [if_pos rfl, getD_set_eq _ _ _ _ hi]
    · rw [if_neg hki, getD_set_ne _ _ _ _ _ (fun h => hki h.symm)]

theorem mem_rowsSwap (rows : Rows) (i j : Nat) (hi : i < rows.length)
    (hj : j < rows.length) (y : Row) (hy : y ∈ rowsSwap rows i j) : y ∈ rows := by
  unfold rowsSwap at hy
  rcases List.mem_or_eq_of_mem_set hy with hy' | rfl
  · rcases List.mem_or_eq_of_mem_set hy' with hy'' | rfl
    · exact hy''
    · rw [getD_eq_getElem _ _ _ hj]
      exact List.getElem_mem hj
  · rw [getD_eq_getElem _ _ _ hi]
    exact List.getElem_mem hi

theorem rowsSwap_widths (w : Nat) (rows : Rows) (i j : Nat) (hi : i < rows.length)
    (hj : j < rows.length) (hw : ∀ r ∈ rows, r.length = w) :
    ∀ y ∈ rowsSwap rows i j, y.length = w :=
  fun y hy => hw y (mem_rowsSwap rows i j hi hj y hy)

theorem bitsSwap_involution (r : Row) (i j : Nat) (hi : i < r.length)
    (hj : j < r.length) : bitsSwap (bitsSwap r i j) i j = r := by
  apply row_ext
  · rw [bitsSwap_length, bitsSwap_length]
  · intro t
    have hi' : i < (bitsSwap r i j).length := by rw [bitsSwap_length]; exact hi
    have hj' : j < (bitsSwap r i j).length := by rw [bitsSwap_length]; exact hj
    rw [bit_bitsSwap _ i j t hi' hj']
    by_cases htj : t = j
    · rw [htj, if_pos rfl, bit_bitsSwap r i j i hi hj]
      by_cases hij : i = j
      · rw [if_pos hij, hij]
      · rw [if_neg hij, if_pos rfl]
    · rw [if_neg htj]
      by_cases hti : t = i
      · have hij : ¬ i = j := fun h => htj (hti.trans h)
        rw [hti, if_pos rfl, bit_bitsSwap r i j j hi hj, if_pos rfl]
      · rw [if_neg hti, bit_bitsSwap r i j t hi hj, if_neg htj, if_neg hti]

theorem xorRow_rot (n : Nat) (A x y : Row) (hA : A.length = n)
    (hx : x.length = n) (hy : y.length = n) :
    xorRow (xorRow A x) y = xorRow (xorRow A y) x := by
  apply row_ext
  · rw [xorRow_length, xorRow_length, xorRow_length, xorRow_length]
    omega
  · intro t
    rw [bit_xorRow _ _ _ (by rw [xorRow_length]; omega),
      bit_xorRow _ _ _ (by omega),
      bit_xorRow _ _ _ (by rw [xorRow_length]; omega),
      bit_xorRow _ _ _ (by omega)]
    cases bit A t <;> cases bit x t <;> cases bit y t <;> rfl

theorem xorRow_cancel4 (n : Nat) (A x y : Row) (hA : A.length = n)
    (hx : x.length = n) (hy : y.length = n) :
    xorRow (xorRow (xorRow (xorRow A x) y) y) x = A := by
  rw [xorRow_self_cancel (xorRow A x) y (by rw [xorRow_length]; omega),
    xorRow_self_cancel A x (by omega)]

theorem combine_rowsSwap (n : Nat) (c : List Bool) (D : Rows) (i j : Nat)
    (hij : i ≠ j) (hi : i < D.length) (hj : j < D.length)
    (hc : c.length = D.length) (hw : ∀ r ∈ D, r.length = n) :
    combineRows n c (rowsSwap D i j) = combineRows n (bitsSwap c i j) D := by
  have hri : (D.getD i []).length = n := rowsGetD_width n D hw i hi
  have hrj : (D.getD j []).length = n := rowsGetD_width n D hw j hj
  have hA : (combineRows n c D).length = n := combineRows_length n c D hw
  have hset1w : ∀ y ∈ D.set i (D.getD j []), y.length = n := by
    intro y hy
    rcases List.mem_or_eq_of_mem_set hy with hy' | rfl
    · exact hw y hy'
    · exact hrj
  -- left-hand side: two row surgeries
  have hL1 : combineRows n c (D.set i (D.getD j [])) =
      if bit c i then xorRow (xorRow (combineRows n c D) (D.getD i [])) (D.getD j [])
      else combineRows n c D :=
    combineRows_setRow n c D i (D.getD j []) hi hrj hw
  have hgd : (D.set i (D.getD j [])).getD j [] = D.getD j [] :=
    getD_set_ne _ _ _ _ _ hij
  have hL2 : combineRows n c (rowsSwap D i j) =
      if bit c j then xorRow (xorRow (combineRows n c (D.set i (D.getD j []))) (D.getD j []))
        (D.getD i [])
      else combineRows n c (D.set i (D.getD j [])) := by
    have := combineRows_setRow n c (D.set i (D.getD j [])) j (D.getD i [])
      (by rw [List.length_set]; exact hj) hri hset1w
    rw [hgd] at this
    exact this
  -- right-hand side: two coefficient surgeries
  have hc1 : bit c j = bit (c.set i (xor (bit c i) (xor (bit c i) (bit c j)))) j :=
    (bit_set_other c i j _ hij).symm
  have hR1 : combineRows n (c.set i (xor (bit c i) (xor (bit c i) (bit c j)))) D =
      if xor (bit c i) (bit c j) then xorRow (combineRows n c D) (D.getD i [])
      else combineRows n c D :=
    combineRows_set n c D i _ (by omega) hi hw
  have hbi' : bit (c.set i (xor (bit c i) (xor (bit c i) (bit c j)))) j = bit c j :=
    bit_set_other c i j _ hij
  have hR2 : combineRows n ((c.set i (xor (bit c i) (xor (bit c i) (bit c j)))).set j
        (xor (bit c j) (xor (bit c j) (bit c i)))) D =
      if xor (bit c j) (bit c i)
      then xorRow (combineRows n (c.set i (xor (bit c i) (xor (bit c i) (bit c j)))) D)
        (D.getD j [])
      else combineRows n (c.set i (xor (bit c i) (xor (bit c i) (bit c j)))) D := by
    have := combineRows_set n (c.set i (xor (bit c i) (xor (bit c i) (bit c j)))) D j
      (xor (bit c j) (bit c i)) (by rw [List.length_set]; omega) hj hw
    rw [hbi'] at this
    exact this
  have hbits : bitsSwap c i j = (c.set i (xor (bit c i) (xor (bit c i) (bit c j)))).set j
      (xor (bit c j) (xor (bit c j) (bit c i))) := by
    rw [show xor (bit c i) (xor (bit c i) (bit c j)) = bit c j from by
      cases bit c i <;> cases bit c j <;> rfl]
    rw [show xor (bit c j) (xor (bit c j) (bit c i)) = bit c i from by
      cases bit c i <;> cases bit c j <;> rfl]
    rfl
  rw [hL2, hL1, hbits, hR2, hR1]
  cases hvi : bit c i <;> cases hvj : bit c j
  · simp only [show (false ^^ false) = false from rfl,
      if_neg (by simp : ¬ (false = true))]
  · simp only [show (false ^^ true) = true from rfl,
      show (true ^^ false) = true from rfl, if_pos rfl, if_true,
      if_neg (by simp : ¬ (false = true))]
    exact xorRow_rot n (combineRows n c D) (D.getD j []) (D.getD i []) hA hrj hri
  · simp only [show (true ^^ false) = true from rfl,
      show (false ^^ true) = true from rfl, if_pos rfl, if_true,
      if_neg (by simp : ¬ (false = true))]
  · simp only [show (true ^^ true) = false from rfl,
      if_neg (by simp : ¬ (false = true)), if_pos rfl, if_true]
    exact xorRow_cancel4 n (combineRows n c D) (D.getD i []) (D.getD j []) hA hri hrj

theorem indep_rowsSwap (n : Nat) (D : Rows) (i j : Nat) (hij : i ≠ j)
    (hi : i < D.length) (hj : j < D.length) (hw : ∀ r ∈ D, r.length = n)
    (hind : IndepRows n D) : IndepRows n (rowsSwap D i j) := by
  intro c hc hzero
  have hcD : c.length = D.length := by rw [hc, rowsSwap_length]
  have h2 : combineRows n (bitsSwap c i j) D = zeroRow n := by
    rw [← combine_rowsSwap n c D i j hij hi hj hcD hw]
    exact hzero
  have hall : ∀ y ∈ bitsSwap c i j, y = false :=
    hind (bitsSwap c i j) (by rw [bitsSwap_length]; exact hcD) h2
  have hbits : ∀ t, bit (bitsSwap c i j) t = false := allfalse_bit _ hall
  have hiC : i < c.length := by omega
  have hjC : j < c.length := by omega
  apply allfalse_of_bits
  intro t
  by_cases htj : t = j
  · have hb := hbits i
    rw [bit_bitsSwap c i j i hiC hjC, if_neg hij, if_pos rfl] at hb
    rw [htj]
    exact hb
  · by_cases hti : t = i
    · have hb := hbits j
      rw [bit_bitsSwap c i j j hiC hjC, if_pos rfl] at hb
      rw [hti]
      exact hb
    · have hb := hbits t
      rw [bit_bitsSwap c i j t hiC hjC, if_neg htj, if_neg hti] at hb
      exact hb

theorem reach_rowsSwap (n : Nat) (D : Rows) (i j : Nat) (hij : i ≠ j)
    (hi : i < D.length) (hj : j < D.length) (hw : ∀ r ∈ D, r.length = n)
    (v : Row) (h : ∃ c, c.length = D.length ∧ combineRows n c D = v) :
    ∃ c, c.length = (rowsSwap D i j).length ∧
      combineRows n c (rowsSwap D i j) = v := by
  obtain ⟨c, hc, hv⟩ := h
  refine ⟨bitsSwap c i j, ?_, ?_⟩
  · rw [bitsSwap_length, rowsSwap_length]
    exact hc
  · rw [combine_rowsSwap n (bitsSwap c i j) D i j hij hi hj
      (by rw [bitsSwap_length]; exact hc) hw,
      bitsSwap_involution c i j (by omega) (by omega), hv]

theorem addSel_mem (t : List Bool) (rows : Rows) (p : Row) (y : Row)
    (hy : y ∈ addSel t rows p) : ∃ r ∈ rows, y = r ∨ y = xorRow r p := by
  induction t generalizing rows with
  | nil => simp [addSel] at hy
  | cons b ts ih =>
      cases rows with
      | nil => simp [addSel] at hy
      | cons r rs =>
          rw [show addSel (b :: ts) (r :: rs) p =
            (if b then xorRow r p else r) :: addSel ts rs p from rfl] at hy
          rcases List.mem_cons.mp hy with rfl | hy'
          · refine ⟨r, List.mem_cons_self r rs, ?_⟩
            cases b with
            | false =>
                exact Or.inl (by simp only [if_neg (by simp : ¬ (false = true))])
            | true => exact Or.inr (by simp only [if_pos rfl, if_true])
          · obtain ⟨r', hr', ho⟩ := ih rs hy'
            exact ⟨r', List.mem_cons_of_mem r hr', ho⟩

theorem indep_addSel (n : Nat) (D : Rows) (t : List Bool) (i : Nat)
    (hi : i < D.length) (ht : t.length = D.length) (hti : t.getD i false = false)
    (hw : ∀ r ∈ D, r.length = n) (hind : IndepRows n D) :
    IndepRows n (addSel t D (D.getD i [])) := by
  intro c hc hzero
  have hcD : c.length = D.length := by
    rw [hc, addSel_length]
    omega
  have hcomb := combine_addSel n c t D (D.getD i []) ht hw
    (rowsGetD_width n D hw i hi)
  have hset := combineRows_set n c D i
    (parity (List.zipWith (fun u v => u && v) c t)) (by omega) hi hw
  have hzero' : combineRows n
      (c.set i (xor (bit c i) (parity (List.zipWith (fun u v => u && v) c t)))) D =
      zeroRow n := by
    rw [hset, ← hcomb]
    exact hzero
  have hall := hind _ (by rw [List.length_set]; exact hcD) hzero'
  have hbits : ∀ u, bit (c.set i
      (xor (bit c i) (parity (List.zipWith (fun u v => u && v) c t)))) u = false :=
    allfalse_bit _ hall
  have hck : ∀ k, k ≠ i → bit c k = false := by
    intro k hk
    have hb := hbits k
    rw [bit_set_other c i k _ (fun h => hk h.symm)] at hb
    exact hb
  have hqf : parity (List.zipWith (fun u v => u && v) c t) = false := by
    apply parity_allfalse
    intro x hx
    obtain ⟨k, hkl, rfl⟩ := List.mem_iff_getElem.mp hx
    rw [List.length_zipWith] at hkl
    rw [List.getElem_zipWith, ← getD_eq_getElem c k false (by omega),
      ← getD_eq_getElem t k false (by omega)]
    by_cases hki : k = i
    · rw [hki, hti, Bool.and_false]
    · rw [show c.getD k false = false from hck k hki, Bool.false_and]
  have hci : bit c i = false := by
    have hb := hbits i
    rw [bit_set_self c i _ (by omega), hqf] at hb
    cases hv : bit c i
    · rfl
    · rw [hv] at hb
      exact absurd hb (by simp)
  apply allfalse_of_bits
  intro u
  by_cases hui : u = i
  · rw [hui]
    exact hci
  · exact hck u hui

theorem reach_addSel (n : Nat) (D : Rows) (t : List Bool) (i : Nat)
    (hi : i < D.length) (ht : t.length = D.length) (hti : t.getD i false = false)
    (hw : ∀ r ∈ D, r.length = n) (v : Row)
    (h : ∃ c, c.length = D.length ∧ combineRows n c D = v) :
    ∃ c, c.length = (addSel t D (D.getD i [])).length ∧
      combineRows n c (addSel t D (D.getD i [])) = v := by
  obtain ⟨c, hc, hv⟩ := h
  have hq2 : parity (List.zipWith (fun u v => u && v)
      (c.set i (xor (bit c i) (parity (List.zipWith (fun u v => u && v) c t)))) t) =
      parity (List.zipWith (fun u v => u && v) c t) := by
    rw [zipWith_and_set c t i _ (by omega) (by omega)]
    rw [show t.getD i false = false from hti, Bool.and_false]
    have hval : (List.zipWith (fun u v => u && v) c t).getD i false = false := by
      rw [getD_eq_getElem _ _ _ (by rw [List.length_zipWith]; omega),
        List.getElem_zipWith, ← getD_eq_getElem t i false (by omega), hti,
        Bool.and_false]
    rw [← hval, set_getD_self _ _ _ (by rw [List.length_zipWith]; omega)]
  refine ⟨c.set i (xor (bit c i) (parity (List.zipWith (fun u v => u && v) c t))),
    ?_, ?_⟩
  · rw [List.length_set, addSel_length]
    omega
  · rw [combine_addSel n _ t D (D.getD i []) ht hw (rowsGetD_width n D hw i hi), hq2]
    have hset := combineRows_set n c D i
      (parity (List.zipWith (fun u v => u && v) c t)) (by omega) hi hw
    rw [hset]
    cases hqv : parity (List.zipWith (fun u v => u && v) c t) with
    | false =>
        rw [if_neg (by simp : ¬ (false = true)),
          if_neg (by simp : ¬ (false = true)), hv]
    | true =>
        rw [if_pos rfl, if_pos rfl,
          xorRow_self_cancel _ _ (by
            rw [combineRows_length n c D hw]
            rw [rowsGetD_width n D hw i hi]), hv]

theorem pivot_indep (w : Nat) (rows : Rows) (hw : ∀ r ∈ rows, r.length = w)
    (hdom : DominPivots rows 0) (c : List Bool) (hc : c.length = rows.length)
    (hzero : combineRows w c rows = zeroRow w) : ∀ x ∈ c, x = false := by
  by_contra hcon
  push_neg at hcon
  obtain ⟨x, hx, hxf⟩ := hcon
  have hxt : x = true := by
    cases x
    · exact absurd rfl hxf
    · rfl
  subst hxt
  obtain ⟨k0, hk0, hk0v⟩ := List.mem_iff_getElem.mp hx
  have hPk0 : bit c k0 = true := by
    rw [show bit c k0 = c.getD k0 false from rfl, getD_eq_getElem _ _ _ hk0]
    exact hk0v
  have hPK : bit c (Nat.findGreatest (fun k => bit c k = true) c.length) = true :=
    @Nat.findGreatest_spec k0 (fun k => bit c k = true) _ c.length
      (le_of_lt hk0) hPk0
  have hKlen : Nat.findGreatest (fun k => bit c k = true) c.length < c.length :=
    bit_lt_length c _ hPK
  have hKrows : Nat.findGreatest (fun k => bit c k = true) c.length < rows.length := by
    omega
  obtain ⟨hk, hhk, hdomk⟩ := hdom _ (Nat.zero_le _) hKrows
  have hsingle := bit_combineRows_single w c rows hw hk
    (Nat.findGreatest (fun k => bit c k = true) c.length) hKlen hKrows ?hoth
  case hoth =>
    intro p hp
    rcases Nat.lt_or_ge p (Nat.findGreatest (fun k => bit c k = true) c.length)
      with hlt | hge
    · cases hm : maxSetBit (rows.getD p []) with
      | none =>
          rw [(maxSetBit_eq_none_iff _).mp hm hk, Bool.and_false]
      | some m =>
          rw [maxSetBit_spec_above _ _ _ hm (hdomk p hlt m hm), Bool.and_false]
    · have hgt : Nat.findGreatest (fun k => bit c k = true) c.length < p := by
        omega
      have hcp : bit c p = false := by
        rcases Nat.lt_or_ge p c.length with hpl | hpl
        · cases hv : bit c p
          · rfl
          · exact absurd hv (Nat.findGreatest_is_greatest hgt (le_of_lt hpl))
        · exact List.getD_eq_default _ _ hpl
      rw [hcp, Bool.false_and]
  rw [hzero, bit_zeroRow, hPK, maxSetBit_spec_set _ _ hhk] at hsingle
  exact absurd hsingle.symm (by simp)

theorem getD_drop (l : List α) (i j : Nat) (d : α) :
    (l.drop i).getD j d = l.getD (i + j) d := by
  induction i generalizing l with
  | zero => rw [List.drop_zero, Nat.zero_add]
  | succ i' ih =>
      cases l with
      | nil => rw [List.drop_nil, List.getD_nil, List.getD_nil]
      | cons a as =>
          rw [List.drop_succ_cons, ih as,
            show (i' + 1 + j) = (i' + j) + 1 from by omega]
          rfl

theorem scanPivot_eq (rows : Rows) (i : Nat) :
    scanPivot rows i =
      (List.range i).reverse.foldl (pivotStep rows) (i, maxSetBit (rows.getD i [])) :=
  rfl

theorem pivotFold_spec (rows : Rows) (l : List Nat) :
    ∀ best : Nat × Option Nat,
    (∀ h0, best.2 = some h0 → maxSetBit (rows.getD best.1 []) = some h0) →
    ((l.foldl (pivotStep rows) best).1 = best.1 ∨
      (l.foldl (pivotStep rows) best).1 ∈ l) ∧
    (∀ h0, (l.foldl (pivotStep rows) best).2 = some h0 →
      maxSetBit (rows.getD (l.foldl (pivotStep rows) best).1 []) = some h0) ∧
    ((l.foldl (pivotStep rows) best).2 = none →
      best.2 = none ∧ ∀ j ∈ l, maxSetBit (rows.getD j []) = none) ∧
    (∀ h0, (l.foldl (pivotStep rows) best).2 = some h0 →
      (∀ m0, best.2 = some m0 → m0 ≤ h0) ∧
      ∀ j ∈ l, ∀ m, maxSetBit (rows.getD j []) = some m → m ≤ h0) := by
  induction l with
  | nil =>
      intro best hgood
      refine ⟨Or.inl rfl, hgood, fun h => ⟨h, ?_⟩, fun h0 hh => ⟨?_, ?_⟩⟩
      · intro x hx
        exact absurd hx (List.not_mem_nil x)
      · intro m0 hm0
        rw [show best.2 = (List.foldl (pivotStep rows) best []).2 from rfl, hh]
          at hm0
        cases hm0
        exact Nat.le_refl _
      · intro x hx
        exact absurd hx (List.not_mem_nil x)
  | cons j l ih =>
      intro best hgood
      simp only [List.foldl_cons]
      cases hm : maxSetBit (rows.getD j []) with
      | none =>
          have hb' : pivotStep rows best j = best := by
            unfold pivotStep
            rw [hm]
          rw [hb']
          obtain ⟨h1, h2, h3, h4⟩ := ih best hgood
          refine ⟨?_, h2, ?_, ?_⟩
          · rcases h1 with h | h
            · exact Or.inl h
            · exact Or.inr (List.mem_cons_of_mem _ h)
          · intro hn
            obtain ⟨hbn, hl⟩ := h3 hn
            refine ⟨hbn, ?_⟩
            intro x hx
            rcases List.mem_cons.mp hx with rfl | hx'
            · exact hm
            · exact hl x hx'
          · intro h0 hh
            obtain ⟨ha, hb⟩ := h4 h0 hh
            refine ⟨ha, ?_⟩
            intro x hx m hmx
            rcases List.mem_cons.mp hx with rfl | hx'
            · rw [hm] at hmx
              cases hmx
            · exact hb x hx' m hmx
      | some m =>
          cases hb : best.2 with
          | none =>
              have hb' : pivotStep rows best j = (j, some m) := by
                unfold pivotStep
                rw [hm, hb]
              rw [hb']
              have hgood' : ∀ h0, (j, some m).2 = some h0 →
                  maxSetBit (rows.getD (j, some m).1 []) = some h0 := by
                intro h0 e
                cases e
                exact hm
              obtain ⟨h1, h2, h3, h4⟩ := ih (j, some m) hgood'
              refine ⟨?_, h2, ?_, ?_⟩
              · rcases h1 with h | h
                · exact Or.inr (by rw [h]; exact List.mem_cons_self j l)
                · exact Or.inr (List.mem_cons_of_mem _ h)
              · intro hn
                exact absurd (h3 hn).1 (by simp)
              · intro h0 hh
                obtain ⟨ha, hbb⟩ := h4 h0 hh
                refine ⟨?_, ?_⟩
                · intro m0 hm0
                  cases hm0
                · intro x hx m' hmx
                  rcases List.mem_cons.mp hx with rfl | hx'
                  · rw [hm] at hmx
                    cases hmx
                    exact ha m rfl
                  · exact hbb x hx' m' hmx
          | some h0b =>
              by_cases hcmp : m > h0b
              · have hb' : pivotStep rows best j = (j, some m) := by
                  unfold pivotStep
                  rw [hm, hb]
                  show (if m > h0b then (j, some m) else best) = (j, some m)
                  rw [if_pos hcmp]
                rw [hb']
                have hgood' : ∀ h0, (j, some m).2 = some h0 →
                    maxSetBit (rows.getD (j, some m).1 []) = some h0 := by
                  intro h0 e
                  cases e
                  exact hm
                obtain ⟨h1, h2, h3, h4⟩ := ih (j, some m) hgood'
                refine ⟨?_, h2, ?_, ?_⟩
                · rcases h1 with h | h
                  · exact Or.inr (by rw [h]; exact List.mem_cons_self j l)
                  · exact Or.inr (List.mem_cons_of_mem _ h)
                · intro hn
                  exact absurd (h3 hn).1 (by simp)
                · intro h0 hh
                  obtain ⟨ha, hbb⟩ := h4 h0 hh
                  have hmh : m ≤ h0 := ha m rfl
                  refine ⟨?_, ?_⟩
                  · intro m0 hm0
                    cases hm0
                    omega
                  · intro x hx m' hmx
                    rcases List.mem_cons.mp hx with rfl | hx'
                    · rw [hm] at hmx
                      cases hmx
                      exact hmh
                    · exact hbb x hx' m' hmx
              · have hb' : pivotStep rows best j = best := by
                  unfold pivotStep
                  rw [hm, hb]
                  show (if m > h0b then (j, some m) else best) = best
                  rw [if_neg hcmp]
                rw [hb']
                obtain ⟨h1, h2, h3, h4⟩ := ih best hgood
                refine ⟨?_, h2, ?_, ?_⟩
                · rcases h1 with h | h
                  · exact Or.inl h
                  · exact Or.inr (List.mem_cons_of_mem _ h)
                · intro hn
                  obtain ⟨hbn, _⟩ := h3 hn
                  rw [hb] at hbn
                  cases hbn
                · intro h0 hh
                  obtain ⟨ha, hbb⟩ := h4 h0 hh
                  refine ⟨?_, ?_⟩
                  · intro m0 hm0
                    cases hm0
                    exact ha h0b hb
                  · intro x hx m' hmx
                    rcases List.mem_cons.mp hx with rfl | hx'
                    · rw [hm] at hmx
                      cases hmx
                      have hbh : h0b ≤ h0 := ha h0b hb
                      omega
                    · exact hbb x hx' m' hmx

theorem scanPivot_fst_le (rows : Rows) (i : Nat) : (scanPivot rows i).1 ≤ i := by
  rw [scanPivot_eq]
  have hs := pivotFold_spec rows (List.range i).reverse
    (i, maxSetBit (rows.getD i [])) (fun h0 e => e)
  rcases hs.1 with h | h
  · rw [h]
  · rw [List.mem_reverse, List.mem_range] at h
    omega

theorem scanPivot_none_spec (rows : Rows) (i : Nat)
    (h : (scanPivot rows i).2 = none) :
    ∀ j, j ≤ i → maxSetBit (rows.getD j []) = none := by
  rw [scanPivot_eq] at h
  have hs := pivotFold_spec rows (List.range i).reverse
    (i, maxSetBit (rows.getD i [])) (fun h0 e => e)
  obtain ⟨hbn, hl⟩ := hs.2.2.1 h
  intro j hj
  rcases Nat.lt_or_ge j i with hlt | hge
  · exact hl j (by rw [List.mem_reverse, List.mem_range]; exact hlt)
  · have hji : j = i := by omega
    rw [hji]
    exact hbn

theorem scanPivot_some_spec (rows : Rows) (i : Nat) (h : Nat)
    (hh : (scanPivot rows i).2 = some h) :
    maxSetBit (rows.getD (scanPivot rows i).1 []) = some h ∧
    ∀ j, j ≤ i → ∀ m, maxSetBit (rows.getD j []) = some m → m ≤ h := by
  rw [scanPivot_eq] at hh ⊢
  have hs := pivotFold_spec rows (List.range i).reverse
    (i, maxSetBit (rows.getD i [])) (fun h0 e => e)
  refine ⟨hs.2.1 h hh, ?_⟩
  obtain ⟨ha, hl⟩ := hs.2.2.2 h hh
  intro j hj m hm
  rcases Nat.lt_or_ge j i with hlt | hge
  · exact hl j (by rw [List.mem_reverse, List.mem_range]; exact hlt) m hm
  · have hji : j = i := by omega
    rw [hji] at hm
    exact ha m hm

theorem compRel_length (w : Nat) (M₀ mat idr : Rows) (h : CompRel w M₀ mat idr) :
    mat.length = idr.length :=
  List.Forall₂.length_eq h

theorem compRel_getD (w : Nat) (M₀ mat idr : Rows) (h : CompRel w M₀ mat idr)
    (k : Nat) (hk : k < mat.length) :
    mat.getD k [] = combineRows w (idr.getD k []) M₀ := by
  obtain ⟨hlen, hget⟩ := List.forall₂_iff_get.mp h
  rw [getD_eq_getElem _ _ _ hk, getD_eq_getElem _ _ _ (by omega)]
  exact hget k hk (by omega)

theorem compRel_of_getD (w : Nat) (M₀ mat idr : Rows)
    (hlen : mat.length = idr.length)
    (hpt : ∀ k, k < mat.length → mat.getD k [] = combineRows w (idr.getD k []) M₀) :
    CompRel w M₀ mat idr := by
  unfold CompRel
  rw [List.forall₂_iff_get]
  refine ⟨hlen, ?_⟩
  intro k h1 h2
  have := hpt k h1
  rw [getD_eq_getElem _ _ _ h1, getD_eq_getElem _ _ _ h2] at this
  exact this

theorem compRel_rowsSwap (w : Nat) (M₀ mat idr : Rows)
    (h : CompRel w M₀ mat idr) (i j : Nat) (hi : i < mat.length)
    (hj : j < mat.length) :
    CompRel w M₀ (rowsSwap mat i j) (rowsSwap idr i j) := by
  have hlen := compRel_length w M₀ mat idr h
  apply compRel_of_getD
  · rw [rowsSwap_length, rowsSwap_length, hlen]
  · intro k hk
    rw [rowsSwap_length] at hk
    rw [rowsSwap_getD mat i j k hi hj, rowsSwap_getD idr i j k (by omega) (by omega)]
    by_cases hkj : k = j
    · rw [if_pos hkj, if_pos hkj]
      exact compRel_getD w M₀ mat idr h i hi
    · rw [if_neg hkj, if_neg hkj]
      by_cases hki : k = i
      · rw [if_pos hki, if_pos hki]
        exact compRel_getD w M₀ mat idr h j hj
      · rw [if_neg hki, if_neg hki]
        exact compRel_getD w M₀ mat idr h k hk

theorem compRel_addSel (w : Nat) (M₀ mat idr : Rows)
    (h : CompRel w M₀ mat idr) (t : List Bool) (i : Nat) (hi : i < mat.length)
    (hidw : ∀ r ∈ idr, r.length = M₀.length) (hM : ∀ r ∈ M₀, r.length = w) :
    CompRel w M₀ (addSel t mat (mat.getD i []))
      (addSel t idr (idr.getD i [])) := by
  have hlen := compRel_length w M₀ mat idr h
  apply compRel_of_getD
  · rw [addSel_length, addSel_length, hlen]
  · intro k hk
    rw [addSel_length] at hk
    rw [addSel_getD t mat _ k (by omega) (by omega),
      addSel_getD t idr _ k (by omega) (by omega)]
    cases ht : t.getD k false with
    | false =>
        rw [if_neg (by simp : ¬ (false = true)),
          if_neg (by simp : ¬ (false = true))]
        exact compRel_getD w M₀ mat idr h k (by omega)
    | true =>
        rw [if_pos rfl, if_pos rfl,
          compRel_getD w M₀ mat idr h k (by omega),
          compRel_getD w M₀ mat idr h i hi,
          ← combineRows_linear w _ _ M₀ ?hl hM]
        case hl =>
          rw [rowsGetD_width M₀.length idr hidw k (by omega),
            rowsGetD_width M₀.length idr hidw i (by omega)]

theorem maxSetBit_xor_lt (a b : Row) (h : Nat) (hla : a.length = b.length)
    (ha : maxSetBit a = some h) (hb : maxSetBit b = some h) :
    ∀ m, maxSetBit (xorRow a b) = some m → m < h := by
  intro m hm
  have hbit : bit (xorRow a b) m = true := maxSetBit_spec_set _ _ hm
  rw [bit_xorRow a b m hla] at hbit
  rcases Nat.lt_or_ge m h with hlt | hge
  · exact hlt
  · exfalso
    rcases Nat.eq_or_lt_of_le hge with heq | hgt
    · rw [heq] at ha hb
      rw [maxSetBit_spec_set a m ha, maxSetBit_spec_set b m hb] at hbit
      exact absurd hbit (by simp)
    · rw [maxSetBit_spec_above a h m ha hgt,
        maxSetBit_spec_above b h m hb hgt] at hbit
      exact absurd hbit (by simp)

theorem tsel_length (rows : Rows) (i h : Nat) :
    (tsel rows i h).length = rows.length := by
  unfold tsel
  rw [List.length_map, List.length_range]

theorem tsel_getD (rows : Rows) (i h j : Nat) (hj : j < rows.length) :
    (tsel rows i h).getD j false =
      decide (j < i ∧ maxSetBit (rows.getD j []) = some h) := by
  unfold tsel
  exact range_map_getD rows.length _ j hj

theorem tsel_getD_self (rows : Rows) (i h : Nat) (hi : i < rows.length) :
    (tsel rows i h).getD i false = false := by
  rw [tsel_getD rows i h i hi]
  simp

theorem elimSingle_eq_addSel (rows : Rows) (i h : Nat) :
    elimSingle rows i h = addSel (tsel rows i h) rows (rows.getD i []) := by
  unfold elimSingle tsel
  rw [show (fun j r => if j < i ∧ maxSetBit r = some h
        then xorRow r (rows.getD i []) else r) =
      (fun (j : Nat) (r : Row) => if decide (j < i ∧ maxSetBit r = some h) = true
        then xorRow r (rows.getD i []) else r) from
    funext fun j => funext fun r => ite_decide _ _ _]
  exact mapIdx_eq_addSel rows (rows.getD i [])
    (fun j r => decide (j < i ∧ maxSetBit r = some h))

theorem elimPair_eq_addSel (mat idr : Rows) (i h : Nat)
    (hlen : idr.length = mat.length) :
    elimPair mat idr i h =
      (addSel (tsel mat i h) mat (mat.getD i []),
       addSel (tsel mat i h) idr (idr.getD i [])) := by
  unfold elimPair tsel
  congr 1
  · rw [show (fun j r => if j < i ∧ maxSetBit r = some h
          then xorRow r (mat.getD i []) else r) =
        (fun (j : Nat) (r : Row) => if decide (j < i ∧ maxSetBit r = some h) = true
          then xorRow r (mat.getD i []) else r) from
      funext fun j => funext fun r => ite_decide _ _ _]
    exact mapIdx_eq_addSel mat (mat.getD i [])
      (fun j r => decide (j < i ∧ maxSetBit r = some h))
  · rw [show (fun j r => if j < i ∧ maxSetBit (mat.getD j []) = some h
          then xorRow r (idr.getD i []) else r) =
        (fun (j : Nat) (r : Row) =>
          if decide (j < i ∧ maxSetBit (mat.getD j []) = some h) = true
          then xorRow r (idr.getD i []) else r) from
      funext fun j => funext fun r => ite_decide _ _ _]
    rw [mapIdx_eq_addSel idr (idr.getD i [])
      (fun j _ => decide (j < i ∧ maxSetBit (mat.getD j []) = some h)), hlen]

theorem spanfull_rowsSwap (n : Nat) (D : Rows) (i j : Nat) (hij : i ≠ j)
    (hi : i < D.length) (hj : j < D.length) (hw : ∀ r ∈ D, r.length = n)
    (hs : SpanFull n D) : SpanFull n (rowsSwap D i j) :=
  fun v hv => reach_rowsSwap n D i j hij hi hj hw v (hs v hv)

theorem spanfull_addSel (n : Nat) (D : Rows) (t : List Bool) (i : Nat)
    (hi : i < D.length) (ht : t.length = D.length) (hti : t.getD i false = false)
    (hw : ∀ r ∈ D, r.length = n) (hs : SpanFull n D) :
    SpanFull n (addSel t D (D.getD i [])) :=
  fun v hv => reach_addSel n D t i hi ht hti hw v (hs v hv)

theorem basis_rowsSwap (w : Nat) (M D : Rows) (i j : Nat) (hij : i ≠ j)
    (hi : i < D.length) (hj : j < D.length) (hb : IsLeftNullBasis w D M) :
    IsLeftNullBasis w (rowsSwap D i j) M := by
  obtain ⟨h1, h2, h3⟩ := hb
  have hw : ∀ r ∈ D, r.length = M.length := fun r hr => (h1 r hr).1
  refine ⟨?_, ?_, ?_⟩
  · intro r hr
    exact h1 r (mem_rowsSwap D i j hi hj r hr)
  · exact indep_rowsSwap M.length D i j hij hi hj hw h2
  · intro v hv hann
    exact reach_rowsSwap M.length D i j hij hi hj hw v (h3 v hv hann)

theorem basis_addSel (w : Nat) (M D : Rows) (t : List Bool) (i : Nat)
    (hi : i < D.length) (ht : t.length = D.length) (hti : t.getD i false = false)
    (hMw : ∀ r ∈ M, r.length = w) (hb : IsLeftNullBasis w D M) :
    IsLeftNullBasis w (addSel t D (D.getD i [])) M := by
  obtain ⟨h1, h2, h3⟩ := hb
  have hw : ∀ r ∈ D, r.length = M.length := fun r hr => (h1 r hr).1
  have hpm : D.getD i [] ∈ D := by
    rw [getD_eq_getElem _ _ _ hi]
    exact List.getElem_mem hi
  refine ⟨?_, ?_, ?_⟩
  · intro r hr
    obtain ⟨r0, hr0, ho⟩ := addSel_mem t D _ r hr
    rcases ho with he | he
    · rw [he]
      exact h1 r0 hr0
    · rw [he]
      constructor
      · rw [xorRow_length, (h1 r0 hr0).1, (h1 _ hpm).1]
        omega
      · rw [combineRows_linear w r0 (D.getD i []) M
          (by rw [(h1 r0 hr0).1, (h1 _ hpm).1]) hMw,
          (h1 r0 hr0).2, (h1 _ hpm).2,
          xorRow_zero_right w _ (zeroRow_length w)]
  · exact indep_addSel M.length D t i hi ht hti hw h2
  · intro v hv hann
    exact reach_addSel M.length D t i hi ht hti hw v (h3 v hv hann)

theorem basis_row_nonzero (w : Nat) (M D : Rows) (hb : IsLeftNullBasis w D M)
    (k : Nat) (hk : k < D.length) : maxSetBit (D.getD k []) ≠ none := by
  intro hn
  have hw : ∀ r ∈ D, r.length = M.length := fun r hr => (hb.1 r hr).1
  have hzrow : D.getD k [] = zeroRow M.length := by
    apply allFalse_eq_zeroRow _ _ (rowsGetD_width M.length D hw k hk)
    intro i
    exact (maxSetBit_eq_none_iff _).mp hn i
  have hcomb : combineRows M.length ((List.replicate D.length false).set k true) D =
      zeroRow M.length := by
    rw [combine_single M.length D k hk hw, hzrow]
  have hall := hb.2.1 _ (by rw [List.length_set, List.length_replicate]) hcomb
  have hmem : (true : Bool) ∈ (List.replicate D.length false).set k true := by
    have hkl : k < (List.replicate D.length (false : Bool)).length := by
      rw [List.length_replicate]
      exact hk
    refine List.mem_iff_getElem.mpr ⟨k, by rw [List.length_set]; exact hkl, ?_⟩
    rw [← getD_eq_getElem _ _ false (by rw [List.length_set]; exact hkl)]
    exact getD_set_eq _ _ _ _ hkl
  exact absurd (hall true hmem) (by simp)

theorem gaussStepSingle_preserve (w : Nat) (M D D' : Rows) (i : Nat)
    (hi : i < D.length) (hMw : ∀ r ∈ M, r.length = w)
    (hb : IsLeftNullBasis w D M) (hD' : gaussStepSingle D i = some D') :
    D'.length = D.length ∧ IsLeftNullBasis w D' M := by
  unfold gaussStepSingle at hD'
  dsimp only at hD'
  cases hsp : (scanPivot D i).2 with
  | none =>
      rw [hsp] at hD'
      dsimp only at hD'
      cases hD'
  | some h =>
      rw [hsp] at hD'
      dsimp only at hD'
      have hE := Option.some.inj hD'
      subst hE
      by_cases hsw : (scanPivot D i).1 < i
      · rw [if_pos hsw]
        have hb₁ : IsLeftNullBasis w (rowsSwap D i (scanPivot D i).1) M :=
          basis_rowsSwap w M D i _ (ne_of_gt hsw) hi (by omega) hb
        have hl₁ : (rowsSwap D i (scanPivot D i).1).length = D.length :=
          rowsSwap_length D i _
        rw [elimSingle_eq_addSel]
        constructor
        · rw [addSel_length, tsel_length, hl₁]
          omega
        · exact basis_addSel w M _ _ i (by omega) (by rw [tsel_length])
            (tsel_getD_self _ i h (by omega)) hMw hb₁
      · rw [if_neg hsw]
        rw [elimSingle_eq_addSel]
        constructor
        · rw [addSel_length, tsel_length]
          omega
        · exact basis_addSel w M D _ i hi (by rw [tsel_length])
            (tsel_getD_self D i h hi) hMw hb

theorem phase2Go_preserves (w : Nat) (M : Rows) (hMw : ∀ r ∈ M, r.length = w) :
    ∀ (i : Nat) (D : Rows), i < D.length → IsLeftNullBasis w D M →
      (phase2Go D i).length = D.length ∧ IsLeftNullBasis w (phase2Go D i) M := by
  intro i
  induction i with
  | zero =>
      intro D hi hb
      unfold phase2Go
      cases hg : gaussStepSingle D 0 with
      | none => exact ⟨rfl, hb⟩
      | some D' =>
          obtain ⟨hl, hb'⟩ := gaussStepSingle_preserve w M D D' 0 hi hMw hb hg
          exact ⟨hl, hb'⟩
  | succ i' ih =>
      intro D hi hb
      unfold phase2Go
      cases hg : gaussStepSingle D (i' + 1) with
      | none => exact ⟨rfl, hb⟩
      | some D' =>
          obtain ⟨hl, hb'⟩ := gaussStepSingle_preserve w M D D' (i' + 1) hi hMw hb hg
          obtain ⟨hl2, hb2⟩ := ih D' (by omega) hb'
          exact ⟨hl2.trans hl, hb2⟩

theorem phase3Step_spec (w : Nat) (M : Rows) (hMw : ∀ r ∈ M, r.length = w)
    (D : Rows) (i : Nat) (hi : i < D.length) (hb : IsLeftNullBasis w D M) :
    ∃ D', phase3Step D i = .ok D' ∧ D'.length = D.length ∧
      IsLeftNullBasis w D' M := by
  unfold phase3Step
  by_cases hlen : D.length ≤ i + 1
  · rw [if_pos hlen]
    exact ⟨D, rfl, rfl, hb⟩
  · rw [if_neg hlen]
    cases hms : maxSetBit (D.getD i []) with
    | none => exact absurd hms (basis_row_nonzero w M D hb i hi)
    | some h =>
        refine ⟨List.mapIdx
          (fun j r => if i < j ∧ bit r h then xorRow r (D.getD i []) else r) D,
          rfl, ?_, ?_⟩
        all_goals {
          have hconv : List.mapIdx
              (fun j r => if i < j ∧ bit r h then xorRow r (D.getD i []) else r) D =
              addSel ((List.range D.length).map
                (fun j => decide (i < j ∧ bit (D.getD j []) h))) D (D.getD i []) := by
            rw [show (fun j r => if i < j ∧ bit r h
                  then xorRow r (D.getD i []) else r) =
                (fun (j : Nat) (r : Row) => if decide (i < j ∧ bit r h) = true
                  then xorRow r (D.getD i []) else r) from
              funext fun j => funext fun r => ite_decide _ _ _]
            exact mapIdx_eq_addSel D (D.getD i [])
              (fun j r => decide (i < j ∧ bit r h))
          rw [hconv]
          first
          | (rw [addSel_length, List.length_map, List.length_range]; omega)
          | exact basis_addSel w M D _ i hi
              (by rw [List.length_map, List.length_range])
              (by rw [range_map_getD _ _ i hi]; simp) hMw hb
        }

theorem phase3_fold (w : Nat) (M : Rows) (hMw : ∀ r ∈ M, r.length = w) :
    ∀ (l : List Nat) (D : Rows), IsLeftNullBasis w D M →
      (∀ i ∈ l, i < D.length) →
      ∃ D', l.foldlM phase3Step D = .ok D' ∧ D'.length = D.length ∧
        IsLeftNullBasis w D' M := by
  intro l
  induction l with
  | nil =>
      intro D hb _
      exact ⟨D, rfl, rfl, hb⟩
  | cons i l ih =>
      intro D hb hl
      obtain ⟨D₁, hD₁, hlen₁, hb₁⟩ := phase3Step_spec w M hMw D i
        (hl i (List.mem_cons_self i l)) hb
      obtain ⟨D', hD', hlen', hb'⟩ := ih D₁ hb₁
        (fun x hx => by rw [hlen₁]; exact hl x (List.mem_cons_of_mem _ hx))
      refine ⟨D', ?_, hlen'.trans hlen₁, hb'⟩
      rw [List.foldlM_cons, hD₁]
      exact hD'

theorem swap_stage (w : Nat) (M₀ mat idr : Rows) (i sp1 : Nat)
    (hsw : sp1 < i) (hi : i < M₀.length)
    (hinv : GaussInv w M₀ mat idr) (h : Nat)
    (hpiv : maxSetBit (mat.getD sp1 []) = some h)
    (hbound : ∀ j, j ≤ i → ∀ m, maxSetBit (mat.getD j []) = some m → m ≤ h)
    (hdom : DominPivots mat (i + 1)) :
    GaussInv w M₀ (rowsSwap mat i sp1) (rowsSwap idr i sp1) ∧
    maxSetBit ((rowsSwap mat i sp1).getD i []) = some h ∧
    (∀ j, j ≤ i → ∀ m,
      maxSetBit ((rowsSwap mat i sp1).getD j []) = some m → m ≤ h) ∧
    DominPivots (rowsSwap mat i sp1) (i + 1) := by
  obtain ⟨hml, hil, hmw, hiw, hrel, hind, hspan⟩ := hinv
  have hiM : i < mat.length := by omega
  have hspM : sp1 < mat.length := by omega
  have hiI : i < idr.length := by omega
  have hspI : sp1 < idr.length := by omega
  have hne : i ≠ sp1 := ne_of_gt hsw
  have hgd : ∀ k, (rowsSwap mat i sp1).getD k [] =
      if k = sp1 then mat.getD i [] else if k = i then mat.getD sp1 []
      else mat.getD k [] := fun k => rowsSwap_getD mat i sp1 k hiM hspM
  refine ⟨⟨?_, ?_, ?_, ?_, ?_, ?_, ?_⟩, ?_, ?_, ?_⟩
  · rw [rowsSwap_length]; exact hml
  · rw [rowsSwap_length]; exact hil
  · exact rowsSwap_widths w mat i sp1 hiM hspM hmw
  · exact rowsSwap_widths M₀.length idr i sp1 hiI hspI hiw
  · exact compRel_rowsSwap w M₀ mat idr hrel i sp1 hiM hspM
  · exact indep_rowsSwap M₀.length idr i sp1 hne hiI hspI hiw hind
  · exact spanfull_rowsSwap M₀.length idr i sp1 hne hiI hspI hiw hspan
  · rw [hgd i, if_neg hne, if_pos rfl]
    exact hpiv
  · intro j hj m hm
    rw [hgd j] at hm
    by_cases hjs : j = sp1
    · rw [if_pos hjs] at hm
      exact hbound i (Nat.le_refl i) m hm
    · rw [if_neg hjs] at hm
      by_cases hji : j = i
      · rw [if_pos hji] at hm
        exact hbound sp1 (by omega) m hm
      · rw [if_neg hji] at hm
        exact hbound j hj m hm
  · intro k hk1 hk2
    rw [rowsSwap_length] at hk2
    have hks : ¬ k = sp1 := by omega
    have hki : ¬ k = i := by omega
    obtain ⟨hk, hhk, hdomk⟩ := hdom k hk1 hk2
    refine ⟨hk, ?_, ?_⟩
    · rw [hgd k, if_neg hks, if_neg hki]
      exact hhk
    · intro j hj m hm
      rw [hgd j] at hm
      by_cases hjs : j = sp1
      · rw [if_pos hjs] at hm
        exact hdomk i (by omega) m hm
      · rw [if_neg hjs] at hm
        by_cases hji : j = i
        · rw [if_pos hji] at hm
          exact hdomk sp1 (by omega) m hm
        · rw [if_neg hji] at hm
          exact hdomk j hj m hm

theorem elim_stage (w : Nat) (M₀ mat₁ idr₁ : Rows) (i h : Nat)
    (hM : ∀ r ∈ M₀, r.length = w) (hi : i < M₀.length)
    (hinv : GaussInv w M₀ mat₁ idr₁)
    (hpiv : maxSetBit (mat₁.getD i []) = some h)
    (hbound : ∀ j, j ≤ i → ∀ m, maxSetBit (mat₁.getD j []) = some m → m ≤ h)
    (hdom : DominPivots mat₁ (i + 1)) :
    GaussInv w M₀ (addSel (tsel mat₁ i h) mat₁ (mat₁.getD i []))
      (addSel (tsel mat₁ i h) idr₁ (idr₁.getD i [])) ∧
    DominPivots (addSel (tsel mat₁ i h) mat₁ (mat₁.getD i [])) i := by
  obtain ⟨hml, hil, hmw, hiw, hrel, hind, hspan⟩ := hinv
  have hiM : i < mat₁.length := by omega
  have hiI : i < idr₁.length := by omega
  have hpw : (mat₁.getD i []).length = w := rowsGetD_width w mat₁ hmw i hiM
  have htlen : (tsel mat₁ i h).length = mat₁.length := tsel_length mat₁ i h
  have hrow : ∀ k, k < mat₁.length →
      (addSel (tsel mat₁ i h) mat₁ (mat₁.getD i [])).getD k [] =
        if decide (k < i ∧ maxSetBit (mat₁.getD k []) = some h)
        then xorRow (mat₁.getD k []) (mat₁.getD i [])
        else mat₁.getD k [] := by
    intro k hk
    rw [addSel_getD _ _ _ k hk (by omega), tsel_getD mat₁ i h k hk]
  have hrow_ge : ∀ k, i ≤ k → k < mat₁.length →
      (addSel (tsel mat₁ i h) mat₁ (mat₁.getD i [])).getD k [] =
        mat₁.getD k [] := by
    intro k hik hk
    rw [hrow k hk, decide_eq_false (fun hand => absurd hand.1 (by omega)),
      if_neg (by simp : ¬ (false = true))]
  have hclaim_lt : ∀ j, j < i → ∀ m,
      maxSetBit ((addSel (tsel mat₁ i h) mat₁ (mat₁.getD i [])).getD j []) =
        some m → m < h := by
    intro j hj m hm
    rw [hrow j (by omega)] at hm
    by_cases hEq : maxSetBit (mat₁.getD j []) = some h
    · rw [decide_eq_true ⟨hj, hEq⟩, if_pos rfl] at hm
      exact maxSetBit_xor_lt _ _ h
        (by rw [rowsGetD_width w mat₁ hmw j (by omega), hpw]) hEq hpiv m hm
    · rw [decide_eq_false (fun hand => absurd hand.2 hEq),
        if_neg (by simp : ¬ (false = true))] at hm
      have hle : m ≤ h := hbound j (by omega) m hm
      have hne : m ≠ h := by
        intro he
        rw [he] at hm
        exact hEq hm
      omega
  constructor
  · refine ⟨?_, ?_, ?_, ?_, ?_, ?_, ?_⟩
    · rw [addSel_length, htlen]
      omega
    · rw [addSel_length, tsel_length, hml, hil]
      omega
    · exact addSel_widths w _ mat₁ _ hmw hpw
    · exact addSel_widths M₀.length _ idr₁ _ hiw
        (rowsGetD_width M₀.length idr₁ hiw i hiI)
    · exact compRel_addSel w M₀ mat₁ idr₁ hrel (tsel mat₁ i h) i hiM hiw hM
    · exact indep_addSel M₀.length idr₁ (tsel mat₁ i h) i hiI
        (by rw [htlen, hml, hil]) (tsel_getD_self mat₁ i h hiM) hiw hind
    · exact spanfull_addSel M₀.length idr₁ (tsel mat₁ i h) i hiI
        (by rw [htlen, hml, hil]) (tsel_getD_self mat₁ i h hiM) hiw hspan
  · intro k hk1 hk2
    rw [addSel_length, htlen] at hk2
    have hk2' : k < mat₁.length := by omega
    rcases Nat.eq_or_lt_of_le hk1 with heq | hgt
    · refine ⟨h, ?_, ?_⟩
      · rw [← heq, hrow_ge i (Nat.le_refl i) hiM]
        exact hpiv
      · intro j hj m hm
        rw [← heq] at hj
        exact Nat.lt_of_lt_of_le (hclaim_lt j hj m hm) (Nat.le_refl h)
    · obtain ⟨hk, hhk, hdomk⟩ := hdom k hgt hk2'
      have hhden : h < hk := hdomk i (by omega) h hpiv
      refine ⟨hk, ?_, ?_⟩
      · rw [hrow_ge k (by omega) hk2']
        exact hhk
      · intro j hj m hm
        rcases Nat.lt_or_ge j i with hji | hji
        · have := hclaim_lt j hji m hm
          omega
        · rw [hrow_ge j hji (by omega)] at hm
          exact hdomk j hj m hm

theorem gaussStep_spec (w : Nat) (M₀ : Rows) (hM : ∀ r ∈ M₀, r.length = w)
    (mat idr : Rows) (i : Nat) (hi : i < M₀.length)
    (hinv : GaussInv w M₀ mat idr) (hdom : DominPivots mat (i + 1)) :
    (gaussStep mat idr i = none ∧ ∀ j, j ≤ i → maxSetBit (mat.getD j []) = none) ∨
    (∃ mat' idr', gaussStep mat idr i = some (mat', idr') ∧
      GaussInv w M₀ mat' idr' ∧ DominPivots mat' i) := by
  cases hsp : (scanPivot mat i).2 with
  | none =>
      left
      constructor
      · unfold gaussStep
        dsimp only
        rw [hsp]
      · exact scanPivot_none_spec mat i hsp
  | some h =>
      right
      obtain ⟨hpiv, hbound⟩ := scanPivot_some_spec mat i h hsp
      have hsple : (scanPivot mat i).1 ≤ i := scanPivot_fst_le mat i
      have hgeq : gaussStep mat idr i =
          some (elimPair
            (if (scanPivot mat i).1 < i
              then rowsSwap mat i (scanPivot mat i).1 else mat)
            (if (scanPivot mat i).1 < i
              then rowsSwap idr i (scanPivot mat i).1 else idr) i h) := by
        unfold gaussStep
        dsimp only
        rw [hsp]
        dsimp only
        by_cases hsw : (scanPivot mat i).1 < i
        · rw [if_pos hsw, if_pos hsw, if_pos hsw]
        · rw [if_neg hsw, if_neg hsw, if_neg hsw]
      by_cases hsw : (scanPivot mat i).1 < i
      · rw [if_pos hsw, if_pos hsw] at hgeq
        obtain ⟨hinv₁, hpiv₁, hbound₁, hdom₁⟩ := swap_stage w M₀ mat idr i
          (scanPivot mat i).1 hsw hi hinv h hpiv hbound hdom
        obtain ⟨hinv₂, hdom₂⟩ := elim_stage w M₀
          (rowsSwap mat i (scanPivot mat i).1)
          (rowsSwap idr i (scanPivot mat i).1) i h hM hi hinv₁ hpiv₁ hbound₁ hdom₁
        refine ⟨_, _, ?_, hinv₂, hdom₂⟩
        rw [hgeq, elimPair_eq_addSel _ _ i h]
        rw [rowsSwap_length, rowsSwap_length]
        exact (compRel_length w M₀ mat idr hinv.2.2.2.2.1).symm
      · rw [if_neg hsw, if_neg hsw] at hgeq
        have hspi : (scanPivot mat i).1 = i := by omega
        rw [hspi] at hpiv
        obtain ⟨hinv₂, hdom₂⟩ := elim_stage w M₀ mat idr i h hM hi hinv hpiv
          hbound hdom
        refine ⟨_, _, ?_, hinv₂, hdom₂⟩
        rw [hgeq, elimPair_eq_addSel _ _ i h]
        exact (compRel_length w M₀ mat idr hinv.2.2.2.2.1).symm

theorem phase1Go_spec (w : Nat) (M₀ : Rows) (hM : ∀ r ∈ M₀, r.length = w) :
    ∀ (i : Nat) (mat idr : Rows), i < M₀.length →
    GaussInv w M₀ mat idr → DominPivots mat (i + 1) →
    ∃ mat' idr' L, phase1Go mat idr i (i + 1) = (mat', idr', L) ∧
      GaussInv w M₀ mat' idr' ∧
      (∀ j, j < L → maxSetBit (mat'.getD j []) = none) ∧
      DominPivots mat' L ∧ L ≤ M₀.length := by
  intro i
  induction i with
  | zero =>
      intro mat idr hi hinv hdom
      rcases gaussStep_spec w M₀ hM mat idr 0 hi hinv hdom with
        ⟨hg, hz⟩ | ⟨mat', idr', hg, hinv', hdom'⟩
      · refine ⟨mat, idr, 1, ?_, hinv, ?_, hdom, by omega⟩
        · unfold phase1Go
          rw [hg]
        · intro j hj
          have hj0 : j = 0 := by omega
          rw [hj0]
          exact hz 0 (Nat.le_refl 0)
      · refine ⟨mat', idr', 0, ?_, hinv', ?_, hdom', by omega⟩
        · unfold phase1Go
          rw [hg]
        · intro j hj
          exact absurd hj (by omega)
  | succ i' ih =>
      intro mat idr hi hinv hdom
      rcases gaussStep_spec w M₀ hM mat idr (i' + 1) hi hinv hdom with
        ⟨hg, hz⟩ | ⟨mat', idr', hg, hinv', hdom'⟩
      · refine ⟨mat, idr, i' + 2, ?_, hinv, ?_, hdom, by omega⟩
        · unfold phase1Go
          rw [hg]
        · intro j hj
          exact hz j (by omega)
      · obtain ⟨mat'', idr'', L, heq, hinv'', hz'', hdom'', hL⟩ :=
          ih mat' idr' (by omega) hinv' hdom'
        refine ⟨mat'', idr'', L, ?_, hinv'', hz'', hdom'', hL⟩
        unfold phase1Go
        rw [hg]
        exact heq

theorem phase1_top (w : Nat) (M : Rows) (hMw : ∀ r ∈ M, r.length = w)
    (hne : M.length ≠ 0) (hnz : ∃ r ∈ M, maxSetBit r ≠ none) :
    ∃ mat' idr' L,
      phase1Go M (identityRows M.length) (M.length - 1) 0 = (mat', idr', L) ∧
      GaussInv w M mat' idr' ∧
      (∀ j, j < L → maxSetBit (mat'.getD j []) = none) ∧
      DominPivots mat' L ∧ L ≤ M.length := by
  have hinv0 : GaussInv w M M (identityRows M.length) := by
    refine ⟨rfl, identityRows_length M.length, hMw,
      identityRows_widths M.length, ?_, ?_, ?_⟩
    · apply compRel_of_getD
      · rw [identityRows_length]
      · intro k hk
        rw [identityRows_getD M.length k hk]
        exact (combine_single w M k hk hMw).symm
    · intro c hc hzero
      rw [identityRows_length] at hc
      rw [combineRows_identity M.length c hc] at hzero
      intro x hx
      rw [hzero] at hx
      exact List.eq_of_mem_replicate hx
    · intro v hv
      refine ⟨v, ?_, combineRows_identity M.length v hv⟩
      rw [identityRows_length]
      exact hv
  have hdom0 : DominPivots M ((M.length - 1) + 1) := by
    intro k hk1 hk2
    exact absurd hk2 (by omega)
  rcases gaussStep_spec w M hMw M (identityRows M.length) (M.length - 1)
      (by omega) hinv0 hdom0 with
    ⟨hg, hz⟩ | ⟨mat₁, idr₁, hg, hinv₁, hdom₁⟩
  · exfalso
    obtain ⟨r, hr, hrnz⟩ := hnz
    obtain ⟨k, hk, hkv⟩ := List.mem_iff_getElem.mp hr
    apply hrnz
    rw [← hkv, ← getD_eq_getElem M k [] hk]
    exact hz k (by omega)
  · cases hn1 : M.length - 1 with
    | zero =>
        refine ⟨mat₁, idr₁, 0, ?_, hinv₁, fun j hj => absurd hj (by omega),
          ?_, by omega⟩
        · rw [hn1] at hg
          unfold phase1Go
          rw [hg]
        · rw [hn1] at hdom₁
          exact hdom₁
    | succ i' =>
        obtain ⟨mat'', idr'', L, heq, hinv'', hz'', hdom'', hL⟩ :=
          phase1Go_spec w M hMw i' mat₁ idr₁ (by omega) hinv₁
            (by rw [hn1] at hdom₁; exact hdom₁)
        refine ⟨mat'', idr'', L, ?_, hinv'', hz'', hdom'', hL⟩
        rw [hn1] at hg
        unfold phase1Go
        rw [hg]
        exact heq

theorem getD_take (l : List α) (n i : Nat) (d : α) (hi : i < n) :
    (l.take n).getD i d = l.getD i d := by
  induction n generalizing l i with
  | zero => exact absurd hi (by omega)
  | succ n' ih =>
      cases l with
      | nil => rw [List.take_nil]
      | cons a as =>
          cases i with
          | zero => rfl
          | succ i' =>
              rw [List.take_succ_cons,
                show List.getD (a :: as.take n') (i' + 1) d = (as.take n').getD i' d
                  from rfl,
                show List.getD (a :: as) (i' + 1) d = as.getD i' d from rfl]
              exact ih as i' (by omega)

theorem combine_compRel (w : Nat) (M₀ : Rows) (hM : ∀ r ∈ M₀, r.length = w) :
    ∀ (mat idr : Rows), CompRel w M₀ mat idr →
    (∀ r ∈ idr, r.length = M₀.length) →
    ∀ c : List Bool,
      combineRows w c mat = combineRows w (combineRows M₀.length c idr) M₀ := by
  intro mat idr hrel
  unfold CompRel at hrel
  induction hrel with
  | nil =>
      intro _ c
      rw [combineRows_nil_right, combineRows_nil_right]
      exact (combineRows_allfalse w _ M₀
        (fun x hx => List.eq_of_mem_replicate hx)).symm
  | @cons m d mat' idr' hmr htl ih =>
      intro hiw c
      have hd : d.length = M₀.length := hiw d (List.mem_cons_self d idr')
      have hiw' : ∀ r ∈ idr', r.length = M₀.length :=
        fun r hr => hiw r (List.mem_cons_of_mem _ hr)
      have hmatw' : ∀ r ∈ mat', r.length = w := by
        intro r hr
        obtain ⟨k, hk, hkv⟩ := List.mem_iff_getElem.mp hr
        rw [← hkv, ← getD_eq_getElem mat' k [] hk,
          compRel_getD w M₀ mat' idr' htl k hk]
        exact combineRows_length w _ M₀ hM
      have hm : m.length = w := by
        rw [hmr]
        exact combineRows_length w d M₀ hM
      cases c with
      | nil =>
          rw [combineRows_nil_left, combineRows_nil_left]
          exact (combineRows_allfalse w _ M₀
            (fun x hx => List.eq_of_mem_replicate hx)).symm
      | cons a c' =>
          rw [combineRows_cons w a c' m mat' hm hmatw',
            combineRows_cons M₀.length a c' d idr' hd hiw']
          have hCI : (combineRows M₀.length c' idr').length = M₀.length :=
            combineRows_length M₀.length c' idr' hiw'
          cases a with
          | false =>
              simp only [if_neg (by simp : ¬ (false = true))]
              exact ih hiw' c'
          | true =>
              simp only [if_pos rfl, if_true]
              rw [combineRows_linear w (combineRows M₀.length c' idr') d M₀
                (by rw [hCI, hd]) hM]
              rw [ih hiw' c', hmr]

theorem kept_basis (w : Nat) (M : Rows) (hMw : ∀ r ∈ M, r.length = w)
    (mat' idr' : Rows) (L : Nat)
    (hinv : GaussInv w M mat' idr')
    (hz : ∀ j, j < L → maxSetBit (mat'.getD j []) = none)
    (hdom : DominPivots mat' L) (hL : L ≤ M.length) :
    IsLeftNullBasis w (idr'.take L) M ∧ (idr'.take L).length = L := by
  obtain ⟨hml, hil, hmw, hiw, hrel, hind, hspan⟩ := hinv
  have hkl : (idr'.take L).length = L := by
    rw [List.length_take]
    omega
  refine ⟨⟨?_, ?_, ?_⟩, hkl⟩
  · intro r hr
    obtain ⟨k, hk0, hkv⟩ := List.mem_iff_getElem.mp hr
    have hkL : k < L := by
      have hx := hk0
      rw [hkl] at hx
      exact hx
    have hrk : r = idr'.getD k [] := by
      rw [← hkv, ← getD_eq_getElem (idr'.take L) k [] hk0]
      exact getD_take idr' L k [] hkL
    constructor
    · rw [hrk]
      exact rowsGetD_width M.length idr' hiw k (by omega)
    · rw [hrk, ← compRel_getD w M mat' idr' hrel k (by omega)]
      apply allFalse_eq_zeroRow _ _ (rowsGetD_width w mat' hmw k (by omega))
      exact fun i => (maxSetBit_eq_none_iff _).mp (hz k hkL) i
  · intro c hc hzero
    rw [hkl] at hc
    rw [combineRows_take M.length c idr' L (by omega)] at hzero
    have hzero' : combineRows M.length
        (c ++ List.replicate (M.length - L) false) idr' = zeroRow M.length := by
      rw [combineRows_append_false M.length c (M.length - L) idr' hiw]
      exact hzero
    have hall := hind _
      (by rw [List.length_append, List.length_replicate, hil]; omega) hzero'
    intro x hx
    exact hall x (List.mem_append_left _ hx)
  · intro v hv hann
    obtain ⟨c, hc, hcomb⟩ := hspan v hv
    have hcM : combineRows w c mat' = zeroRow w := by
      rw [combine_compRel w M hMw mat' idr' hrel hiw c, hcomb]
      exact hann
    have hzrows : ∀ j, j < L → mat'.getD j [] = zeroRow w := by
      intro j hj
      apply allFalse_eq_zeroRow _ _ (rowsGetD_width w mat' hmw j (by omega))
      exact fun i => (maxSetBit_eq_none_iff _).mp (hz j hj) i
    have hdropz : combineRows w (c.drop L) (mat'.drop L) = zeroRow w := by
      rw [← combineRows_dropZero w c mat' L (by omega)
        (by rw [hc, hil]; omega) hzrows hmw]
      exact hcM
    have hdomd : DominPivots (mat'.drop L) 0 := by
      intro k _ hk2
      rw [List.length_drop] at hk2
      obtain ⟨hk, hhk, hdomk⟩ := hdom (L + k) (by omega) (by omega)
      refine ⟨hk, ?_, ?_⟩
      · rw [getD_drop]
        exact hhk
      · intro j hj m hm
        rw [getD_drop] at hm
        exact hdomk (L + j) (by omega) m hm
    have hdw : ∀ r ∈ mat'.drop L, r.length = w :=
      fun r hr => hmw r (List.mem_of_mem_drop hr)
    have hdall := pivot_indep w (mat'.drop L) hdw hdomd (c.drop L)
      (by rw [List.length_drop, List.length_drop, hc, hil, hml]) hdropz
    have hrepl : c.drop L = List.replicate (c.drop L).length false :=
      List.eq_replicate_of_mem hdall
    refine ⟨c.take L, by rw [hkl, List.length_take, hc, hil]; omega, ?_⟩
    rw [combineRows_take M.length (c.take L) idr' L
      (by rw [List.length_take]; omega)]
    rw [← combineRows_append_false M.length (c.take L) (c.drop L).length idr' hiw]
    rw [← hrepl, List.take_append_drop]
    exact hcomb

/-! ### Claim theorems -/

/-- Claim C2 (counterexample): on the all-zero one-row matrix `[[false]]`
the bottom-up Gaussian loop breaks in its first iteration leaving
`loop_id = 0`, so `extract_linear_dependencies` returns the empty matrix
even though the left null-space of `[[false]]` is nontrivial — the empty
row set cannot reach the annihilating vector `[true]`. -/
theorem extract_linear_dependencies_counterexample :
    (∀ r ∈ [[false]], r.length = 1) ∧
    extract_linear_dependencies [[false]] = POut.ok [] ∧
    ¬ IsLeftNullBasis 1 [] [[false]] := by
  refine ⟨by decide, by decide, ?_⟩
  intro hb
  obtain ⟨c, hc, hv⟩ := hb.2.2 [true] (by decide) (by decide)
  rw [List.length_eq_zero.mp hc] at hv
  exact absurd hv (by decide)

/-- Claim C2 (amended): for every matrix whose rows share one width and
which is either empty or has at least one nonzero row,
`extract_linear_dependencies` returns (without panicking) a matrix `D`
whose rows annihilate `M`, are linearly independent, and span the left
null-space of `M`.  The all-zero nonempty matrix is excluded: there the
function drops the whole identity block and returns an empty basis. -/
theorem extract_linear_dependencies_basis (M : Rows) (w : Nat)
    (hMw : ∀ r ∈ M, r.length = w)
    (hnz : M = [] ∨ ∃ r ∈ M, maxSetBit r ≠ none) :
    ∃ D, extract_linear_dependencies M = POut.ok D ∧ IsLeftNullBasis w D M := by
  rcases hnz with rfl | hnz
  · refine ⟨[], rfl, ?_, ?_, ?_⟩
    · intro r hr
      exact absurd hr (List.not_mem_nil r)
    · intro c hc _ x hx
      have hc0 : c = [] := List.length_eq_zero.mp (by simpa using hc)
      rw [hc0] at hx
      exact absurd hx (List.not_mem_nil x)
    · intro v hv _
      refine ⟨[], rfl, ?_⟩
      rw [List.length_eq_zero.mp (by simpa using hv : v.length = 0)]
      rfl
  · have hne : M.length ≠ 0 := by
      intro h0
      obtain ⟨r, hr, _⟩ := hnz
      rw [List.length_eq_zero.mp h0] at hr
      exact absurd hr (List.not_mem_nil r)
    obtain ⟨mat', idr', L, hphase, hinv, hz, hdom, hL⟩ :=
      phase1_top w M hMw hne hnz
    obtain ⟨hbk, hkl⟩ := kept_basis w M hMw mat' idr' L hinv hz hdom hL
    unfold extract_linear_dependencies
    dsimp only
    rw [if_neg hne, hphase]
    dsimp only
    by_cases hL0 : (idr'.take L).length = 0
    · rw [if_pos hL0]
      refine ⟨idr'.take L, ?_, hbk⟩
      rw [hL0]
      rfl
    · rw [if_neg hL0]
      obtain ⟨hp2l, hp2b⟩ := phase2Go_preserves w M hMw
        ((idr'.take L).length - 1) (idr'.take L) (by omega) hbk
      obtain ⟨D', hD', hlD', hbD'⟩ := phase3_fold w M hMw
        (List.range (phase2Go (idr'.take L) ((idr'.take L).length - 1)).length)
        (phase2Go (idr'.take L) ((idr'.take L).length - 1)) hp2b
        (fun i hi => by rw [List.mem_range] at hi; exact hi)
      exact ⟨D', hD', hbD'⟩

/-- Witness for claim C2 on the concrete rank-one matrix with two equal
rows. -/
theorem extract_linear_dependencies_basis_witness :
    (∀ r ∈ [[true, false], [true, false]], r.length = 2) ∧
    (([[true, false], [true, false]] : Rows) = [] ∨
      ∃ r ∈ [[true, false], [true, false]], maxSetBit r ≠ none) ∧
    ∃ D, extract_linear_dependencies [[true, false], [true, false]] = POut.ok D ∧
      IsLeftNullBasis 2 D [[true, false], [true, false]] :=
  ⟨by decide, Or.inr (by decide),
    extract_linear_dependencies_basis [[true, false], [true, false]] 2
      (by decide) (Or.inr (by decide))⟩


/-- Claim C1 (counterexample): on the well-formed system `infeasSystem`,
absorbing level 1 (a non-source level whose nodes have no `e1` edge)
along `e1` makes the public operation `System::absorb` panic — the
infeasibility is not signalled as a returned failure. -/
theorem absorb_infeasible_counterexample :
    infeasBdd.WF ∧
    System.absorb infeasSystem 0 1 true = .panic "System has no solutions" :=
  ⟨by decide, by rfl⟩

/-- Claim C1 (amended): for every system and BDD in it, absorbing a
non-source, in-range level whose nodes — after keeping only the
`edge_value`-edges — yield an empty child set makes `System::absorb`
panic with `System has no solutions` instead of returning a failure;
the validation errors (bad id, out-of-range level) are returned as
failures. -/
theorem absorb_infeasible_panics (s : System) (bdd_id li : Nat) (edge : Bool) (b : Bdd)
    (hb : alookup bdd_id s.bdds = some b)
    (hnz : li ≠ 0)
    (hrange : li < b.get_sink_level_index)
    (hempty : ∀ p ∈ (b.levelAt li).nodes, (if edge then p.2.e1 else p.2.e0) = none) :
    System.absorb s bdd_id li edge = .panic "System has no solutions" := by
  unfold System.absorb
  rw [hb]
  simp only
  rw [if_neg (by omega : ¬ li ≥ b.get_sink_level_index)]
  have habs : Bdd.absorb b li edge = .panic "System has no solutions" := by
    unfold Bdd.absorb
    rw [if_neg hnz]
    simp only [absorbFold_nil (b.levelAt li).nodes edge [] hempty]
    rfl
  rw [habs]
  rfl

/-- Claim C1 (witness for the amended theorem). -/
theorem absorb_infeasible_panics_witness :
    System.absorb infeasSystem 0 1 true = .panic "System has no solutions" :=
  absorb_infeasible_panics infeasSystem 0 1 true infeasBdd (by rfl) (by decide)
    (by decide) (by decide)

/-- Claim C3 (counterexample): after the three public `fix` operations
`x0+x2 = 0`, `x1 = 0`, `x0 = 0` on an empty 3-variable system, the bank
holds `[x0+x2, x1, x0]`, and the pivot of the third equation (bit 0) is
still set in the first — the claimed symmetric reduced-row-echelon
invariant fails. -/
theorem lin_bank_sym_reduced_counterexample :
    (System.fix ⟨[], 3, ⟨[]⟩⟩ [0, 2] false).bind
        (fun r₁ => (System.fix r₁.2 [1] false).bind
          (fun r₂ => System.fix r₂.2 [0] false)) =
      .ok (.ok (), ⟨[], 3, ⟨[⟨[true, false, true], false⟩, ⟨[false, true, false], false⟩,
        ⟨[true, false, false], false⟩]⟩⟩) ∧
    ¬ BankReducedSym ⟨[⟨[true, false, true], false⟩, ⟨[false, true, false], false⟩,
        ⟨[true, false, false], false⟩]⟩ := by
  constructor
  · rfl
  · intro h
    exact absurd
      (h.2 2 (by decide) 0 (by decide) (by decide) 0 (by decide)) (by decide)

/-- Claim C3 (amended): the bank invariant the code maintains after every
`LinBank` push — and hence after every public `fix` — is one-directional:
no stored equation has a zero lhs, and no later-stored equation has an
earlier equation's pivot bit set (an earlier equation may still contain
the pivot of a later one). -/
theorem lin_bank_one_directional_invariant :
    (∀ (w : Nat) (bank : LinBank) (e : LinEq), BankWidth w bank → e.lhs.length = w →
        BankReducedOneDir bank →
        ∃ r bank', bank.push_lin_eq e = .ok (r, bank') ∧
          BankReducedOneDir bank' ∧ BankWidth w bank') ∧
    (∀ (s : System) (vars : List Nat) (rhs : Bool) (r : Except String Unit) (s' : System),
        BankWidth s.nvar s.lin_bank → BankReducedOneDir s.lin_bank →
        s.fix vars rhs = .ok (r, s') →
        BankReducedOneDir s'.lin_bank ∧ BankWidth s.nvar s'.lin_bank) := by
  constructor
  · intro w bank e hw he hinv
    obtain ⟨r, bank', hrun, hinv', hw', _⟩ := push_lin_eq_preserves w bank e hw he hinv
    exact ⟨r, bank', hrun, hinv', hw'⟩
  · intro s vars rhs r s' hw hinv hfix
    unfold System.fix at hfix
    cases hrow : buildFixLhs s.nvar vars with
    | panic m => rw [hrow] at hfix; cases hfix
    | ok row =>
        rw [hrow] at hfix
        simp only [POut.bind_ok] at hfix
        unfold System.push_lin_eq_to_lin_bank at hfix
        obtain ⟨r₀, bank', hpush, hinv', hw', _⟩ :=
          push_lin_eq_preserves s.nvar s.lin_bank ⟨row, rhs⟩ hw
            (buildFixLhs_length s.nvar vars row hrow) hinv
        rw [hpush] at hfix
        simp only [POut.bind_ok] at hfix
        cases r₀ with
        | none =>
            simp only [POut.bind_ok] at hfix
            cases hfix
            exact ⟨hinv', hw'⟩
        | some eq =>
            dsimp only at hfix
            cases hm : maxSetBit eq.lhs with
            | none => rw [hm] at hfix; cases hfix
            | some var =>
                rw [hm] at hfix
                dsimp only at hfix
                cases hfold : (s.bdds.foldlM
                    (fun (acc : List (Nat × Bdd)) (p : Nat × Bdd) =>
                      (p.2.replace_var_in_bdd var eq).map fun b' => acc ++ [(p.1, b')])
                    []) with
                | panic m => rw [hfold] at hfix; cases hfix
                | ok bdds' =>
                    rw [hfold] at hfix
                    simp only [POut.bind_ok] at hfix
                    cases hfix
                    exact ⟨hinv', hw'⟩

/-- Claim C3 (witness for the amended theorem): fixing `x0 = 1` on the
two-equation bank of `bankOnlySystem` preserves the one-directional
invariant. -/
theorem lin_bank_one_directional_invariant_witness :
    BankReducedOneDir
      (⟨[], 3, ⟨[⟨[true, false, true], true⟩, ⟨[false, true, false], false⟩,
        ⟨[true, false, false], true⟩]⟩⟩ : System).lin_bank :=
  (lin_bank_one_directional_invariant.2 bankOnlySystem [0] true (.ok ())
    ⟨[], 3, ⟨[⟨[true, false, true], true⟩, ⟨[false, true, false], false⟩,
      ⟨[true, false, false], true⟩]⟩⟩ (by decide) (by decide) (by rfl)).1

/-- Claim C5 (counterexample): on the repository's own four-level test
BDD, two successive `add(0, 2)` operations (non-adjacent, with level 2
above the sink) do not restore the forms: level 2 ends with
`x0+x1+x3+x4` instead of `x0+x4`. -/
theorem add_twice_nonadjacent_counterexample :
    2 < repoBdd.get_sink_level_index ∧
    ((repoBdd.add 0 2).add 0 2).levels.map Level.lhs ≠ repoBdd.levels.map Level.lhs := by
  constructor
  · decide
  · decide

/-- Claim C5 (amended): for adjacent levels (`j = i + 1`, with `j` above
the sink and the two forms of equal width), two successive `add(i, j)`
operations restore the form of every level. -/
theorem add_twice_adjacent_restores_forms (b : Bdd) (i : Nat)
    (hs : i + 1 < b.get_sink_level_index)
    (hw : (b.levelAt (i + 1)).lhs.length = (b.levelAt i).lhs.length) :
    ((b.add i (i + 1)).add i (i + 1)).levels.map Level.lhs =
      b.levels.map Level.lhs := by
  have hlen : i + 1 < b.levels.length := by
    unfold Bdd.get_sink_level_index at hs
    omega
  rw [add_adjacent_eq_addCore, add_adjacent_eq_addCore]
  rw [addCore_forms _ i (by rw [addCore_length]; omega)]
  rw [addCore_levelAt_below b i hlen, addCore_levelAt_above b i hlen]
  rw [addCore_forms b i (by omega)]
  rw [set_set_same]
  rw [xorRow_self_cancel _ _ hw]
  have hmap : (b.levels.map Level.lhs).getD (i + 1) [] = (b.levelAt (i + 1)).lhs := by
    have := getD_map b.levels Level.lhs (i + 1) ⟨[], []⟩
    simpa [Bdd.levelAt] using this
  rw [← hmap, set_getD_self _ _ _ (by simpa using hlen)]

/-- Claim C5 (witness for the amended theorem): on the repository test
BDD, the amended theorem applies to the adjacent pair `(1, 2)`. -/
theorem add_twice_adjacent_restores_forms_witness :
    ((repoBdd.add 1 2).add 1 2).levels.map Level.lhs = repoBdd.levels.map Level.lhs :=
  add_twice_adjacent_restores_forms repoBdd 1 (by decide) (by decide)

/-- Claim C6: the enumeration cap of `get_all_valid_path` fires only
after a 21st path has been collected: on a well-formed chain BDD with 32
accepting paths the function returns 21 paths — contradicting both the
claimed cap of 20 and the function's own documentation — and nothing in
the return value reports that the enumeration was capped. -/
theorem get_all_valid_path_returns_21 :
    (chainBdd 5).WF ∧
    (chainBdd 5).specPathCount = 32 ∧
    POut.map List.length ((chainBdd 5).get_all_valid_path) = .ok 21 :=
  ⟨by decide, by rfl, by rfl⟩

/-- Claim C8: on a system with no BDDs, `get_solutions` returns exactly
one solution vector — the result of `solve_linear_system` on the bank's
lhs matrix and rhs vector — leaving the system unchanged. -/
theorem get_solutions_empty_bdds (s : System) (h : s.bdds = []) :
    s.get_solutions =
      (fromRows s.lin_bank.get_lhs).bind (fun m =>
        (solve_linear_system m s.lin_bank.get_rhs).bind (fun sol =>
          POut.ok ([sol], s))) := by
  unfold System.get_solutions
  rw [h]
  rfl

/-- Claim C8 (witness). -/
theorem get_solutions_empty_bdds_witness :
    bankOnlySystem.get_solutions =
      (fromRows bankOnlySystem.lin_bank.get_lhs).bind (fun m =>
        (solve_linear_system m bankOnlySystem.lin_bank.get_rhs).bind (fun sol =>
          POut.ok ([sol], bankOnlySystem))) :=
  get_solutions_empty_bdds bankOnlySystem rfl

/-- Claim C10: `fix` is atomic on dependency failure — when the equation
built from `vars`/`rhs` reduces to a zero lhs against the bank, `fix`
returns the dependency error and the system (bank and BDDs alike) is
returned completely unchanged. -/
theorem fix_dependent_leaves_system_unchanged (s : System) (vars : List Nat) (rhs : Bool)
    (row : Row) (e' : LinEq)
    (hrow : buildFixLhs s.nvar vars = .ok row)
    (hred : pushReduce s.lin_bank.lin_eqs ⟨row, rhs⟩ = .ok e')
    (hzero : maxSetBit e'.lhs = none) :
    s.fix vars rhs =
      .ok (.error "linear equation non linearly independant from current LinBank", s) := by
  unfold System.fix System.push_lin_eq_to_lin_bank LinBank.push_lin_eq
  rw [hrow]
  simp only [POut.bind_ok]
  rw [hred]
  simp only [POut.bind_ok, hzero]

/-- Claim C4 (counterexample): a well-formed in-range BDD with bounded ids
and an orphan-free lower level, whose lower level carries two distinct
nodes with identical edge pairs; swapping levels 1 and 2 twice merges the
duplicates, so the result is not structurally equivalent to the original
(its level 2 has one node instead of two). -/
theorem swap_twice_counterexample :
    dupSwapBdd.WF ∧ 1 + 2 < dupSwapBdd.levels.length ∧
    (∀ l ∈ dupSwapBdd.levels, ∀ p ∈ l.nodes,
      p.1 < (dupSwapBdd.next_id + 1) * 10000) ∧
    (∀ p ∈ (dupSwapBdd.levelAt 2).nodes, ∃ q ∈ (dupSwapBdd.levelAt 1).nodes,
      q.2.e0 = some p.1 ∨ q.2.e1 = some p.1) ∧
    ¬ StructEquiv ((dupSwapBdd.swap 1).swap 1) dupSwapBdd := by
  refine ⟨by decide, by decide, by decide, by decide, ?_⟩
  rintro ⟨-, h2, -⟩
  have hget := (List.forall₂_iff_get.mp h2).2 2 (by decide) (by decide)
  exact absurd hget.2 (by decide)

/-- Witness for the amended claim C4 on the repository's own test BDD. -/
theorem swap_twice_struct_equiv_witness :
    StructEquiv ((repoBdd.swap 0).swap 0) repoBdd :=
  swap_twice_struct_equiv repoBdd 0 (by decide) (by decide) (by decide)
    (by decide) (by decide)


/-! ### Path-count correctness (claim C7) -/

theorem pout_bind_pure (x : POut α) : x.bind POut.ok = x := by
  cases x <;> rfl

theorem pout_foldlM_append (f : β → α → POut β) (b : β) (l l' : List α) :
    (l ++ l').foldlM f b = (l.foldlM f b).bind (fun x => l'.foldlM f x) := by
  induction l generalizing b with
  | nil => simp [List.foldlM]
  | cons a rest ih =>
      simp only [List.cons_append, List.foldlM]
      cases f b a with
      | panic m => rfl
      | ok x => simpa using ih x

theorem adjWeight_edge_none (l : Level) (rest : List Level) :
    adjWeight (levelWeights (l :: rest)) none = 0 := rfl

theorem adjWeight_edge_some (l : Level) (rest : List Level) (c : Nat) :
    adjWeight (levelWeights (l :: rest)) (some c) =
      (match alookup c l.nodes with
       | none => 0
       | some nd => if specWeight rest nd = 0 then 1 else specWeight rest nd) := by
  show (match alookup c (levelWeights (l :: rest)) with
        | none => 0
        | some w => if w = 0 then 1 else w) = _
  unfold levelWeights
  rw [alookup_map_values]
  cases hv : alookup c l.nodes with
  | none => rfl
  | some nd => rfl

theorem adjWeight_sum (rest : List Level) (n : Node) :
    adjWeight (levelWeights rest) n.e0 + adjWeight (levelWeights rest) n.e1 =
      specWeight rest n := by
  cases rest with
  | nil => cases h0 : n.e0 <;> cases h1 : n.e1 <;> rfl
  | cons l rest' =>
      unfold specWeight
      cases h0 : n.e0 <;> cases h1 : n.e1 <;>
        simp only [adjWeight_edge_none, adjWeight_edge_some]

theorem countLevel_go (rest : List Level) (nodes : List (Nat × Node))
    (acc : List (Nat × Nat))
    (hnd : (nodes.map Prod.fst).Nodup)
    (hdisj : ∀ p ∈ nodes, ∀ q ∈ acc, q.1 ≠ p.1)
    (hb : ∀ p ∈ nodes, specWeight rest p.2 < 2 ^ 128) :
    nodes.foldlM
      (fun acc p =>
        let w := adjWeight (levelWeights rest) p.2.e0 + adjWeight (levelWeights rest) p.2.e1
        if 2 ^ 128 ≤ w then POut.panic "the bdd has over 2^128 paths"
        else POut.ok (ainsert p.1 w acc)) acc =
      .ok (acc ++ nodes.map (fun p => (p.1, specWeight rest p.2))) := by
  induction nodes generalizing acc with
  | nil => simp [List.foldlM]
  | cons p rest' ih =>
      have hnd2 : (p.1 :: rest'.map Prod.fst).Nodup := by
        rw [← List.map_cons]
        exact hnd
      obtain ⟨hp1, hndrest⟩ := List.nodup_cons.mp hnd2
      simp only [List.foldlM]
      rw [show (adjWeight (levelWeights rest) p.2.e0 + adjWeight (levelWeights rest) p.2.e1)
          = specWeight rest p.2 from adjWeight_sum rest p.2]
      rw [if_neg (by have := hb p (by simp); omega)]
      rw [ainsert_fresh p.1 _ acc (fun q hq => hdisj p (by simp) q hq)]
      simp only [POut.monadBind_eq, POut.bind_ok]
      rw [ih (acc ++ [(p.1, specWeight rest p.2)]) hndrest ?_
        (fun x hx => hb x (by simp [hx]))]
      · simp
      · intro x hx q hq
        rcases List.mem_append.mp hq with hq | hq
        · exact hdisj x (by simp [hx]) q hq
        · simp only [List.mem_singleton] at hq
          subst hq
          intro hqx
          exact hp1 (List.mem_map.mpr ⟨x, hx, hqx.symm⟩)

theorem countLevel_spec (rest : List Level) (nodes : List (Nat × Node))
    (hnd : (nodes.map Prod.fst).Nodup)
    (hb : ∀ p ∈ nodes, specWeight rest p.2 < 2 ^ 128) :
    countLevel (levelWeights rest) nodes =
      .ok (nodes.map (fun p => (p.1, specWeight rest p.2))) := by
  have := countLevel_go rest nodes [] hnd (by simp) hb
  simpa [countLevel] using this

theorem countFold_spec (ls : List Level)
    (hnd : ∀ l ∈ ls, (l.nodes.map Prod.fst).Nodup)
    (hb : ∀ i ∈ List.range ls.length, ∀ p ∈ (ls.getD i ⟨[], []⟩).nodes,
        specWeight (ls.drop (i + 1)) p.2 < 2 ^ 128) :
    countFold ls = .ok (levelWeights ls) := by
  induction ls with
  | nil => rfl
  | cons l rest ih =>
      unfold countFold
      rw [List.reverse_cons, pout_foldlM_append]
      have hrest : countFold rest = .ok (levelWeights rest) := by
        refine ih (fun x hx => hnd x (by simp [hx])) ?_
        intro i hi p hp
        have := hb (i + 1) (by simp at hi ⊢; omega) p (by simpa using hp)
        simpa using this
      rw [show rest.reverse.foldlM (fun prev lvl => countLevel prev lvl.nodes) [] =
          countFold rest from rfl, hrest]
      simp only [POut.monadBind_eq, POut.bind_ok, List.foldlM]
      rw [show countLevel (levelWeights rest) l.nodes =
          .ok (l.nodes.map (fun p => (p.1, specWeight rest p.2))) from
        countLevel_spec rest l.nodes (hnd l (by simp))
          (fun p hp => by simpa using hb 0 (by simp) p (by simpa using hp))]
      rfl

theorem pathsToSink_pos (ls : List Level) (c : Nat) (hc : ChainOk ls)
    (hlook : (alookup c (ls.headD ⟨[], []⟩).nodes).isSome = true) (hne : ls ≠ []) :
    1 ≤ pathsToSink ls c := by
  induction ls generalizing c with
  | nil => exact absurd rfl hne
  | cons l rest ih =>
      have hlook' : (alookup c l.nodes).isSome = true := hlook
      obtain ⟨nd, hnd⟩ := Option.isSome_iff_exists.mp hlook'
      unfold pathsToSink
      rw [hnd]
      dsimp only
      cases hrest : rest with
      | nil => simp
      | cons l' rest' =>
          rw [if_neg (by simp)]
          have hmem : (c, nd) ∈ l.nodes := alookup_mem c l.nodes nd hnd
          rw [hrest] at hc
          obtain ⟨hedge, he0, he1⟩ := hc.1 (c, nd) hmem
          dsimp only at hedge he0 he1
          rcases Bool.or_eq_true_iff.mp hedge with h0 | h1
          · obtain ⟨e, he⟩ := Option.isSome_iff_exists.mp h0
            have hrec := ih e (by rw [hrest]; exact hc.2)
              (by rw [hrest]; exact he0 e (by simp [he])) (by rw [hrest]; simp)
            rw [hrest] at hrec
            rw [he]
            dsimp only
            omega
          · obtain ⟨e, he⟩ := Option.isSome_iff_exists.mp h1
            have hrec := ih e (by rw [hrest]; exact hc.2)
              (by rw [hrest]; exact he1 e (by simp [he])) (by rw [hrest]; simp)
            rw [hrest] at hrec
            rw [he]
            dsimp only
            omega

theorem specWeight_eq_nodePaths (ls : List Level) (n : Node) (hc : ChainOk ls) :
    specWeight ls n = nodePaths ls n := by
  induction ls generalizing n with
  | nil =>
      unfold specWeight nodePaths
      cases n.e0 <;> cases n.e1 <;> rfl
  | cons l rest ih =>
      have hedge : ∀ c, (match alookup c l.nodes with
          | none => 0
          | some nd => if specWeight rest nd = 0 then 1 else specWeight rest nd) =
          pathsToSink (l :: rest) c := by
        intro c
        unfold pathsToSink
        cases hv : alookup c l.nodes with
        | none => rfl
        | some nd =>
            dsimp only
            rw [ih nd (chainOk_tail l rest hc)]
            cases hrest : rest with
            | nil =>
                have hz : nodePaths ([] : List Level) nd = 0 := by
                  unfold nodePaths
                  cases nd.e0 <;> cases nd.e1 <;> rfl
                rw [hz]
                simp
            | cons l' rest' =>
                have hpos : 1 ≤ nodePaths (l' :: rest') nd := by
                  have hmem : (c, nd) ∈ l.nodes := alookup_mem c l.nodes nd hv
                  rw [hrest] at hc
                  obtain ⟨he, he0, he1⟩ := hc.1 (c, nd) hmem
                  dsimp only at he he0 he1
                  unfold nodePaths
                  rcases Bool.or_eq_true_iff.mp he with h0 | h1
                  · obtain ⟨e, hee⟩ := Option.isSome_iff_exists.mp h0
                    have := pathsToSink_pos (l' :: rest') e hc.2
                      (he0 e (by simp [hee])) (by simp)
                    rw [hee]
                    dsimp only
                    omega
                  · obtain ⟨e, hee⟩ := Option.isSome_iff_exists.mp h1
                    have := pathsToSink_pos (l' :: rest') e hc.2
                      (he1 e (by simp [hee])) (by simp)
                    rw [hee]
                    dsimp only
                    omega
                rw [if_neg (show ¬ nodePaths (l' :: rest') nd = 0 from by omega)]
                rw [if_neg (show ¬ (l' :: rest' : List Level) = [] from by simp)]
                rfl
      unfold specWeight nodePaths
      cases h0 : n.e0 with
      | none =>
          cases h1 : n.e1 with
          | none => rfl
          | some c1 =>
              dsimp only
              have h01 := hedge c1
              omega
      | some c0 =>
          cases h1 : n.e1 with
          | none =>
              dsimp only
              have h01 := hedge c0
              omega
          | some c1 =>
              dsimp only
              have h01 := hedge c0
              have h02 := hedge c1
              omega

set_option maxRecDepth 100000 in
/-- Claim C7 (counterexample): the well-formed 129-level chain BDD has
`2^128` source-to-sink paths, and `count_paths` panics on the `u128`
overflow instead of returning the count. -/
theorem count_paths_overflow_counterexample :
    (chainBdd 128).WF ∧
    (chainBdd 128).count_paths = .panic "the bdd has over 2^128 paths" :=
  ⟨by decide, by decide⟩

/-- Claim C7 (amended): for every BDD satisfying the data-model
invariants, `count_paths` returns 0 when the BDD has fewer than two
levels; otherwise, provided every node's number of sink-reaching paths
stays below `2^128` (no `u128` overflow), it returns exactly the number
of distinct source-to-sink paths. -/
theorem count_paths_correct (b : Bdd) (hwf : b.WF)
    (hb : ∀ i ∈ List.range b.levels.length, ∀ p ∈ (b.levelAt i).nodes,
        nodePaths (b.levels.drop (i + 1)) p.2 < 2 ^ 128) :
    (b.levels.length < 2 → b.count_paths = .ok 0) ∧
    (2 ≤ b.levels.length → b.count_paths = .ok b.specPathCount) := by
  constructor
  · intro h
    unfold Bdd.count_paths
    rw [if_pos h]
  · intro h
    obtain ⟨hne, hsrc, _, _, _, hnodup, hchain⟩ := hwf
    unfold Bdd.count_paths
    rw [if_neg (by omega)]
    have hnd : ∀ l ∈ b.levels, (l.nodes.map Prod.fst).Nodup := by
      intro l hl
      exact (List.nodup_flatten.mp hnodup).1 (l.nodes.map Prod.fst)
        (List.mem_map.mpr ⟨l, hl, rfl⟩)
    have hbs : ∀ i ∈ List.range b.levels.length, ∀ p ∈ (b.levels.getD i ⟨[], []⟩).nodes,
        specWeight (b.levels.drop (i + 1)) p.2 < 2 ^ 128 := by
      intro i hi p hp
      rw [specWeight_eq_nodePaths _ _ (chainOk_drop b.levels (i + 1) hchain)]
      exact hb i hi p hp
    have hfold := countFold_spec b.levels hnd hbs
    rw [show b.levels.reverse.foldlM (fun prev lvl => countLevel prev lvl.nodes)
        ([] : List (Nat × Nat)) = countFold b.levels from rfl]
    rw [hfold]
    unfold Bdd.specPathCount
    cases hlv : b.levels with
    | nil => exact absurd hlv hne
    | cons l0 rest =>
        have hsrc' : l0.nodes.length = 1 := by
          have := hsrc
          rw [Bdd.levelAt, hlv] at this
          exact this
        obtain ⟨p, hp⟩ := List.length_eq_one.mp hsrc'
        rw [show levelWeights (l0 :: rest) =
            l0.nodes.map (fun q => (q.1, specWeight rest q.2)) from rfl, hp]
        dsimp only [POut.bind_ok, List.map_cons, List.head?]
        rw [specWeight_eq_nodePaths rest p.2
          (chainOk_tail l0 rest (by rw [hlv] at hchain; exact hchain))]
        rw [hp]

/-- Claim C7 (witness for the amended theorem): on the repository test
BDD, `count_paths` returns exactly the source-to-sink path count. -/
theorem count_paths_correct_witness :
    repoBdd.count_paths = .ok repoBdd.specPathCount :=
  (count_paths_correct repoBdd (by decide) (by decide)).2 (by decide)

/-! ### `from_elem` characterisation (claim C9) -/

theorem get_nvar_size_ok (b : Bdd) (h : b.levels ≠ []) :
    b.get_nvar_size = .ok (nvarOf b) := by
  unfold Bdd.get_nvar_size nvarOf
  cases hl : b.levels with
  | nil => exact absurd hl h
  | cons l rest => rfl

theorem pushAll_ok_iff (l : List Bdd) (s : System) (hlv : ∀ b ∈ l, b.levels ≠ []) :
    (∃ s', pushAllBdds s l = .ok (.ok s')) ↔
      ((∀ b ∈ l, nvarOf b = s.nvar) ∧
        (l.map Bdd.id).Nodup ∧
        (∀ b ∈ l, alookup b.id s.bdds = none)) := by
  induction l generalizing s with
  | nil =>
      constructor
      · intro _
        exact ⟨by simp, by simp, by simp⟩
      · intro _
        exact ⟨s, rfl⟩
  | cons b rest ih =>
      have hrun : pushAllBdds s (b :: rest) =
          (s.push_bdd b).bind fun r =>
            match r with
            | .error e => .ok (.error e)
            | .ok s' => pushAllBdds s' rest := rfl
      unfold System.push_bdd at hrun
      rw [get_nvar_size_ok b (hlv b (by simp))] at hrun
      simp only [POut.bind_ok] at hrun
      by_cases hnv : nvarOf b ≠ s.nvar
      · rw [if_pos hnv] at hrun
        constructor
        · intro ⟨s', hs'⟩
          rw [hrun] at hs'
          cases hs'
        · intro ⟨h1, _, _⟩
          exact absurd (h1 b (by simp)) hnv
      · rw [if_neg hnv] at hrun
        push_neg at hnv
        by_cases hdup : (alookup b.id s.bdds).isSome = true
        · rw [if_pos hdup] at hrun
          constructor
          · intro ⟨s', hs'⟩
            rw [hrun] at hs'
            cases hs'
          · intro ⟨_, _, h3⟩
            rw [h3 b (by simp)] at hdup
            cases hdup
        · rw [if_neg hdup] at hrun
          simp only [POut.bind_ok] at hrun
          rw [hrun]
          rw [ih { s with bdds := ainsert b.id b s.bdds } (fun x hx => hlv x (by simp [hx]))]
          constructor
          · intro ⟨h1, h2, h3⟩
            refine ⟨?_, ?_, ?_⟩
            · intro x hx
              rcases List.mem_cons.mp hx with hx | hx
              · subst hx; exact hnv
              · exact h1 x hx
            · rw [List.map_cons, List.nodup_cons]
              constructor
              · intro hmem
                obtain ⟨x, hx, hxid⟩ := List.mem_map.mp hmem
                have := h3 x hx
                rw [alookup_ainsert] at this
                rw [if_pos hxid.symm] at this
                cases this
              · exact h2
            · intro x hx
              rcases List.mem_cons.mp hx with hx | hx
              · subst hx
                simp only [Option.isSome] at hdup
                cases hv : alookup x.id s.bdds with
                | none => rfl
                | some v => rw [hv] at hdup; exact absurd rfl hdup
              · have := h3 x hx
                rw [alookup_ainsert] at this
                by_cases hbid : b.id = x.id
                · rw [if_pos hbid] at this; cases this
                · rwa [if_neg hbid] at this
          · intro ⟨h1, h2, h3⟩
            rw [List.map_cons, List.nodup_cons] at h2
            refine ⟨fun x hx => h1 x (by simp [hx]), h2.2, ?_⟩
            intro x hx
            rw [alookup_ainsert]
            rw [if_neg (fun hbid => h2.1 (List.mem_map.mpr ⟨x, hx, hbid.symm⟩))]
            exact h3 x (by simp [hx])

/-- Claim C9: constructing a `System` from an empty BDD list fails with
an error, and for a non-empty list (of BDDs that each have a source
level, so that their `nvar` is defined) construction succeeds exactly
when every BDD's `nvar` equals the first one's and no two BDDs share an
id. On failure only the error is returned — no partial system. -/
theorem from_elem_spec (b₀ : Bdd) (rest : List Bdd)
    (hlv : ∀ b ∈ b₀ :: rest, b.levels ≠ []) :
    (System.from_elem [] = .ok (.error "Empty vec")) ∧
    ((∃ s, System.from_elem (b₀ :: rest) = .ok (.ok s)) ↔
      ((∀ b ∈ b₀ :: rest, nvarOf b = nvarOf b₀) ∧
        ((b₀ :: rest).map Bdd.id).Nodup)) := by
  refine ⟨rfl, ?_⟩
  have hrun : System.from_elem (b₀ :: rest) =
      pushAllBdds ⟨[], nvarOf b₀, ⟨[]⟩⟩ (b₀ :: rest) := by
    unfold System.from_elem
    dsimp only
    rw [get_nvar_size_ok b₀ (hlv b₀ (by simp))]
    rfl
  rw [hrun, pushAll_ok_iff (b₀ :: rest) ⟨[], nvarOf b₀, ⟨[]⟩⟩ hlv]
  constructor
  · intro ⟨h1, h2, _⟩
    exact ⟨h1, h2⟩
  · intro ⟨h1, h2⟩
    exact ⟨h1, h2, by simp⟩

/-- Claim C9 (witness): a singleton list with the repository test BDD
constructs successfully. -/
theorem from_elem_spec_witness :
    (∀ b ∈ [repoBdd], b.levels ≠ []) ∧
    (∃ s, System.from_elem [repoBdd] = .ok (.ok s)) :=
  ⟨by decide, (from_elem_spec repoBdd [] (by decide)).2.mpr ⟨by decide, by decide⟩⟩

/-- Claim C10 (witness): fixing `x0 = 1` against a bank already holding
`x0 = 0` reduces to the zero lhs; the system is returned unchanged. -/
theorem fix_dependent_leaves_system_unchanged_witness :
    depFixSystem.fix [0] true =
      .ok (.error "linear equation non linearly independant from current LinBank",
        depFixSystem) :=
  fix_dependent_leaves_system_unchanged depFixSystem [0] true [true] ⟨[false], true⟩
    (by rfl) (by rfl) (by rfl)

end Crush
